import Mathlib

/-!
# gr-sparsdr: time-encoded stream repair blocks

Shallow embedding of

* `lib/time_encoded_to_padded_stream_impl.cc` (the Padding Reconstructor),
* `lib/time_encoded_to_tagged_stream_impl.cc` (the Tag Extractor),
* the decoding of the compressed sample words in `lib/sample_print_impl.cc`
  and `lib/average_detector_impl.cc`,

and the properties of their `general_work` and `work` functions.

Conventions of the embedding.

* `uint32_t` and `uint64_t` values are natural numbers, reduced modulo
  `2^32` where the C++ arithmetic wraps; `int` values are integers, and the
  conversion of an unsigned 32-bit value to `int` is the two's complement one.
* `float` and `double` values are dyadic rationals `man * 2^exp`; every
  arithmetic operation is the exact operation followed by rounding to nearest,
  ties to even, to 24 (`float`) or 53 (`double`) significant bits.
* `noutput_items` and the `int` counters `written_items`, `consumed_items`,
  `i` and `deleted_samples` are natural numbers: they stay between 0 and
  `noutput_items`.
* The input buffer of a call is the list of the items that are available to
  it; reading an item that is not there is an out-of-range access and makes
  the call return `none`.
-/

namespace Sparsdr

/-! ## Binary floating point -/

/-- Finite binary floating-point value `man * 2^exp`. Infinities and NaN are
not represented. -/
structure Fp where
  man : Int
  exp : Int
deriving DecidableEq, Repr

/-- Integer part of the base-2 logarithm of `n`, by repeated halving; the
first argument bounds the number of halvings. -/
def ilog2_aux : Nat → Nat → Nat
  | 0, _ => 0
  | fuel + 1, n => if n < 2 then 0 else ilog2_aux fuel (n / 2) + 1

/-- Integer part of the base-2 logarithm of `n` (0 for `n = 0`). -/
def ilog2 (n : Nat) : Nat := ilog2_aux n n

/-- Integer part of the base-2 logarithm of the positive rational `num / den`. -/
def ilog2_ratio (num den : Nat) : Int :=
  let t : Int := (ilog2 num : Int) - (ilog2 den : Int)
  if den * 2 ^ t.toNat ≤ num * 2 ^ (-t).toNat then t else t - 1

/-- Round half to even of the non-negative rational `n / d` to an integer. -/
def round_half_even (n d : Nat) : Nat :=
  let q := n / d
  let r := n % d
  if 2 * r < d then q
  else if d < 2 * r then q + 1
  else if q % 2 = 0 then q else q + 1

/-- Rounding of the rational `num / den` to the nearest value with a
significand of `p` bits, ties to even: the IEEE 754 default rounding. The
exponent range is not bounded. For the conversions to `uint32_t` below this
makes no difference: a value beyond the exponent range of `float` is beyond
the range of `uint32_t`, and a value below it is less than one half. -/
def rne (p : Nat) (num : Int) (den : Nat) : Fp :=
  if num = 0 ∨ den = 0 then ⟨0, 0⟩
  else
    let a := num.natAbs
    let e : Int := ilog2_ratio a den - ((p : Int) - 1)
    let m := round_half_even (a * 2 ^ (-e).toNat) (den * 2 ^ e.toNat)
    ⟨if num < 0 then -(m : Int) else (m : Int), e⟩

/-- Numerator of a dyadic value over the denominator `Fp.den`. -/
def Fp.num (x : Fp) : Int := x.man * 2 ^ x.exp.toNat

/-- Denominator (a power of two) of a dyadic value. -/
def Fp.den (x : Fp) : Nat := 2 ^ (-x.exp).toNat

/-- The rational number that a dyadic value stands for. -/
def Fp.val (x : Fp) : ℚ := (x.num : ℚ) / (x.den : ℚ)

/-- Conversion of an unsigned integer to `float`. -/
def Fp.of_uint_f32 (n : Nat) : Fp := rne 24 (n : Int) 1

/-- Narrowing of a `double` to `float`. -/
def Fp.to_f32 (x : Fp) : Fp := rne 24 x.num x.den

/-- Multiplication in `double`. -/
def Fp.mul_f64 (x y : Fp) : Fp := rne 53 (x.num * y.num) (x.den * y.den)

/-- Division in `double`. A zero divisor is not modelled: the only divisor in
the source is the constant `1000000`. -/
def Fp.div_f64 (x y : Fp) : Fp :=
  if 0 ≤ y.num then rne 53 (x.num * y.den) (x.den * y.num.natAbs)
  else rne 53 (-(x.num * y.den)) (x.den * y.num.natAbs)

/-- Addition in `double`. -/
def Fp.add_f64 (x y : Fp) : Fp :=
  rne 53 (x.num * y.den + y.num * x.den) (x.den * y.den)

/-- Conversion of a floating-point value to `uint32_t`: the fractional part is
discarded (rounding toward zero). Outside the range of `uint32_t` the C++
conversion has no defined result; the embedding reduces modulo `2^32` there. -/
def Fp.to_uint32 (x : Fp) : Nat :=
  let t : Int := if 0 ≤ x.num then ((x.num.natAbs / x.den : Nat) : Int)
                 else -((x.num.natAbs / x.den : Nat) : Int)
  (t % 4294967296).toNat

/-- The `double` literal `10.24`: the nearest double to 1024/100. -/
def c_10_24 : Fp := rne 53 1024 100

/-- The `double` value of the literal `1000000`. -/
def c_1000000 : Fp := ⟨1000000, 0⟩

/-- The `double` literal `0.5`. -/
def c_0_5 : Fp := ⟨1, -1⟩

/-! ## Machine integers -/

/-- Two to the power 32. -/
def two32 : Nat := 4294967296

/-- Subtraction of `uint32_t` values. -/
def sub_u32 (a b : Nat) : Nat := (a % two32 + (two32 - b % two32)) % two32

/-- Conversion of a `uint32_t` value to `int`. -/
def to_int32 (a : Nat) : Int :=
  if a % two32 < 2147483648 then ((a % two32 : Nat) : Int)
  else ((a % two32 : Nat) : Int) - 4294967296

/-! ## Timestamp markers -/

/-- The marker test of both blocks:
`(item & 0x00000000ffffffff) == 0x00000000ffffffff`. -/
def is_marker (item : Nat) : Bool :=
  item &&& 0x00000000ffffffff == 0x00000000ffffffff

/-- The timestamp of an item: `uint32_t timestamp = curr_item >> 32`. -/
def marker_timestamp (item : Nat) : Nat := (item >>> 32) % two32

/-- The marker item that carries the timestamp `ts`. -/
def mk_marker (ts : Nat) : Nat := (ts <<< 32) ||| 0xffffffff

/-! ## Padding Reconstructor: `time_encoded_to_padded_stream_impl` -/

namespace time_encoded_to_padded_stream_impl

/-- Member variables of the block. -/
structure State where
  /-- Field `uint32_t d_last_timestamp`. -/
  d_last_timestamp : Nat
  /-- Field `uint32_t d_items_read_since_last_tag`. -/
  d_items_read_since_last_tag : Nat
  /-- Field `int d_remaining_padding_length`. -/
  d_remaining_padding_length : Int
  /-- Field `double d_sample_rate`. -/
  d_sample_rate : Fp
deriving DecidableEq, Repr

/-- What one call of `general_work` does: the argument of `consume_each`, the
items written to `out` (the return value is their number), and the member
variables after the call. -/
structure Result where
  consumed : Nat
  out : List Nat
  state : State
deriving DecidableEq, Repr

/-- The constructor: all counters start at zero. -/
def init (sample_rate : Fp) : State :=
  { d_last_timestamp := 0, d_items_read_since_last_tag := 0,
    d_remaining_padding_length := 0, d_sample_rate := sample_rate }

/-- Lines 106-107:
`float time_diff = float(timestamp_diff) * 10.24 * (d_sample_rate/1000000);`
`uint32_t sample_diff = uint32_t(time_diff+0.5);` -/
def sample_diff (d_sample_rate : Fp) (timestamp_diff : Nat) : Nat :=
  let time_diff : Fp :=
    Fp.to_f32 (Fp.mul_f64 (Fp.mul_f64 (Fp.of_uint_f32 timestamp_diff) c_10_24)
      (Fp.div_f64 d_sample_rate c_1000000))
  Fp.to_uint32 (Fp.add_f64 time_diff c_0_5)

/-- Lines 99-105: the local `timestamp_diff` when `curr_item` is a marker.
`if(d_last_timestamp==0) { d_last_timestamp = timestamp; }`
`uint32_t timestamp_diff = timestamp - d_last_timestamp;` -/
def timestamp_diff (s : State) (curr_item : Nat) : Nat :=
  let timestamp := marker_timestamp curr_item
  let last := if s.d_last_timestamp = 0 then timestamp else s.d_last_timestamp
  sub_u32 timestamp last

/-- Lines 99-114: the update of the member variables when `curr_item` is a
marker. -/
def on_marker (s : State) (curr_item : Nat) : State :=
  let sd := sample_diff s.d_sample_rate (timestamp_diff s curr_item)
  { d_last_timestamp := marker_timestamp curr_item,
    d_items_read_since_last_tag := 0,
    d_remaining_padding_length := to_int32 (sub_u32 sd s.d_items_read_since_last_tag),
    d_sample_rate := s.d_sample_rate }

/-- Lines 131-133: the update of the member variables when the item is copied. -/
def on_data (s : State) : State :=
  { s with d_items_read_since_last_tag := (s.d_items_read_since_last_tag + 1) % two32 }

/-- The body of the loops `while(d_remaining_padding_length>0)` (lines 79-89
and 117-127) for a positive count: `written_items` is the length of `out`; the
result is the output, the count that is left, and whether the function
returned from inside the loop because the output buffer was full. -/
def pad_loop (noutput_items : Nat) : List Nat → Nat → List Nat × Nat × Bool
  | out, 0 => (out, 0, false)
  | out, k + 1 =>
    if out.length ≥ noutput_items then (out, k + 1, true)
    else pad_loop noutput_items (out ++ [0]) k

/-- The loop `while(d_remaining_padding_length>0)` on the signed member
variable: a count that is not positive is left as it is. -/
def write_padding (noutput_items : Nat) (out : List Nat) (s : State) :
    List Nat × State × Bool :=
  if s.d_remaining_padding_length > 0 then
    let r := pad_loop noutput_items out s.d_remaining_padding_length.toNat
    (r.1, { s with d_remaining_padding_length := (r.2.1 : Int) }, r.2.2)
  else (out, s, false)

/-- Lines 92-135: the loop
`while(written_items<noutput_items && consumed_items<noutput_items)`.
`written_items` is the length of `out`, and `out[written_items] = x;
written_items++` appends `x`. The last argument holds the input items from
index `consumed_items` on. -/
def item_loop (noutput_items : Nat) :
    State → List Nat → Nat → List Nat → Option Result
  | s, out, consumed_items, input =>
    if out.length < noutput_items ∧ consumed_items < noutput_items then
      match input with
      | [] => none
      | curr_item :: rest =>
        if is_marker curr_item then
          match write_padding noutput_items out (on_marker s curr_item) with
          | (out1, s1, true) => some ⟨consumed_items + 1, out1, s1⟩
          | (out1, s1, false) => item_loop noutput_items s1 out1 (consumed_items + 1) rest
        else
          item_loop noutput_items (on_data s) (out ++ [curr_item]) (consumed_items + 1) rest
    else some ⟨consumed_items, out, s⟩

/-- Lines 66-143: one call of `general_work` on the member variables `s` with
the available input items `input`. -/
def general_work (noutput_items : Nat) (s : State) (input : List Nat) : Option Result :=
  match write_padding noutput_items [] s with
  | (out, s1, true) => some ⟨0, out, s1⟩
  | (out, s1, false) => item_loop noutput_items s1 out 0 input

/-- Repeated calls of `general_work` by the scheduler, each with the same
`noutput_items` and each on the input items that the calls before it did not
consume: the outputs of the calls one after the other, the number of items
consumed in total, and the member variables after the last call. -/
def run_calls (noutput_items : Nat) : Nat → State → List Nat → Option Result
  | 0, s, _ => some ⟨0, [], s⟩
  | calls + 1, s, input =>
    match general_work noutput_items s input with
    | none => none
    | some r =>
      match run_calls noutput_items calls r.state (input.drop r.consumed) with
      | none => none
      | some r2 => some ⟨r.consumed + r2.consumed, r.out ++ r2.out, r2.state⟩

/-- Two successive calls of `general_work`, the first with output capacity
`b1`, the second with capacity `b2` on the input that the first call did not
consume: the items consumed in total, the two outputs one after the other,
and the member variables after the second call. -/
def two_calls (b1 b2 : Nat) (s : State) (input : List Nat) : Option Result :=
  match general_work b1 s input with
  | none => none
  | some r1 =>
    match general_work b2 r1.state (input.drop r1.consumed) with
    | none => none
    | some r2 => some ⟨r1.consumed + r2.consumed, r1.out ++ r2.out, r2.state⟩

/-- The filler that a state owes: `max(0, d_remaining_padding_length)` zeros. -/
def owed_filler (s : State) : List Nat :=
  List.replicate s.d_remaining_padding_length.toNat 0

/-- The expansion of the items of a stream with unlimited output capacity,
after the specification: every data item is copied and every marker is
replaced by `max(0, owed)` zeros. -/
def expand_items : State → List Nat → List Nat
  | _, [] => []
  | s, item :: rest =>
    if is_marker item then
      owed_filler (on_marker s item) ++ expand_items (on_marker s item) rest
    else item :: expand_items (on_data s) rest

/-- The ideal expansion `E(s, xs)` of the specification: the owed filler
first, then the expansion of the items. -/
def ideal_expansion (s : State) (xs : List Nat) : List Nat :=
  owed_filler s ++ expand_items s xs

/-- The gap estimate of the specification in exact arithmetic,
`round(d * 10.24 * sample_rate / 1e6)`, for a non-negative sample rate
`rate.num / rate.den`. -/
def spec_expected (rate : Fp) (d : Nat) : Int :=
  (2 * ((d : Int) * 1024 * rate.num) + 100 * 1000000 * (rate.den : Int)) /
    (2 * (100 * 1000000 * (rate.den : Int)))

/-- The padding of the specification between two markers that are `d` ticks
apart with `k` data items between them:
`round(d * 10.24 * sample_rate / 1e6) - k` when positive, else 0. -/
def spec_padding (rate : Fp) (d k : Nat) : Int :=
  if 0 < spec_expected rate d - (k : Int) then spec_expected rate d - (k : Int) else 0

end time_encoded_to_padded_stream_impl

/-! ## Tag Extractor: `time_encoded_to_tagged_stream_impl` -/

namespace time_encoded_to_tagged_stream_impl

/-- Two to the power 64. -/
def two64 : Nat := 18446744073709551616

/-- A stream tag written by `add_item_tag(0, absolute_offset, d_key, val)`;
the key is always `d_key`, the symbol `timestamp`. -/
structure Tag where
  /-- The `uint64_t absolute_offset`. -/
  offset : Nat
  /-- The `float` carried by the `pmt` value. -/
  value : Fp
deriving DecidableEq, Repr

/-- What one call of `general_work` does: the return value, the argument of
`consume_each`, the items in the first `produced` slots of `out`, and the tags
in the order of the calls of `add_item_tag`. -/
structure Result where
  produced : Nat
  consumed : Nat
  out : List Nat
  tags : List Tag
deriving DecidableEq, Repr

/-- Line 84 (as meant, the parenthesis closed):
`float time = float(in[i] >> 32)*10.24;` -/
def tag_time (item : Nat) : Fp :=
  Fp.to_f32 (Fp.mul_f64 (Fp.of_uint_f32 ((item >>> 32) % two64)) c_10_24)

/-- Line 81: `uint64_t absolute_offset = nitems_written(0) + i - deleted_samples;` -/
def absolute_offset (nitems_written i deleted_samples : Nat) : Nat :=
  ((nitems_written + i) % two64 + (two64 - deleted_samples % two64)) % two64

/-- Lines 74-103: the loop `for(int i=0; i<noutput_items; i++)`. The output
buffer is a function from the index to the item stored there; the last
argument holds the input items from index `i` on. The index
`i - deleted_samples` is never negative: `deleted_samples` counts markers
among the `i` items read. -/
def scan_loop (noutput_items nitems_written : Nat) :
    Nat → Nat → (Nat → Nat) → List Tag → List Nat → Option (Nat × (Nat → Nat) × List Tag)
  | i, deleted_samples, out, tags, input =>
    if i < noutput_items then
      match input with
      | [] => none
      | item :: rest =>
        if is_marker item then
          scan_loop noutput_items nitems_written (i + 1) (deleted_samples + 1) out
            (tags ++ [⟨absolute_offset nitems_written i deleted_samples, tag_time item⟩]) rest
        else
          scan_loop noutput_items nitems_written (i + 1) deleted_samples
            (Function.update out (i - deleted_samples) item) tags rest
    else some (deleted_samples, out, tags)

/-- Lines 63-111: one call of `general_work`, where `nitems_written` is the
value of `nitems_written(0)` during the call, `input` the available input
items and `out` the content of the output buffer before the call. -/
def general_work (noutput_items nitems_written : Nat) (input : List Nat)
    (out : Nat → Nat) : Option Result :=
  match scan_loop noutput_items nitems_written 0 0 out [] input with
  | none => none
  | some (deleted_samples, out1, tags) =>
    some { produced := noutput_items - deleted_samples,
           consumed := noutput_items,
           out := (List.range (noutput_items - deleted_samples)).map out1,
           tags := tags }

/-- The offset that line 81 gives to the marker at the input index `i`, in the
words of the specification: `nitems_written(0)` plus the number of items before
the index `i` that are not markers, as a `uint64_t` sum. -/
def offset_at (nitems_written : Nat) (input : List Nat) (i : Nat) : Nat :=
  (nitems_written + ((input.take i).filter (fun x => !is_marker x)).length) % two64

/-- The tags of a call on the items `items`, in input order, in the words of
the specification: for every marker, the offset `nitems_written(0)` plus the
number of items before it that are not markers (`count` of them before the
first item of `items`), as a `uint64_t` sum, and the time value of the marker. -/
def expected_tags (nitems_written : Nat) : Nat → List Nat → List Tag
  | _, [] => []
  | count, item :: rest =>
    if is_marker item then
      ⟨(nitems_written + count) % two64, tag_time item⟩ ::
        expected_tags nitems_written count rest
    else expected_tags nitems_written (count + 1) rest

end time_encoded_to_tagged_stream_impl

/-! ## Compressed sample words: `sample_print_impl` and `average_detector_impl` -/

/-- Conversion of an unsigned value to `int16_t`. -/
def to_int16 (a : Nat) : Int :=
  if a % 65536 < 32768 then ((a % 65536 : Nat) : Int)
  else ((a % 65536 : Nat) : Int) - 65536

namespace sample_print_impl

/-- Line 50: `const uint32_t time = ((sample0 & 0xf) << 16) | (sample0 >> 16);`
The shifted value has 20 bits: the `uint32_t` shift loses nothing. -/
def time (sample0 : Nat) : Nat := ((sample0 &&& 0xf) <<< 16) ||| (sample0 >>> 16)

/-- Line 51: `const uint16_t fft_index = (sample0 >> 4) & 0x7ff;` -/
def fft_index (sample0 : Nat) : Nat := ((sample0 >>> 4) &&& 0x7ff) % 65536

/-- Line 52: `const bool is_average = (sample0 >> 15) & 1 == 1;`
In C++ `==` binds tighter than `&`: the expression is
`(sample0 >> 15) & (1 == 1)`, where `1 == 1` is `true`, promoted to 1, and the
conversion of the result to `bool` tests it against zero. -/
def is_average (sample0 : Nat) : Bool :=
  ((sample0 >>> 15) &&& (if (1 : Nat) == 1 then 1 else 0)) != 0

/-- Line 54: `const int16_t real = sample1 & 0xffff;` -/
def real (sample1 : Nat) : Int := to_int16 (sample1 &&& 0xffff)

/-- Line 55: `const int16_t imag = sample1 >> 16;` -/
def imag (sample1 : Nat) : Int := to_int16 (sample1 >>> 16)

/-- Line 56: `const uint32_t mag = (sample1 >> 16) | ((sample1 & 0xffff) << 16);`
The shifted value has 32 bits: the `uint32_t` shift loses nothing. -/
def mag (sample1 : Nat) : Nat := (sample1 >>> 16) ||| ((sample1 &&& 0xffff) <<< 16)

/-- The values that one call of `printf` is given (lines 59 and 62). -/
inductive Line where
  /-- `printf("Average,%12d,%12d,%12d\n", fft_index, time, mag)`. -/
  | average (fft_index time mag : Nat)
  /-- `printf("FFT Sample,%12d,%12d,%12d,%12d\n", fft_index, time, real, imag)`. -/
  | fft_sample (fft_index time : Nat) (real imag : Int)
deriving DecidableEq, Repr

/-- Lines 47-63: the body of the loop for the words `sample0 = in[i * 2]` and
`sample1 = in[(i * 2) + 1]`. -/
def decode (sample0 sample1 : Nat) : Line :=
  if is_average sample0 then Line.average (fft_index sample0) (time sample0) (mag sample1)
  else Line.fft_sample (fft_index sample0) (time sample0) (real sample1) (imag sample1)

/-- Lines 44-64: the loop `for (int i = 0; i < sample_count; i++)`; the last
but one argument holds the input words from index `i * 2` on. -/
def print_loop (sample_count : Nat) : Nat → List Nat → List Line → Option (List Line)
  | i, input, lines =>
    if i < sample_count then
      match input with
      | sample0 :: sample1 :: rest =>
        print_loop sample_count (i + 1) rest (lines ++ [decode sample0 sample1])
      | _ => none
    else some lines

/-- Lines 37-68: one call of `work` on the available input words: the lines
printed and the return value `sample_count*2`. -/
def work (noutput_items : Nat) (input : List Nat) : Option (List Line × Nat) :=
  match print_loop (noutput_items / 2) 0 input [] with
  | none => none
  | some lines => some (lines, (noutput_items / 2) * 2)

end sample_print_impl

namespace average_detector_impl

/-- Line 50 of `average_detector_impl.cc`:
`const bool is_average = (sample0 >> 15) & 1 == 1;` -/
def is_average (sample0 : Nat) : Bool :=
  ((sample0 >>> 15) &&& (if (1 : Nat) == 1 then 1 else 0)) != 0

/-- Lines 55 and 68 of `average_detector_impl.cc`:
`((sample0 & 0xf) << 16) | (sample0 >> 16)`. -/
def time (sample0 : Nat) : Nat := ((sample0 &&& 0xf) <<< 16) ||| (sample0 >>> 16)

end average_detector_impl

/-! ## Properties of the Padding Reconstructor -/

namespace time_encoded_to_padded_stream_impl

/-- Closed form of the padding loop: it writes `min k (n - written_items)` zeros
and returns from the function exactly when zeros are left over. -/
theorem pad_loop_eq (n : Nat) : ∀ (k : Nat) (out : List Nat),
    pad_loop n out k =
      if k ≤ n - out.length then (out ++ List.replicate k 0, 0, false)
      else (out ++ List.replicate (n - out.length) 0, k - (n - out.length), true) := by
  intro k
  induction k with
  | zero => intro out; simp [pad_loop]
  | succ k ih =>
    intro out
    unfold pad_loop
    by_cases h : out.length ≥ n
    · have h0 : n - out.length = 0 := by omega
      simp [h, h0]
    · have h1 : n - (out ++ [0]).length = n - out.length - 1 := by simp; omega
      rw [if_neg h, ih, h1]
      have h2 : n - out.length = (n - out.length - 1) + 1 := by omega
      by_cases hk : k ≤ n - out.length - 1
      · have hk' : k + 1 ≤ n - out.length := by omega
        simp [hk, hk', List.replicate_succ]
      · have hk' : ¬ k + 1 ≤ n - out.length := by omega
        rw [if_neg hk, if_neg hk']
        have h3 : k + 1 - (n - out.length) = k - (n - out.length - 1) := by omega
        rw [h3]
        conv => rhs; rw [h2, List.replicate_succ]
        simp

/-- Closed form of the padding loop on the member variable. -/
theorem write_padding_eq (n : Nat) (out : List Nat) (s : State) :
    write_padding n out s =
      (out ++ List.replicate (min s.d_remaining_padding_length.toNat (n - out.length)) 0,
       { s with d_remaining_padding_length :=
           s.d_remaining_padding_length -
             (min s.d_remaining_padding_length.toNat (n - out.length) : Nat) },
       decide (n - out.length < s.d_remaining_padding_length.toNat)) := by
  unfold write_padding
  by_cases h : s.d_remaining_padding_length > 0
  · rw [if_pos h, pad_loop_eq]
    by_cases hk : s.d_remaining_padding_length.toNat ≤ n - out.length
    · have hm : min s.d_remaining_padding_length.toNat (n - out.length)
          = s.d_remaining_padding_length.toNat := by omega
      have hd : ¬ (n - out.length < s.d_remaining_padding_length.toNat) := by omega
      rw [if_pos hk, hm]
      simp only [hd, decide_False]
      congr 2
      have : ((s.d_remaining_padding_length.toNat : Nat) : Int) = s.d_remaining_padding_length :=
        Int.toNat_of_nonneg (le_of_lt h)
      rw [this]; simp
    · have hm : min s.d_remaining_padding_length.toNat (n - out.length)
          = n - out.length := by omega
      have hd : (n - out.length < s.d_remaining_padding_length.toNat) := by omega
      rw [if_neg hk, hm]
      simp only [hd, decide_True]
      congr 2
      have : ((s.d_remaining_padding_length.toNat : Nat) : Int) = s.d_remaining_padding_length :=
        Int.toNat_of_nonneg (le_of_lt h)
      congr 1
      omega
  · rw [if_neg h]
    have h0 : s.d_remaining_padding_length.toNat = 0 := by omega
    simp [h0]

theorem item_loop_nil (n : Nat) (s : State) (out : List Nat) (c : Nat) :
    item_loop n s out c [] =
      if out.length < n ∧ c < n then none else some ⟨c, out, s⟩ := by
  rw [item_loop]

theorem item_loop_cons (n : Nat) (s : State) (out : List Nat) (c x : Nat) (rest : List Nat) :
    item_loop n s out c (x :: rest) =
      if out.length < n ∧ c < n then
        if is_marker x then
          match write_padding n out (on_marker s x) with
          | (out1, s1, true) => some ⟨c + 1, out1, s1⟩
          | (out1, s1, false) => item_loop n s1 out1 (c + 1) rest
        else item_loop n (on_data s) (out ++ [x]) (c + 1) rest
      else some ⟨c, out, s⟩ := by
  rw [item_loop]

theorem on_marker_rem (s : State) (p : Int) (x : Nat) :
    on_marker { s with d_remaining_padding_length := p } x = on_marker s x := by
  simp [on_marker, timestamp_diff]

theorem expand_items_rem : ∀ (xs : List Nat) (s : State) (p : Int),
    expand_items { s with d_remaining_padding_length := p } xs = expand_items s xs := by
  intro xs
  induction xs with
  | nil => intro s p; simp [expand_items]
  | cons x rest ih =>
    intro s p
    simp only [expand_items, on_marker_rem]
    by_cases hx : is_marker x = true
    · simp [hx]
    · have h1 : on_data { s with d_remaining_padding_length := p }
          = { on_data s with d_remaining_padding_length := p } := by simp [on_data]
      have h2 := ih (on_data s) p
      simp only [hx, if_false]
      rw [h1]
      exact congrArg (x :: ·) h2

theorem owed_filler_split (s : State) (z : Nat) (hz : z ≤ s.d_remaining_padding_length.toNat) :
    owed_filler s = List.replicate z 0 ++
      owed_filler { s with d_remaining_padding_length := s.d_remaining_padding_length - (z : Int) } := by
  unfold owed_filler
  rw [← List.replicate_add]
  congr 1
  simp only
  omega

/-- The item loop returns when at least `noutput_items - consumed_items` input
items are available. -/
theorem item_loop_some (n : Nat) : ∀ (input : List Nat) (s : State) (out : List Nat) (c : Nat),
    n - c ≤ input.length → ∃ r, item_loop n s out c input = some r := by
  intro input
  induction input with
  | nil =>
    intro s out c h
    have hc : ¬ (out.length < n ∧ c < n) := by simp at h; omega
    rw [item_loop_nil, if_neg hc]; exact ⟨_, rfl⟩
  | cons x rest ih =>
    intro s out c h
    rw [item_loop_cons]
    by_cases hg : out.length < n ∧ c < n
    · rw [if_pos hg]
      have hr : n - (c + 1) ≤ rest.length := by simp at h; omega
      by_cases hx : is_marker x = true
      · rw [if_pos hx, write_padding_eq]
        by_cases hf : n - out.length < (on_marker s x).d_remaining_padding_length.toNat
        · simp only [hf, decide_True]; exact ⟨_, rfl⟩
        · simp only [hf, decide_False]; exact ih _ _ _ hr
      · rw [if_neg hx]; exact ih _ _ _ hr
    · rw [if_neg hg]; exact ⟨_, rfl⟩

/-- Invariant of the item loop: what it appends to the output, followed by the
ideal expansion of the input it did not consume, is the expansion of its
input. -/
theorem item_loop_spec (n : Nat) : ∀ (input : List Nat) (s : State) (out : List Nat) (c : Nat)
    (r : Result), s.d_remaining_padding_length ≤ 0 → item_loop n s out c input = some r →
    ∃ o, r.out = out ++ o ∧ c ≤ r.consumed ∧ r.consumed - c ≤ input.length ∧
      o ++ ideal_expansion r.state (input.drop (r.consumed - c)) = expand_items s input := by
  intro input
  induction input with
  | nil =>
    intro s out c r hs h
    rw [item_loop_nil] at h
    by_cases hg : out.length < n ∧ c < n
    · rw [if_pos hg] at h; cases h
    · rw [if_neg hg] at h
      cases h
      refine ⟨[], by simp, le_refl _, by simp, ?_⟩
      have h0 : s.d_remaining_padding_length.toNat = 0 := by omega
      simp [ideal_expansion, owed_filler, h0, expand_items]
  | cons x rest ih =>
    intro s out c r hs h
    rw [item_loop_cons] at h
    by_cases hg : out.length < n ∧ c < n
    · rw [if_pos hg] at h
      by_cases hx : is_marker x = true
      · rw [if_pos hx, write_padding_eq] at h
        by_cases hf : n - out.length < (on_marker s x).d_remaining_padding_length.toNat
        · simp only [hf, decide_True] at h
          cases h
          refine ⟨_, rfl, by simp, by simp, ?_⟩
          simp only [Nat.add_sub_cancel_left, List.drop_succ_cons, List.drop_zero]
          simp only [expand_items, hx, if_true, ideal_expansion, expand_items_rem]
          rw [← List.append_assoc, ← owed_filler_split]
          omega
        · simp only [hf, decide_False] at h
          have hm : min (on_marker s x).d_remaining_padding_length.toNat (n - out.length)
              = (on_marker s x).d_remaining_padding_length.toNat := by omega
          rw [hm] at h
          obtain ⟨o, ho, hc, hl, he⟩ := ih _ _ _ _ (by simp only; omega) h
          refine ⟨List.replicate (on_marker s x).d_remaining_padding_length.toNat 0 ++ o,
            by rw [ho]; simp, by omega, by simp; omega, ?_⟩
          have hd : r.consumed - c = (r.consumed - (c + 1)) + 1 := by omega
          rw [hd, List.drop_succ_cons, List.append_assoc, he, expand_items_rem]
          simp [expand_items, hx, owed_filler]
      · rw [if_neg hx] at h
        obtain ⟨o, ho, hc, hl, he⟩ := ih _ _ _ _ (by simpa [on_data] using hs) h
        refine ⟨x :: o, by rw [ho]; simp, by omega, by simp; omega, ?_⟩
        have hd : r.consumed - c = (r.consumed - (c + 1)) + 1 := by omega
        rw [hd, List.drop_succ_cons, List.cons_append, he]
        simp [expand_items, hx]
    · rw [if_neg hg] at h
      cases h
      refine ⟨[], by simp, le_refl _, by simp, ?_⟩
      have h0 : s.d_remaining_padding_length.toNat = 0 := by omega
      simp [ideal_expansion, owed_filler, h0]

theorem write_padding_of_nonpos (n : Nat) (out : List Nat) (s : State)
    (hs : s.d_remaining_padding_length ≤ 0) : write_padding n out s = (out, s, false) := by
  unfold write_padding
  rw [if_neg (by omega)]

theorem general_work_of_nonpos (n : Nat) (s : State) (xs : List Nat)
    (hs : s.d_remaining_padding_length ≤ 0) : general_work n s xs = item_loop n s [] 0 xs := by
  unfold general_work
  rw [write_padding_of_nonpos n [] s hs]

/-- The item loop on data items only: it copies items until the output is full
or `noutput_items` items are consumed. -/
theorem item_loop_data (n : Nat) : ∀ (ds : List Nat) (s : State) (out : List Nat) (c : Nat),
    (∀ x ∈ ds, is_marker x = false) → min (n - out.length) (n - c) ≤ ds.length →
    item_loop n s out c ds =
      some ⟨c + min (n - out.length) (n - c), out ++ ds.take (min (n - out.length) (n - c)),
        on_data^[min (n - out.length) (n - c)] s⟩ := by
  intro ds
  induction ds with
  | nil =>
    intro s out c _ hl
    have h0 : min (n - out.length) (n - c) = 0 := by simpa using hl
    have hg : ¬ (out.length < n ∧ c < n) := by omega
    rw [item_loop_nil, if_neg hg, h0]; simp
  | cons x rest ih =>
    intro s out c hd hl
    rw [item_loop_cons]
    by_cases hg : out.length < n ∧ c < n
    · have hx : is_marker x = false := hd x (List.mem_cons_self _ _)
      have hj : min (n - out.length) (n - c)
          = min (n - (out ++ [x]).length) (n - (c + 1)) + 1 := by simp; omega
      rw [if_pos hg, hx]
      simp only [Bool.false_eq_true, if_false]
      rw [ih (on_data s) (out ++ [x]) (c + 1) (fun y hy => hd y (List.mem_cons_of_mem _ hy))
        (by simp at hl ⊢; omega), hj]
      simp only [List.take_succ_cons, Function.iterate_succ, Function.comp_apply,
        List.append_assoc, List.singleton_append]
      congr 2
      omega
    · have h0 : min (n - out.length) (n - c) = 0 := by omega
      rw [if_neg hg, h0]; simp

/-- C1. Padding Reconstructor: from every state with no padding owed, on every
input of `n` items none of which is a marker, one call with
`noutput_items = n` consumes the `n` items and produces `n` items, and the
output is the input item for item: no zero filler is inserted. -/
theorem data_only_output_equals_input (s : State) (xs : List Nat)
    (hs : s.d_remaining_padding_length ≤ 0) (hd : ∀ x ∈ xs, is_marker x = false) :
    general_work xs.length s xs = some ⟨xs.length, xs, on_data^[xs.length] s⟩ := by
  rw [general_work_of_nonpos _ _ _ hs, item_loop_data _ _ _ _ _ hd (by simp)]
  simp

/-- Witness for C1: three data items on a fresh state. -/
theorem data_only_output_equals_input_witness :
    (init c_1000000).d_remaining_padding_length ≤ 0 ∧
    (∀ x ∈ [5, 0, 4294967294], is_marker x = false) ∧
    general_work [5, 0, 4294967294].length (init c_1000000) [5, 0, 4294967294] =
      some ⟨[5, 0, 4294967294].length, [5, 0, 4294967294],
        on_data^[[5, 0, 4294967294].length] (init c_1000000)⟩ :=
  ⟨by decide, by decide,
    data_only_output_equals_input (init c_1000000) [5, 0, 4294967294] (by decide) (by decide)⟩

/-- C5. Padding obligations are neither lost nor counted twice across calls:
for every state `s`, every capacity `n` and every input `xs` of at least `n`
items, the call returns some consumed count, output and new state, and the
output followed by the ideal expansion of the unconsumed input from the new
state is the ideal expansion of `xs` from `s`. -/
theorem padding_obligations_preserved (n : Nat) (s : State) (xs : List Nat)
    (h : n ≤ xs.length) :
    ∃ r, general_work n s xs = some r ∧
      r.out ++ ideal_expansion r.state (xs.drop r.consumed) = ideal_expansion s xs := by
  unfold general_work
  rw [write_padding_eq]
  simp only [List.length_nil, Nat.sub_zero, List.nil_append]
  by_cases hf : n < s.d_remaining_padding_length.toNat
  · simp only [hf, decide_True]
    refine ⟨_, rfl, ?_⟩
    simp only [List.drop_zero, ideal_expansion, expand_items_rem]
    rw [← List.append_assoc, ← owed_filler_split]
    omega
  · simp only [hf, decide_False]
    have hm : min s.d_remaining_padding_length.toNat n = s.d_remaining_padding_length.toNat := by
      omega
    rw [hm]
    obtain ⟨r, hr⟩ := item_loop_some n xs
      { s with d_remaining_padding_length :=
          s.d_remaining_padding_length - (s.d_remaining_padding_length.toNat : Nat) }
      (List.replicate s.d_remaining_padding_length.toNat 0) 0 (by omega)
    obtain ⟨o, ho, _, _, he⟩ := item_loop_spec n xs _ _ _ r (by simp only; omega) hr
    refine ⟨r, hr, ?_⟩
    rw [ho, List.append_assoc]
    simp only [Nat.sub_zero] at he
    rw [he, expand_items_rem]
    rfl

/-- Witness for C5: two zeros owed, capacity 3, two markers in the input. -/
theorem padding_obligations_preserved_witness :
    3 ≤ [mk_marker 8, 5, mk_marker 9].length ∧
    ∃ r, general_work 3 ⟨7, 0, 2, c_1000000⟩ [mk_marker 8, 5, mk_marker 9] = some r ∧
      r.out ++ ideal_expansion r.state ([mk_marker 8, 5, mk_marker 9].drop r.consumed) =
        ideal_expansion ⟨7, 0, 2, c_1000000⟩ [mk_marker 8, 5, mk_marker 9] :=
  ⟨by decide, padding_obligations_preserved 3 ⟨7, 0, 2, c_1000000⟩
    [mk_marker 8, 5, mk_marker 9] (by decide)⟩

/-- The item loop only appends to the output. -/
theorem item_loop_extends (n : Nat) : ∀ (input : List Nat) (s : State) (out : List Nat) (c : Nat)
    (r : Result), item_loop n s out c input = some r → ∃ t, r.out = out ++ t := by
  intro input
  induction input with
  | nil =>
    intro s out c r h
    rw [item_loop_nil] at h
    by_cases hg : out.length < n ∧ c < n
    · rw [if_pos hg] at h; cases h
    · rw [if_neg hg] at h; cases h; exact ⟨[], by simp⟩
  | cons x rest ih =>
    intro s out c r h
    rw [item_loop_cons] at h
    by_cases hg : out.length < n ∧ c < n
    · rw [if_pos hg] at h
      by_cases hx : is_marker x = true
      · rw [if_pos hx, write_padding_eq] at h
        by_cases hf : n - out.length < (on_marker s x).d_remaining_padding_length.toNat
        · simp only [hf, decide_True] at h
          cases h; exact ⟨_, rfl⟩
        · simp only [hf, decide_False] at h
          obtain ⟨t, ht⟩ := ih _ _ _ _ h
          exact ⟨_, by rw [ht, List.append_assoc]⟩
      · rw [if_neg hx] at h
        obtain ⟨t, ht⟩ := ih _ _ _ _ h
        exact ⟨_, by rw [ht, List.append_assoc]⟩
    · rw [if_neg hg] at h; cases h; exact ⟨[], by simp⟩

/-- Simulation of the item loop of a call with capacity `b2` by the item loop of
a call with capacity `b1 + b2` that has already written `b1` items and
consumed at most `b1` items more: the second loop writes what the first one
writes, and possibly more if the first one stopped for the consumed count. -/
theorem item_loop_sim (b1 b2 d : Nat) (hd : d ≤ b1) (Z : List Nat) (hZ : Z.length = b1) :
    ∀ (input : List Nat) (s : State) (out2 : List Nat) (c2 : Nat) (r2 r : Result),
    item_loop b2 s out2 c2 input = some r2 →
    item_loop (b1 + b2) s (Z ++ out2) (c2 + d) input = some r →
    (∃ t, r.out = Z ++ r2.out ++ t) ∧
    (r2.out.length = b2 →
      r.out = Z ++ r2.out ∧ r.state = r2.state ∧ r.consumed = r2.consumed + d) := by
  intro input
  induction input with
  | nil =>
    intro s out2 c2 r2 r h2 h
    rw [item_loop_nil] at h2 h
    by_cases hg2 : out2.length < b2 ∧ c2 < b2
    · rw [if_pos hg2] at h2; cases h2
    · rw [if_neg hg2] at h2
      cases h2
      by_cases hg : (Z ++ out2).length < b1 + b2 ∧ c2 + d < b1 + b2
      · rw [if_pos hg] at h; cases h
      · rw [if_neg hg] at h; cases h
        exact ⟨⟨[], by simp⟩, fun _ => ⟨rfl, rfl, rfl⟩⟩
  | cons x rest ih =>
    intro s out2 c2 r2 r h2 h
    rw [item_loop_cons] at h2 h
    by_cases hg2 : out2.length < b2 ∧ c2 < b2
    · have hg : (Z ++ out2).length < b1 + b2 ∧ c2 + d < b1 + b2 := by
        simp only [List.length_append, hZ]; omega
      rw [if_pos hg2] at h2
      rw [if_pos hg] at h
      by_cases hx : is_marker x = true
      · rw [if_pos hx, write_padding_eq] at h2 h
        have hroom : b1 + b2 - (Z ++ out2).length = b2 - out2.length := by
          simp only [List.length_append, hZ]; omega
        rw [hroom] at h
        by_cases hf : b2 - out2.length < (on_marker s x).d_remaining_padding_length.toNat
        · simp only [hf, decide_True] at h2 h
          cases h2; cases h
          exact ⟨⟨[], by simp⟩, fun _ => ⟨by simp, rfl, by simp only; omega⟩⟩
        · simp only [hf, decide_False] at h2 h
          rw [List.append_assoc] at h
          have hc : c2 + d + 1 = c2 + 1 + d := by omega
          rw [hc] at h
          exact ih _ _ _ _ _ h2 h
      · rw [if_neg hx] at h2 h
        rw [List.append_assoc] at h
        have hc : c2 + d + 1 = c2 + 1 + d := by omega
        rw [hc] at h
        exact ih _ _ _ _ _ h2 h
    · rw [if_neg hg2] at h2
      cases h2
      by_cases hw : out2.length < b2
      · rw [← item_loop_cons] at h
        obtain ⟨t, ht⟩ := item_loop_extends _ _ _ _ _ _ h
        refine ⟨⟨t, by rw [ht]⟩, fun hl => ?_⟩
        simp only at hl; omega
      · have hg : ¬ ((Z ++ out2).length < b1 + b2 ∧ c2 + d < b1 + b2) := by
          simp only [List.length_append, hZ]; omega
        rw [if_neg hg] at h
        cases h
        exact ⟨⟨[], by simp⟩, fun _ => ⟨rfl, rfl, rfl⟩⟩

theorem general_work_drain_full (n : Nat) (s : State) (xs : List Nat)
    (h : n < s.d_remaining_padding_length.toNat) :
    general_work n s xs = some ⟨0, List.replicate n 0,
      { s with d_remaining_padding_length := s.d_remaining_padding_length - (n : Int) }⟩ := by
  unfold general_work
  rw [write_padding_eq]
  have hm : min s.d_remaining_padding_length.toNat (n - ([] : List Nat).length) = n := by
    simp; omega
  have hf : n - ([] : List Nat).length < s.d_remaining_padding_length.toNat := by simpa using h
  rw [hm]
  simp only [hf, decide_True, List.nil_append]

theorem general_work_drain_fits (n : Nat) (s : State) (xs : List Nat)
    (h : s.d_remaining_padding_length.toNat ≤ n) :
    general_work n s xs = item_loop n
      { s with d_remaining_padding_length :=
          s.d_remaining_padding_length - (s.d_remaining_padding_length.toNat : Int) }
      (List.replicate s.d_remaining_padding_length.toNat 0) 0 xs := by
  unfold general_work
  rw [write_padding_eq]
  have hm : min s.d_remaining_padding_length.toNat (n - ([] : List Nat).length)
      = s.d_remaining_padding_length.toNat := by simp; omega
  have hf : ¬ (n - ([] : List Nat).length < s.d_remaining_padding_length.toNat) := by
    simp; omega
  rw [hm]
  simp only [hf, decide_False, List.nil_append]

theorem general_work_marker_full (n : Nat) (s : State) (m : Nat) (rest : List Nat)
    (hs : s.d_remaining_padding_length ≤ 0) (hm : is_marker m = true) (hn : 1 ≤ n)
    (h : n < (on_marker s m).d_remaining_padding_length.toNat) :
    general_work n s (m :: rest) = some ⟨1, List.replicate n 0,
      { on_marker s m with d_remaining_padding_length :=
          (on_marker s m).d_remaining_padding_length - (n : Int) }⟩ := by
  have hg : ([] : List Nat).length < n ∧ 0 < n := by simp; omega
  rw [general_work_of_nonpos _ _ _ hs, item_loop_cons, if_pos hg, if_pos hm, write_padding_eq]
  have hmin : min (on_marker s m).d_remaining_padding_length.toNat (n - ([] : List Nat).length)
      = n := by simp; omega
  have hf : n - ([] : List Nat).length < (on_marker s m).d_remaining_padding_length.toNat := by
    simpa using h
  rw [hmin]
  simp only [hf, decide_True, List.nil_append, Nat.zero_add]

theorem general_work_marker_fits (n : Nat) (s : State) (m : Nat) (rest : List Nat)
    (hs : s.d_remaining_padding_length ≤ 0) (hm : is_marker m = true) (hn : 1 ≤ n)
    (h : (on_marker s m).d_remaining_padding_length.toNat ≤ n) :
    general_work n s (m :: rest) = item_loop n
      { on_marker s m with d_remaining_padding_length :=
          (on_marker s m).d_remaining_padding_length -
            ((on_marker s m).d_remaining_padding_length.toNat : Int) }
      (List.replicate (on_marker s m).d_remaining_padding_length.toNat 0) 1 rest := by
  have hg : ([] : List Nat).length < n ∧ 0 < n := by simp; omega
  rw [general_work_of_nonpos _ _ _ hs, item_loop_cons, if_pos hg, if_pos hm, write_padding_eq]
  have hmin : min (on_marker s m).d_remaining_padding_length.toNat (n - ([] : List Nat).length)
      = (on_marker s m).d_remaining_padding_length.toNat := by simp; omega
  have hf : ¬ (n - ([] : List Nat).length < (on_marker s m).d_remaining_padding_length.toNat) := by
    simp; omega
  rw [hmin]
  simp only [hf, decide_False, List.nil_append, Nat.zero_add]

theorem general_work_zero (s : State) (xs : List Nat)
    (hs : s.d_remaining_padding_length ≤ 0) : general_work 0 s xs = some ⟨0, [], s⟩ := by
  rw [general_work_of_nonpos _ _ _ hs]
  cases xs with
  | nil => rw [item_loop_nil]; simp
  | cons x rest => rw [item_loop_cons]; simp

/-- C4, as amended. Padding Reconstructor resumption: from a state with no
padding owed, on an input of at least `b1 + b2` items that starts with a marker
whose induced padding exceeds `b1`, a call with capacity `b1` and then a call
with capacity `b2`, not less than the padding still owed, on the unconsumed
input both return, as does one call with capacity `b1 + b2`; the two outputs
one after the other are an initial segment of the output of the one call, and
the two runs have the same output, consumed count and final state whenever
the two calls produce `b1 + b2` items together, which they do when no item
after the first marker is a marker. -/
theorem resumed_padding_in_two_calls (s : State) (m : Nat) (rest : List Nat) (b1 b2 : Nat)
    (hs : s.d_remaining_padding_length ≤ 0) (hm : is_marker m = true)
    (hP : (b1 : Int) < (on_marker s m).d_remaining_padding_length)
    (hb2 : (on_marker s m).d_remaining_padding_length - (b1 : Int) ≤ (b2 : Int))
    (hlen : b1 + b2 ≤ (m :: rest).length) :
    ∃ t r, two_calls b1 b2 s (m :: rest) = some t ∧
      general_work (b1 + b2) s (m :: rest) = some r ∧
      t.out <+: r.out ∧
      (t.out.length = b1 + b2 → t = r) ∧
      ((∀ x ∈ rest, is_marker x = false) → t = r) := by
  simp only [List.length_cons] at hlen
  rcases Nat.eq_zero_or_pos b1 with hb | hb
  · subst hb
    obtain ⟨r, hr0⟩ := item_loop_some b2 (m :: rest) s [] 0 (by simpa using hlen)
    have hr : general_work b2 s (m :: rest) = some r := by
      rw [general_work_of_nonpos _ _ _ hs]; exact hr0
    have ht : two_calls 0 b2 s (m :: rest) = some r := by
      unfold two_calls
      rw [general_work_zero _ _ hs]
      simp only [List.drop_zero, hr, Nat.zero_add, List.nil_append]
    refine ⟨r, r, ht, by rw [Nat.zero_add]; exact hr, List.prefix_refl _, fun _ => rfl,
      fun _ => rfl⟩
  · have h1 := general_work_marker_full b1 s m rest hs hm hb (by omega)
    have h2 := general_work_drain_fits b2
      { on_marker s m with d_remaining_padding_length :=
          (on_marker s m).d_remaining_padding_length - (b1 : Int) } rest (by simp only; omega)
    have h3 := general_work_marker_fits (b1 + b2) s m rest hs hm (by omega) (by omega)
    have hz : ((on_marker s m).d_remaining_padding_length - (b1 : Int)).toNat
        = (on_marker s m).d_remaining_padding_length.toNat - b1 := by omega
    have hle : b1 ≤ (on_marker s m).d_remaining_padding_length.toNat := by omega
    have hsub : (((on_marker s m).d_remaining_padding_length.toNat - b1 : Nat) : Int)
        = ((on_marker s m).d_remaining_padding_length.toNat : Int) - (b1 : Int) :=
      Int.ofNat_sub hle
    have hst : ({ on_marker s m with d_remaining_padding_length :=
          (on_marker s m).d_remaining_padding_length -
            ((on_marker s m).d_remaining_padding_length.toNat : Int) } : State)
        = { on_marker s m with d_remaining_padding_length :=
          (on_marker s m).d_remaining_padding_length - (b1 : Int) -
            (((on_marker s m).d_remaining_padding_length.toNat - b1 : Nat) : Int) } := by
      dsimp only; congr 1; rw [hsub]; omega
    have hout : List.replicate (on_marker s m).d_remaining_padding_length.toNat 0
        = List.replicate b1 0 ++
          List.replicate ((on_marker s m).d_remaining_padding_length.toNat - b1) 0 := by
      rw [← List.replicate_add]; congr 1; omega
    simp only [hz] at h2
    rw [hst, hout] at h3
    obtain ⟨r2, hr2⟩ := item_loop_some b2 rest
      { on_marker s m with d_remaining_padding_length :=
          (on_marker s m).d_remaining_padding_length - (b1 : Int) -
            (((on_marker s m).d_remaining_padding_length.toNat - b1 : Nat) : Int) }
      (List.replicate ((on_marker s m).d_remaining_padding_length.toNat - b1) 0) 0 (by omega)
    obtain ⟨r, hr⟩ := item_loop_some (b1 + b2) rest
      { on_marker s m with d_remaining_padding_length :=
          (on_marker s m).d_remaining_padding_length - (b1 : Int) -
            (((on_marker s m).d_remaining_padding_length.toNat - b1 : Nat) : Int) }
      (List.replicate b1 0 ++
        List.replicate ((on_marker s m).d_remaining_padding_length.toNat - b1) 0) 1 (by omega)
    have hsim := item_loop_sim b1 b2 1 hb (List.replicate b1 0) (by simp) rest _ _ 0 r2 r hr2
      (by simpa using hr)
    have ht : two_calls b1 b2 s (m :: rest)
        = some ⟨1 + r2.consumed, List.replicate b1 0 ++ r2.out, r2.state⟩ := by
      unfold two_calls
      rw [h1]
      simp only [List.drop_succ_cons, List.drop_zero, h2, hr2]
    have hfull : (List.replicate b1 0 ++ r2.out).length = b1 + b2 →
        (⟨1 + r2.consumed, List.replicate b1 0 ++ r2.out, r2.state⟩ : Result) = r := by
      intro hl
      have hl2 : r2.out.length = b2 := by simpa using hl
      obtain ⟨ho, hs', hc⟩ := hsim.2 hl2
      cases r
      simp only at ho hs' hc
      simp only [Result.mk.injEq]
      exact ⟨by omega, ho.symm, hs'.symm⟩
    refine ⟨_, r, ht, by rw [h3]; exact hr, ?_, hfull, ?_⟩
    · obtain ⟨t, ht'⟩ := hsim.1
      exact ⟨t, ht'.symm⟩
    · intro hd
      apply hfull
      have hj : min (b2 - (List.replicate
            ((on_marker s m).d_remaining_padding_length.toNat - b1) 0).length) (b2 - 0)
          = b2 - ((on_marker s m).d_remaining_padding_length.toNat - b1) := by
        simp
      have hdat := item_loop_data b2 rest
        { on_marker s m with d_remaining_padding_length :=
          (on_marker s m).d_remaining_padding_length - (b1 : Int) -
            (((on_marker s m).d_remaining_padding_length.toNat - b1 : Nat) : Int) }
        (List.replicate ((on_marker s m).d_remaining_padding_length.toNat - b1) 0) 0 hd
        (by rw [hj]; omega)
      rw [hr2, hj] at hdat
      have hr2' := Option.some.inj hdat
      rw [hr2']
      simp only [List.length_append, List.length_replicate, List.length_take]
      omega

set_option maxRecDepth 100000 in
/-- Witness for C4: sample rate 1 MHz, last marker at tick 7, a marker at tick 8
(padding 10) followed by data items, capacities 4 and 7. -/
theorem resumed_padding_in_two_calls_witness :
    (⟨7, 0, 0, c_1000000⟩ : State).d_remaining_padding_length ≤ 0 ∧
    is_marker (mk_marker 8) = true ∧
    ((4 : Nat) : Int) < (on_marker ⟨7, 0, 0, c_1000000⟩ (mk_marker 8)).d_remaining_padding_length ∧
    (on_marker ⟨7, 0, 0, c_1000000⟩ (mk_marker 8)).d_remaining_padding_length - ((4 : Nat) : Int)
      ≤ ((7 : Nat) : Int) ∧
    4 + 7 ≤ (mk_marker 8 :: [1, 2, 3, 4, 5, 6, 7, 8, 9, 10]).length ∧
    ∃ t r, two_calls 4 7 ⟨7, 0, 0, c_1000000⟩ (mk_marker 8 :: [1, 2, 3, 4, 5, 6, 7, 8, 9, 10])
        = some t ∧
      general_work (4 + 7) ⟨7, 0, 0, c_1000000⟩ (mk_marker 8 :: [1, 2, 3, 4, 5, 6, 7, 8, 9, 10])
        = some r ∧
      t.out <+: r.out ∧
      (t.out.length = 4 + 7 → t = r) ∧
      ((∀ x ∈ [1, 2, 3, 4, 5, 6, 7, 8, 9, 10], is_marker x = false) → t = r) :=
  ⟨by decide, by decide, by decide, by decide, by decide,
    resumed_padding_in_two_calls ⟨7, 0, 0, c_1000000⟩ (mk_marker 8)
      [1, 2, 3, 4, 5, 6, 7, 8, 9, 10] 4 7 (by decide) (by decide) (by decide) (by decide)
      (by decide)⟩

set_option maxRecDepth 100000 in
/-- C4 as stated fails. Sample rate 1 MHz, last marker at tick 7, no padding
owed; the input starts with a marker at tick 8, whose padding is 10, followed
by two markers at the same tick (gap estimate 0, absorbed) and data items.
With `b1 = 9` and `b2 = 2 ≥ 10 - 9` the two calls write ten zeros: the second
call stops when it has consumed `b2` items. The one call with capacity 11
consumes four items and writes the ten zeros and the data item 5. -/
theorem resumed_padding_counterexample :
    (⟨7, 0, 0, c_1000000⟩ : State).d_remaining_padding_length ≤ 0 ∧
    is_marker (mk_marker 8) = true ∧
    (on_marker ⟨7, 0, 0, c_1000000⟩ (mk_marker 8)).d_remaining_padding_length = 10 ∧
    9 + 2 ≤ [mk_marker 8, mk_marker 8, mk_marker 8, 5, 6, 7, 8, 9, 10, 11, 12].length ∧
    (two_calls 9 2 ⟨7, 0, 0, c_1000000⟩
        [mk_marker 8, mk_marker 8, mk_marker 8, 5, 6, 7, 8, 9, 10, 11, 12]).map Result.out
      = some [0, 0, 0, 0, 0, 0, 0, 0, 0, 0] ∧
    (general_work (9 + 2) ⟨7, 0, 0, c_1000000⟩
        [mk_marker 8, mk_marker 8, mk_marker 8, 5, 6, 7, 8, 9, 10, 11, 12]).map Result.out
      = some [0, 0, 0, 0, 0, 0, 0, 0, 0, 0, 5] ∧
    (two_calls 9 2 ⟨7, 0, 0, c_1000000⟩
        [mk_marker 8, mk_marker 8, mk_marker 8, 5, 6, 7, 8, 9, 10, 11, 12]).map Result.out
      ≠ (general_work (9 + 2) ⟨7, 0, 0, c_1000000⟩
        [mk_marker 8, mk_marker 8, mk_marker 8, 5, 6, 7, 8, 9, 10, 11, 12]).map Result.out := by
  decide

theorem is_marker_iff (x : Nat) : is_marker x = true ↔ x % two32 = 4294967295 := by
  unfold is_marker two32
  have h : x &&& 0x00000000ffffffff = x % 4294967296 := by
    have := Nat.and_pow_two_sub_one_eq_mod x 32
    simpa using this
  rw [h]
  simp

theorem mk_marker_eq (ts : Nat) : mk_marker ts = ts * two32 + 4294967295 := by
  unfold mk_marker two32
  have h := Nat.mul_add_lt_is_or (show 4294967295 < 2 ^ 32 by norm_num) ts
  rw [Nat.shiftLeft_eq, Nat.mul_comm ts, ← h]

theorem is_marker_mk_marker (ts : Nat) : is_marker (mk_marker ts) = true := by
  rw [is_marker_iff, mk_marker_eq]
  unfold two32
  omega

theorem marker_timestamp_mk_marker (ts : Nat) : marker_timestamp (mk_marker ts) = ts % two32 := by
  unfold marker_timestamp
  rw [mk_marker_eq, Nat.shiftRight_eq_div_pow]
  unfold two32
  congr 1
  omega

/-- The `uint32_t` difference converted to `int` is the signed difference when
that lies in the range of `int`. -/
theorem to_int32_sub (a b : Nat) (hlo : -2147483648 ≤ (a : Int) - (b : Int))
    (hhi : (a : Int) - (b : Int) < 2147483648) :
    to_int32 (sub_u32 a b) = (a : Int) - (b : Int) := by
  unfold to_int32 sub_u32 two32
  split <;> omega

theorem rne_zero (p den : Nat) : rne p 0 den = ⟨0, 0⟩ := by
  simp [rne]

theorem Fp.to_uint32_lt (x : Fp) : x.to_uint32 < two32 := by
  unfold Fp.to_uint32 two32
  have h1 := Int.emod_lt_of_pos (if 0 ≤ x.num then ((x.num.natAbs / x.den : Nat) : Int)
    else -((x.num.natAbs / x.den : Nat) : Int)) (show (0 : Int) < 4294967296 by norm_num)
  have h2 := Int.emod_nonneg (if 0 ≤ x.num then ((x.num.natAbs / x.den : Nat) : Int)
    else -((x.num.natAbs / x.den : Nat) : Int)) (show (4294967296 : Int) ≠ 0 by norm_num)
  simp only
  omega


theorem sample_diff_lt (rate : Fp) (d : Nat) : sample_diff rate d < two32 :=
  Fp.to_uint32_lt _

/-- The gap estimate for a timestamp difference of 0 is 0, at every sample
rate. -/
theorem sample_diff_zero (rate : Fp) : sample_diff rate 0 = 0 := by
  have h1 : Fp.of_uint_f32 0 = ⟨0, 0⟩ := by decide
  have h2 : ∀ y : Fp, Fp.mul_f64 ⟨0, 0⟩ y = ⟨0, 0⟩ := by
    intro y
    have : (⟨0, 0⟩ : Fp).num = 0 := by decide
    unfold Fp.mul_f64
    rw [this, Int.zero_mul, rne_zero]
  have h3 : Fp.to_f32 ⟨0, 0⟩ = ⟨0, 0⟩ := by decide
  have h4 : Fp.to_uint32 (Fp.add_f64 ⟨0, 0⟩ c_0_5) = 0 := by decide
  unfold sample_diff
  simp only [h1, h2, h3, h4]

theorem on_data_iterate (k : Nat) (s : State) (h : s.d_items_read_since_last_tag < two32) :
    on_data^[k] s =
      { s with d_items_read_since_last_tag := (s.d_items_read_since_last_tag + k) % two32 } := by
  induction k with
  | zero =>
    simp only [Function.iterate_zero, id_eq, Nat.add_zero]
    rw [Nat.mod_eq_of_lt h]
  | succ k ih =>
    rw [Function.iterate_succ', Function.comp_apply, ih]
    unfold on_data two32
    simp only [State.mk.injEq, true_and, and_true]
    omega

theorem item_loop_data_append (n : Nat) : ∀ (ds : List Nat) (s : State) (out : List Nat)
    (c : Nat) (rest : List Nat), (∀ x ∈ ds, is_marker x = false) →
    out.length + ds.length ≤ n → c + ds.length ≤ n →
    item_loop n s out c (ds ++ rest) =
      item_loop n (on_data^[ds.length] s) (out ++ ds) (c + ds.length) rest := by
  intro ds
  induction ds with
  | nil => intro s out c rest _ _ _; simp
  | cons x ds ih =>
    intro s out c rest hd ho hc
    simp only [List.length_cons] at ho hc
    have hg : out.length < n ∧ c < n := by omega
    have hx : is_marker x = false := hd x (List.mem_cons_self _ _)
    rw [List.cons_append, item_loop_cons, if_pos hg, hx]
    simp only [Bool.false_eq_true, if_false]
    rw [ih (on_data s) (out ++ [x]) (c + 1) rest (fun y hy => hd y (List.mem_cons_of_mem _ hy))
      (by simp; omega) (by omega)]
    simp only [List.length_cons, Function.iterate_succ, Function.comp_apply, List.append_assoc,
      List.singleton_append]
    congr 1
    omega

theorem on_marker_after (rate : Fp) (t1 t2 items : Nat) (p0 : Int) (ht1 : 0 < t1) :
    on_marker ⟨t1, items, p0, rate⟩ (mk_marker t2) =
      ⟨t2 % two32, 0,
        to_int32 (sub_u32 (sample_diff rate (sub_u32 (t2 % two32) t1)) items), rate⟩ := by
  unfold on_marker timestamp_diff
  simp only [marker_timestamp_mk_marker]
  rw [if_neg (by omega)]

/-- One call between two markers: let the last marker have had the tick value
`t1`, not zero, let `k` data items follow it and then a marker with the tick
value `t1 + d` (modulo `2^32`). With `S` the value of `sample_diff` and
`S - k` in the range of `int`, the call whose capacity takes all of it
consumes the `k + 1` items and writes the `k` data items followed by `S - k`
zeros when that is positive, and by no zero otherwise. -/
theorem general_work_between_markers (rate : Fp) (t1 d : Nat) (p0 : Int) (ds : List Nat)
    (ht1 : 0 < t1) (hp0 : p0 ≤ 0)
    (hds : ∀ x ∈ ds, is_marker x = false)
    (hlo : -2147483648 ≤ (sample_diff rate (d % two32) : Int) - (ds.length : Int))
    (hhi : (sample_diff rate (d % two32) : Int) - (ds.length : Int) < 2147483648) :
    general_work (ds.length + max 1 (sample_diff rate (d % two32) - ds.length))
        ⟨t1, 0, p0, rate⟩ (ds ++ [mk_marker ((t1 + d) % two32)]) =
      some ⟨ds.length + 1,
        ds ++ List.replicate (sample_diff rate (d % two32) - ds.length) 0,
        ⟨(t1 + d) % two32, 0,
          min ((sample_diff rate (d % two32) : Int) - (ds.length : Int)) 0, rate⟩⟩ := by
  have hdiff : sub_u32 ((t1 + d) % two32 % two32) t1 = d % two32 := by
    unfold sub_u32 two32 at *
    omega
  have hitems : (on_data^[ds.length] (⟨t1, 0, p0, rate⟩ : State))
      = ⟨t1, ds.length % two32, p0, rate⟩ := by
    rw [on_data_iterate _ _ (by unfold two32; simp)]
    simp
  have hrem : to_int32 (sub_u32 (sample_diff rate (d % two32)) (ds.length % two32))
      = (sample_diff rate (d % two32) : Int) - (ds.length : Int) := by
    rw [← to_int32_sub _ _ hlo hhi]
    unfold sub_u32 two32
    simp
  rw [general_work_of_nonpos _ _ _ (by simpa using hp0),
    item_loop_data_append _ ds _ _ _ _ hds (by simp) (by omega), hitems,
    item_loop_cons, if_pos (by simp), if_pos (is_marker_mk_marker _),
    on_marker_after _ _ _ _ _ ht1, hdiff, hrem, write_padding_eq]
  have hz : ((sample_diff rate (d % two32) : Int) - (ds.length : Int)).toNat
      = sample_diff rate (d % two32) - ds.length := by omega
  simp only [hz, List.nil_append, Nat.zero_add, List.length_append, List.length_nil]
  have hm : min (sample_diff rate (d % two32) - ds.length)
      (ds.length + max 1 (sample_diff rate (d % two32) - ds.length) - ds.length)
      = sample_diff rate (d % two32) - ds.length := by omega
  have hf : ¬ (ds.length + max 1 (sample_diff rate (d % two32) - ds.length) - ds.length
      < sample_diff rate (d % two32) - ds.length) := by omega
  rw [hm]
  simp only [hf, decide_False]
  rw [item_loop_nil, if_neg (by simp; omega)]
  have e1 : (t1 + d) % two32 % two32 = (t1 + d) % two32 := Nat.mod_mod _ _
  have e2 : (sample_diff rate (d % two32) : Int) - (ds.length : Int) -
      ((sample_diff rate (d % two32) - ds.length : Nat) : Int)
      = min ((sample_diff rate (d % two32) : Int) - (ds.length : Int)) 0 := by omega
  rw [e1, e2]

set_option maxRecDepth 100000 in
/-- C6 as stated fails. Sample rate 1 MHz, a marker at tick 1 and, with no
data item between, a marker at tick `1 + 1638403`. The exact gap is
`1638403 * 10.24 = 16777246.72`, which rounds to 16777247; in `float` it is
16777246, so the code owes 16777246 zeros: a call with capacity 1 writes one
of them and leaves 16777245. -/
theorem filler_between_markers_counterexample :
    spec_padding c_1000000 1638403 0 = 16777247 ∧
    (on_marker ⟨1, 0, 0, c_1000000⟩ (mk_marker (1 + 1638403))).d_remaining_padding_length
      = 16777246 ∧
    general_work 1 ⟨1, 0, 0, c_1000000⟩ [mk_marker (1 + 1638403)] =
      some ⟨1, [0], ⟨1638404, 0, 16777245, c_1000000⟩⟩ ∧
    ((on_marker ⟨1, 0, 0, c_1000000⟩ (mk_marker (1 + 1638403))).d_remaining_padding_length
      ≠ spec_padding c_1000000 1638403 0) := by
  decide

theorem item_loop_full (n : Nat) (s : State) (out : List Nat) (c : Nat) (xs : List Nat)
    (h : n ≤ out.length) : item_loop n s out c xs = some ⟨c, out, s⟩ := by
  have hg : ¬ (out.length < n ∧ c < n) := by omega
  cases xs with
  | nil => rw [item_loop_nil, if_neg hg]
  | cons x rest => rw [item_loop_cons, if_neg hg]

theorem item_loop_marker_full (n : Nat) (s : State) (out : List Nat) (c m : Nat)
    (rest : List Nat) (hg : out.length < n ∧ c < n) (hm : is_marker m = true)
    (h : n - out.length < (on_marker s m).d_remaining_padding_length.toNat) :
    item_loop n s out c (m :: rest) = some ⟨c + 1, out ++ List.replicate (n - out.length) 0,
      { on_marker s m with d_remaining_padding_length :=
          (on_marker s m).d_remaining_padding_length - ((n - out.length : Nat) : Int) }⟩ := by
  rw [item_loop_cons, if_pos hg, if_pos hm, write_padding_eq]
  have hmin : min (on_marker s m).d_remaining_padding_length.toNat (n - out.length)
      = n - out.length := by omega
  rw [hmin]
  simp only [h, decide_True]

/-- A call that owes at least `noutput_items` zeros writes `noutput_items` zeros
and consumes nothing. -/
theorem general_work_pure_drain (n : Nat) (s : State) (xs : List Nat)
    (h : n ≤ s.d_remaining_padding_length.toNat) :
    general_work n s xs = some ⟨0, List.replicate n 0,
      { s with d_remaining_padding_length := s.d_remaining_padding_length - (n : Int) }⟩ := by
  rcases Nat.lt_or_ge n s.d_remaining_padding_length.toNat with hlt | hge
  · exact general_work_drain_full n s xs hlt
  · have he : s.d_remaining_padding_length.toNat = n := by omega
    rw [general_work_drain_fits n s xs hge, he, item_loop_full _ _ _ _ _ (by simp)]

/-- With `j * noutput_items` zeros owed, `j` calls write them all and consume
nothing. -/
theorem run_calls_drain (n : Nat) : ∀ (j : Nat) (s : State) (xs : List Nat),
    s.d_remaining_padding_length = ((j * n : Nat) : Int) →
    run_calls n j s xs = some ⟨0, List.replicate (j * n) 0,
      { s with d_remaining_padding_length := 0 }⟩ := by
  intro j
  induction j with
  | zero =>
    intro s xs h
    simp only [Nat.zero_mul, Nat.cast_zero] at h
    simp only [run_calls, Nat.zero_mul, List.replicate_zero]
    congr 2
    cases s
    simp only at h
    simp only [h]
  | succ j ih =>
    intro s xs h
    have hn : n ≤ s.d_remaining_padding_length.toNat := by
      rw [h, Int.toNat_ofNat, Nat.succ_mul]; omega
    have h' : s.d_remaining_padding_length - (n : Int) = ((j * n : Nat) : Int) := by
      rw [h, Nat.succ_mul]; push_cast; ring
    simp only [run_calls, general_work_pure_drain n s xs hn, List.drop_zero]
    rw [ih { s with d_remaining_padding_length := s.d_remaining_padding_length - (n : Int) } xs h']
    simp only [Nat.add_zero, ← List.replicate_add]
    congr 3
    rw [Nat.succ_mul]; omega

set_option maxRecDepth 100000 in
/-- C7, as amended. On a freshly constructed Padding Reconstructor with the
sample rate 1,000,000 the first marker, with timestamp 1000, only seeds
`d_last_timestamp`: no zero is written for it. A marker with timestamp 2000
right after it, 1000 ticks later, yields `10240` zeros in total over ten
calls with output capacity 1024, whatever input follows; both markers are
consumed, and no padding is owed after the tenth call. -/
theorem ten_calls_pad_10240 (rest : List Nat) :
    run_calls 1024 10 (init c_1000000) (mk_marker 1000 :: mk_marker 2000 :: rest) =
      some ⟨2, List.replicate 10240 0, ⟨2000, 0, 0, c_1000000⟩⟩ := by
  have hm1 : on_marker (init c_1000000) (mk_marker 1000) = ⟨1000, 0, 0, c_1000000⟩ := by decide
  have hm2 : on_marker ⟨1000, 0, 0, c_1000000⟩ (mk_marker 2000) = ⟨2000, 0, 10240, c_1000000⟩ := by
    decide
  have h1 : general_work 1024 (init c_1000000) (mk_marker 1000 :: mk_marker 2000 :: rest) =
      some ⟨2, List.replicate 1024 0, ⟨2000, 0, 9216, c_1000000⟩⟩ := by
    rw [general_work_marker_fits 1024 _ _ _ (by decide) (is_marker_mk_marker _) (by decide)
      (by rw [hm1]; decide), hm1]
    simp only [Int.toNat_zero, List.replicate_zero, Int.sub_zero, Nat.cast_zero]
    rw [item_loop_marker_full 1024 _ _ _ _ _ (by decide) (is_marker_mk_marker _)
      (by rw [hm2]; decide), hm2]
    simp only [List.length_nil, Nat.sub_zero, List.nil_append, Nat.zero_add]
    rfl
  have h2 := run_calls_drain 1024 9 ⟨2000, 0, 9216, c_1000000⟩ rest (by decide)
  rw [show (10 : Nat) = 9 + 1 from rfl, run_calls]
  simp only [h1, List.drop_succ_cons, List.drop_zero, h2, ← List.replicate_add]

set_option maxRecDepth 100000 in
/-- C7 as stated fails. On a freshly constructed Padding Reconstructor with the
sample rate 1,000,000 a first marker with timestamp 1000 leaves no padding
owed; with 1023 data items of value 1 after it, the call with capacity 1024
consumes the 1024 items and writes the 1023 data items: no zero is written
for the marker, and none is owed after the call. -/
theorem first_marker_10240_counterexample :
    (on_marker (init c_1000000) (mk_marker 1000)).d_remaining_padding_length = 0 ∧
    general_work 1024 (init c_1000000) (mk_marker 1000 :: List.replicate 1023 1) =
      some ⟨1024, List.replicate 1023 1, ⟨1000, 1023, 0, c_1000000⟩⟩ ∧
    0 ∉ List.replicate 1023 1 := by
  have hm1 : on_marker (init c_1000000) (mk_marker 1000) = ⟨1000, 0, 0, c_1000000⟩ := by decide
  have hne : 0 ∉ List.replicate 1023 1 := fun h => by
    have h1 := List.eq_of_mem_replicate h
    omega
  refine ⟨by rw [hm1], ?_, hne⟩
  rw [general_work_marker_fits 1024 _ _ _ (by decide) (is_marker_mk_marker _) (by decide)
    (by rw [hm1]; decide), hm1]
  simp only [Int.toNat_zero, List.replicate_zero, Int.sub_zero, Nat.cast_zero]
  rw [item_loop_data 1024 _ _ _ _ (by intro x hx; rw [List.eq_of_mem_replicate hx]; decide)
    (by rw [List.length_replicate]; decide)]
  simp only [List.length_nil, Nat.sub_zero, List.nil_append]
  rw [show min 1024 (1024 - 1) = 1023 from rfl, on_data_iterate _ _ (by decide),
    List.take_replicate]
  rfl

theorem timestamp_diff_first (s : State) (item : Nat) (h : s.d_last_timestamp = 0) :
    timestamp_diff s item = 0 := by
  unfold timestamp_diff sub_u32 marker_timestamp two32
  simp only [h, if_true]
  omega

theorem item_loop_marker_fits (n : Nat) (s : State) (out : List Nat) (c m : Nat)
    (rest : List Nat) (hg : out.length < n ∧ c < n) (hm : is_marker m = true)
    (h : (on_marker s m).d_remaining_padding_length ≤ 0) :
    item_loop n s out c (m :: rest) = item_loop n (on_marker s m) out (c + 1) rest := by
  rw [item_loop_cons, if_pos hg, if_pos hm, write_padding_of_nonpos _ _ _ h]

/-- First marker, within the range of `int`: in a state that has not yet seen a
marker (`d_last_timestamp = 0`) with no padding owed and at most `2^31` items
counted, a marker sets `d_last_timestamp` to its timestamp, the timestamp
difference is 0, the stored padding length is minus the item count, and the
call goes on with the next item without having written a zero. -/
theorem first_marker_seeds_in_range (n : Nat) (s : State) (m : Nat) (rest : List Nat)
    (h0 : s.d_last_timestamp = 0) (hs : s.d_remaining_padding_length ≤ 0)
    (hi : s.d_items_read_since_last_tag ≤ 2147483648) (hm : is_marker m = true)
    (hn : 1 ≤ n) :
    timestamp_diff s m = 0 ∧
    on_marker s m = ⟨marker_timestamp m, 0, -(s.d_items_read_since_last_tag : Int),
      s.d_sample_rate⟩ ∧
    general_work n s (m :: rest) =
      item_loop n ⟨marker_timestamp m, 0, -(s.d_items_read_since_last_tag : Int),
        s.d_sample_rate⟩ [] 1 rest := by
  have hd := timestamp_diff_first s m h0
  have hom : on_marker s m = ⟨marker_timestamp m, 0, -(s.d_items_read_since_last_tag : Int),
      s.d_sample_rate⟩ := by
    unfold on_marker
    simp only [hd, sample_diff_zero]
    rw [to_int32_sub 0 _ (by omega) (by omega)]
    simp
  refine ⟨hd, hom, ?_⟩
  rw [general_work_of_nonpos _ _ _ hs,
    item_loop_marker_fits n s [] 0 m rest (by simp; omega) hm (by rw [hom]; simp), hom]

/-- Absorbed marker, within the range of `int`: when the gap estimate
`sample_diff` of a marker is at most `d_items_read_since_last_tag`, by not more
than `2^31`, the stored padding length is their signed difference, which is not
positive, and the call goes on with the next item without having written a
zero. -/
theorem marker_absorbed_in_range (n : Nat) (s : State) (m : Nat) (rest : List Nat)
    (hs : s.d_remaining_padding_length ≤ 0) (hm : is_marker m = true) (hn : 1 ≤ n)
    (hle : sample_diff s.d_sample_rate (timestamp_diff s m) ≤ s.d_items_read_since_last_tag)
    (hr : s.d_items_read_since_last_tag
      ≤ sample_diff s.d_sample_rate (timestamp_diff s m) + 2147483648) :
    (on_marker s m).d_remaining_padding_length =
      (sample_diff s.d_sample_rate (timestamp_diff s m) : Int)
        - (s.d_items_read_since_last_tag : Int) ∧
    (on_marker s m).d_remaining_padding_length ≤ 0 ∧
    general_work n s (m :: rest) = item_loop n (on_marker s m) [] 1 rest := by
  have hrem : (on_marker s m).d_remaining_padding_length =
      (sample_diff s.d_sample_rate (timestamp_diff s m) : Int)
        - (s.d_items_read_since_last_tag : Int) := by
    unfold on_marker
    simp only
    rw [to_int32_sub _ _ (by omega) (by omega)]
  have hnp : (on_marker s m).d_remaining_padding_length ≤ 0 := by rw [hrem]; omega
  refine ⟨hrem, hnp, ?_⟩
  rw [general_work_of_nonpos _ _ _ hs,
    item_loop_marker_fits n s [] 0 m rest (by simp; omega) hm hnp]

set_option maxRecDepth 100000 in
/-- C8 on the failing input. A state that has not yet seen a marker
(`d_last_timestamp = 0`) after `2^31 + 1` data items, with no padding owed; the
first marker, with timestamp 1000, and a data item follow. The call with
capacity 2 consumes the marker and writes two zeros, and `2^31 - 3` more zeros
are owed: `0 - 2147483649` wraps to `2147483647` in `uint32_t`. -/
theorem first_marker_after_many_items :
    general_work 2 ⟨0, 2147483649, 0, c_1000000⟩ [mk_marker 1000, 7] =
      some ⟨1, [0, 0], ⟨1000, 0, 2147483645, c_1000000⟩⟩ := by
  decide

set_option maxRecDepth 100000 in
/-- C9 on the failing input. Sample rate 1 MHz, last marker at tick 1000,
`3000000000` data items counted since, no padding owed; a marker at tick 1001
(gap estimate 10, less than the item count) and a data item follow. The call
with capacity 2 consumes the marker and writes two zeros; the stored padding
length was `1294967306 = 10 - 3000000000 + 2^32`, not the negative
difference. -/
theorem marker_after_many_items :
    sample_diff c_1000000 (timestamp_diff ⟨1000, 3000000000, 0, c_1000000⟩ (mk_marker 1001)) = 10 ∧
    (on_marker ⟨1000, 3000000000, 0, c_1000000⟩ (mk_marker 1001)).d_remaining_padding_length
      = 1294967306 ∧
    general_work 2 ⟨1000, 3000000000, 0, c_1000000⟩ [mk_marker 1001, 7] =
      some ⟨1, [0, 0], ⟨1001, 0, 1294967304, c_1000000⟩⟩ := by
  decide

theorem on_data_iterate_last (k : Nat) (s : State) :
    (on_data^[k] s).d_last_timestamp = s.d_last_timestamp := by
  induction k with
  | zero => rfl
  | succ k ih => rw [Function.iterate_succ', Function.comp_apply]; exact ih

/-- C10, as amended. Timestamp difference against the previous marker, with
wraparound: for every 32-bit value `t1` and every `t2`, when a marker with timestamp
`t1` has been processed and, after any number of data items, the next marker
has the timestamp `t2`, the difference used for the gap estimate of the second
marker is `(t2 - t1) mod 2^32` if `t1` is not zero; if `t1` is zero the second
marker is taken for the first one and the difference is 0. -/
theorem timestamp_diff_against_previous_marker (s : State) (t1 t2 k : Nat)
    (h1 : t1 < two32) :
    ((timestamp_diff (on_data^[k] (on_marker s (mk_marker t1))) (mk_marker t2) : Nat) : Int) =
      if t1 = 0 then 0 else ((t2 : Int) - (t1 : Int)) % 4294967296 := by
  have hl : (on_data^[k] (on_marker s (mk_marker t1))).d_last_timestamp = t1 := by
    rw [on_data_iterate_last]
    unfold on_marker
    simp only [marker_timestamp_mk_marker]
    exact Nat.mod_eq_of_lt h1
  by_cases ht : t1 = 0
  · rw [if_pos ht, timestamp_diff_first _ _ (by rw [hl, ht])]
    rfl
  · rw [if_neg ht]
    unfold timestamp_diff
    simp only [hl, marker_timestamp_mk_marker, if_neg ht]
    unfold sub_u32 two32 at *
    omega

/-- Witness for C10: the timestamps `4294967290` and `5`, three data items
between the markers. -/
theorem timestamp_diff_against_previous_marker_witness :
    4294967290 < two32 ∧
    ((timestamp_diff (on_data^[3] (on_marker (init c_1000000) (mk_marker 4294967290)))
        (mk_marker 5) : Nat) : Int) =
      if 4294967290 = 0 then 0
      else (((5 : Nat) : Int) - ((4294967290 : Nat) : Int)) % 4294967296 :=
  ⟨by decide,
    timestamp_diff_against_previous_marker (init c_1000000) 4294967290 5 3 (by decide)⟩

set_option maxRecDepth 100000 in
/-- C10 as stated fails for `t1 = 0`. After a marker with timestamp 0 the
member `d_last_timestamp` is 0, as before the first marker; for the next
marker, with timestamp 5, the difference used is 0, not 5. At the sample rate
1 MHz the gap estimate for 5 ticks is 51, and the call writes no zero. -/
theorem timestamp_diff_counterexample :
    (0 : Nat) < two32 ∧ (5 : Nat) < two32 ∧
    timestamp_diff (on_marker (init c_1000000) (mk_marker 0)) (mk_marker 5) = 0 ∧
    (((5 : Nat) : Int) - ((0 : Nat) : Int)) % 4294967296 = 5 ∧
    sample_diff c_1000000 5 = 51 ∧
    general_work 3 (init c_1000000) [mk_marker 0, mk_marker 5, 9] =
      some ⟨3, [9], ⟨5, 1, 0, c_1000000⟩⟩ := by
  decide

set_option maxRecDepth 100000 in
/-- The first marker after `2^31` data items, the largest count in range: no
zero is written, and the two data items after the marker are copied. -/
theorem first_marker_seeds_in_range_example :
    general_work 3 ⟨0, 2147483648, 0, c_1000000⟩ [mk_marker 1000, 7, 8] =
      some ⟨3, [7, 8], ⟨1000, 2, -2147483648, c_1000000⟩⟩ := by
  decide

set_option maxRecDepth 100000 in
/-- An absorbed marker: gap estimate 10 after 12 data items; no zero is
written, and the two data items after the marker are copied. -/
theorem marker_absorbed_in_range_example :
    general_work 3 ⟨1000, 12, 0, c_1000000⟩ [mk_marker 1001, 7, 8] =
      some ⟨3, [7, 8], ⟨1001, 2, -2, c_1000000⟩⟩ := by
  decide

theorem filter_nonzero_replicate (z : Nat) :
    (List.replicate z (0 : Nat)).filter (fun y => y != 0) = [] := by
  induction z with
  | zero => rfl
  | succ z ih => rw [List.replicate_succ, List.filter_cons_of_neg (by simp), ih]

/-- Invariant of the item loop for the copied items: what the loop appends to
the output has the consumed items that are not markers as a subsequence, and
without its zeros it is that subsequence without its zeros. -/
theorem item_loop_copies (n : Nat) : ∀ (input : List Nat) (s : State) (out : List Nat)
    (c : Nat) (r : Result), item_loop n s out c input = some r →
    ∃ o, r.out = out ++ o ∧ c ≤ r.consumed ∧ r.consumed - c ≤ input.length ∧
      List.Sublist ((input.take (r.consumed - c)).filter (fun x => !is_marker x)) o ∧
      o.filter (fun y => y != 0) =
        ((input.take (r.consumed - c)).filter (fun x => !is_marker x)).filter
          (fun y => y != 0) := by
  intro input
  induction input with
  | nil =>
    intro s out c r h
    rw [item_loop_nil] at h
    by_cases hg : out.length < n ∧ c < n
    · rw [if_pos hg] at h; cases h
    · rw [if_neg hg] at h
      cases h
      exact ⟨[], by simp, le_refl _, by simp, by simp, by simp⟩
  | cons x rest ih =>
    intro s out c r h
    rw [item_loop_cons] at h
    by_cases hg : out.length < n ∧ c < n
    · rw [if_pos hg] at h
      by_cases hx : is_marker x = true
      · rw [if_pos hx, write_padding_eq] at h
        by_cases hf : n - out.length < (on_marker s x).d_remaining_padding_length.toNat
        · simp only [hf, decide_True] at h
          cases h
          refine ⟨_, rfl, by simp, by simp, ?_, ?_⟩
          · simp [List.filter_cons, hx]
          · simp only [Nat.add_sub_cancel_left, List.take_succ_cons, List.take_zero]
            rw [filter_nonzero_replicate]
            simp [List.filter_cons, hx]
        · simp only [hf, decide_False] at h
          obtain ⟨o, ho, hc, hl, h1, h2⟩ := ih _ _ _ _ h
          have hd : r.consumed - c = (r.consumed - (c + 1)) + 1 := by omega
          refine ⟨List.replicate (min (on_marker s x).d_remaining_padding_length.toNat
              (n - out.length)) 0 ++ o, by rw [ho, List.append_assoc], by omega,
            by simp only [List.length_cons]; omega, ?_, ?_⟩
          · rw [hd, List.take_succ_cons, List.filter_cons_of_neg (by simp [hx])]
            exact List.sublist_append_of_sublist_right h1
          · rw [hd, List.take_succ_cons, List.filter_cons_of_neg (by simp [hx]),
              List.filter_append, filter_nonzero_replicate, List.nil_append, h2]
      · rw [if_neg hx] at h
        obtain ⟨o, ho, hc, hl, h1, h2⟩ := ih _ _ _ _ h
        have hd : r.consumed - c = (r.consumed - (c + 1)) + 1 := by omega
        have hx' : is_marker x = false := by simpa using hx
        have e : (x :: List.take (r.consumed - (c + 1)) rest).filter (fun x => !is_marker x)
            = x :: (List.take (r.consumed - (c + 1)) rest).filter (fun x => !is_marker x) :=
          List.filter_cons_of_pos (by simp [hx'])
        refine ⟨x :: o, by rw [ho]; simp, by omega,
          by simp only [List.length_cons]; omega, ?_, ?_⟩
        · rw [hd, List.take_succ_cons, e]
          exact List.Sublist.cons₂ x h1
        · rw [hd, List.take_succ_cons, e]
          simp only [List.filter_cons]
          rw [h2]
    · rw [if_neg hg] at h
      cases h
      exact ⟨[], by simp, le_refl _, by simp, by simp, by simp⟩

theorem is_marker_zero : is_marker 0 = false := by decide

/-- C11. The Padding Reconstructor never copies a marker to its output: for
every state, capacity `n` and input, the call returns when at least `n` input
items are available, and whenever it returns, no item of the output is a
marker, every item of the output is the filler value 0 or a consumed item
that is not a marker, the consumed items that are not markers appear in the
output in their input order, and nothing but zeros stands between them. -/
theorem no_marker_in_output (n : Nat) (s : State) (xs : List Nat) :
    (n ≤ xs.length → ∃ r, general_work n s xs = some r) ∧
    ∀ r, general_work n s xs = some r →
      (∀ y ∈ r.out, is_marker y = false) ∧
      (∀ y ∈ r.out, y = 0 ∨ (y ∈ xs.take r.consumed ∧ is_marker y = false)) ∧
      List.Sublist ((xs.take r.consumed).filter (fun x => !is_marker x)) r.out ∧
      r.out.filter (fun y => y != 0) =
        ((xs.take r.consumed).filter (fun x => !is_marker x)).filter (fun y => y != 0) := by
  have hex : n ≤ xs.length → ∃ r, general_work n s xs = some r := by
    intro h
    unfold general_work
    rw [write_padding_eq]
    by_cases hf : n - ([] : List Nat).length < s.d_remaining_padding_length.toNat
    · simp only [hf, decide_True]; exact ⟨_, rfl⟩
    · simp only [hf, decide_False]
      exact item_loop_some n xs _ _ 0 (by omega)
  have key : ∀ r, general_work n s xs = some r →
      List.Sublist ((xs.take r.consumed).filter (fun x => !is_marker x)) r.out ∧
      r.out.filter (fun y => y != 0) =
        ((xs.take r.consumed).filter (fun x => !is_marker x)).filter (fun y => y != 0) := by
    intro r hr
    unfold general_work at hr
    rw [write_padding_eq] at hr
    simp only [List.length_nil, Nat.sub_zero, List.nil_append] at hr
    by_cases hf : n < s.d_remaining_padding_length.toNat
    · simp only [hf, decide_True] at hr
      cases hr
      refine ⟨by simp, ?_⟩
      simp only [List.take_zero, List.filter_nil]
      exact filter_nonzero_replicate _
    · simp only [hf, decide_False] at hr
      obtain ⟨o, ho, _, _, h1, h2⟩ := item_loop_copies n xs _ _ _ r hr
      simp only [Nat.sub_zero] at h1 h2
      refine ⟨?_, ?_⟩
      · rw [ho]; exact List.sublist_append_of_sublist_right h1
      · rw [ho, List.filter_append, filter_nonzero_replicate, List.nil_append, h2]
  refine ⟨hex, ?_⟩
  intro r hr
  obtain ⟨h1, h2⟩ := key r hr
  have h3 : ∀ y ∈ r.out, y = 0 ∨ (y ∈ xs.take r.consumed ∧ is_marker y = false) := by
    intro y hy
    by_cases hy0 : y = 0
    · exact Or.inl hy0
    · right
      have hm : y ∈ r.out.filter (fun y => y != 0) :=
        List.mem_filter.mpr ⟨hy, by simpa using hy0⟩
      rw [h2] at hm
      have hm2 := (List.mem_filter.mp hm).1
      have hm3 := List.mem_filter.mp hm2
      exact ⟨hm3.1, by simpa using hm3.2⟩
  refine ⟨?_, h3, h1, h2⟩
  intro y hy
  rcases h3 y hy with h0 | ⟨_, hm⟩
  · rw [h0]; exact is_marker_zero
  · exact hm

set_option maxRecDepth 100000 in
/-- Example for C11: one zero owed, capacity 4, a marker with padding 9 among
the data items: the call writes the owed zero, copies the item 5, consumes
the marker and writes two zeros for it. -/
theorem no_marker_in_output_example :
    general_work 4 ⟨7, 0, 1, c_1000000⟩ [5, mk_marker 8, 6, 7] =
      some ⟨2, [0, 5, 0, 0], ⟨8, 0, 7, c_1000000⟩⟩ := by
  decide

/-- C12. Pure drain: in every state with `d_remaining_padding_length = p > 0`,
a call with output capacity `n`, `0 ≤ n ≤ p`, on any input, the empty one
included, writes exactly `n` zeros, consumes no input item, leaves
`d_remaining_padding_length = p - n`, and leaves `d_last_timestamp`,
`d_items_read_since_last_tag` and `d_sample_rate` as they are. -/
theorem pure_drain (n : Nat) (s : State) (xs : List Nat)
    (hp : 0 < s.d_remaining_padding_length) (hn : (n : Int) ≤ s.d_remaining_padding_length) :
    general_work n s xs = some ⟨0, List.replicate n 0,
      ⟨s.d_last_timestamp, s.d_items_read_since_last_tag,
        s.d_remaining_padding_length - (n : Int), s.d_sample_rate⟩⟩ := by
  rw [general_work_pure_drain n s xs (by omega)]

/-- Witness for C12: five zeros owed, capacity 3, no input item. -/
theorem pure_drain_witness :
    0 < (⟨1000, 4, 5, c_1000000⟩ : State).d_remaining_padding_length ∧
    ((3 : Nat) : Int) ≤ (⟨1000, 4, 5, c_1000000⟩ : State).d_remaining_padding_length ∧
    general_work 3 ⟨1000, 4, 5, c_1000000⟩ [] = some ⟨0, List.replicate 3 0,
      ⟨(⟨1000, 4, 5, c_1000000⟩ : State).d_last_timestamp,
        (⟨1000, 4, 5, c_1000000⟩ : State).d_items_read_since_last_tag,
        (⟨1000, 4, 5, c_1000000⟩ : State).d_remaining_padding_length - ((3 : Nat) : Int),
        (⟨1000, 4, 5, c_1000000⟩ : State).d_sample_rate⟩⟩ :=
  ⟨by decide, by decide, pure_drain 3 ⟨1000, 4, 5, c_1000000⟩ [] (by decide) (by decide)⟩

/-- Bounds of the item loop: entered with `written_items ≤ noutput_items`,
`consumed_items ≤ noutput_items` and nothing owed, it returns with both
counters within the same bounds and not smaller than before, it has consumed
an item when its condition held on entry, and it leaves zeros owed only when
the output is full. -/
theorem item_loop_bounds (n : Nat) : ∀ (input : List Nat) (s : State) (out : List Nat)
    (c : Nat) (r : Result), out.length ≤ n → c ≤ n → s.d_remaining_padding_length ≤ 0 →
    item_loop n s out c input = some r →
    c ≤ r.consumed ∧ r.consumed ≤ n ∧ out.length ≤ r.out.length ∧ r.out.length ≤ n ∧
      (0 < r.state.d_remaining_padding_length → r.out.length = n) ∧
      (out.length < n → c < n → c < r.consumed) := by
  intro input
  induction input with
  | nil =>
    intro s out c r ho hc hs h
    rw [item_loop_nil] at h
    by_cases hg : out.length < n ∧ c < n
    · rw [if_pos hg] at h; exact absurd h (by simp)
    · rw [if_neg hg] at h
      cases h
      exact ⟨le_refl _, hc, le_refl _, ho, fun hp => absurd hp (by dsimp only; omega),
        fun h1 h2 => absurd ⟨h1, h2⟩ hg⟩
  | cons x rest ih =>
    intro s out c r ho hc hs h
    rw [item_loop_cons] at h
    by_cases hg : out.length < n ∧ c < n
    · rw [if_pos hg] at h
      by_cases hx : is_marker x = true
      · rw [if_pos hx, write_padding_eq] at h
        by_cases hf : n - out.length < (on_marker s x).d_remaining_padding_length.toNat
        · simp only [hf, decide_True] at h
          cases h
          have hmin : min (on_marker s x).d_remaining_padding_length.toNat (n - out.length)
              = n - out.length := by omega
          dsimp only
          rw [hmin, List.length_append, List.length_replicate]
          refine ⟨by omega, by omega, by omega, by omega, fun _ => by omega, fun _ _ => by omega⟩
        · simp only [hf, decide_False] at h
          have hmin : min (on_marker s x).d_remaining_padding_length.toNat (n - out.length)
              = (on_marker s x).d_remaining_padding_length.toNat := by omega
          rw [hmin] at h
          have hl : (out ++ List.replicate
              (on_marker s x).d_remaining_padding_length.toNat 0).length ≤ n := by
            rw [List.length_append, List.length_replicate]; omega
          have hl2 : out.length ≤ (out ++ List.replicate
              (on_marker s x).d_remaining_padding_length.toNat 0).length := by
            rw [List.length_append]; omega
          have := ih _ _ _ r hl (by omega) (by dsimp only; omega) h
          refine ⟨by omega, this.2.1, by omega, this.2.2.2.1, this.2.2.2.2.1, fun _ _ => by omega⟩
      · rw [if_neg hx] at h
        have hl : (out ++ [x]).length ≤ n := by
          rw [List.length_append, List.length_singleton]; omega
        have hl2 : (out ++ [x]).length = out.length + 1 := by
          rw [List.length_append, List.length_singleton]
        have := ih _ _ _ r hl (by omega) (by simpa [on_data] using hs) h
        refine ⟨by omega, this.2.1, by omega, this.2.2.2.1, this.2.2.2.2.1, fun _ _ => by omega⟩
    · rw [if_neg hg] at h
      cases h
      exact ⟨le_refl _, hc, le_refl _, ho, fun hp => absurd hp (by dsimp only; omega),
        fun h1 h2 => absurd ⟨h1, h2⟩ hg⟩

/-- The item loop reads the input at indices below `noutput_items` only: the
items from index `noutput_items - consumed_items` on can be left out. -/
theorem item_loop_take (n : Nat) : ∀ (input : List Nat) (s : State) (out : List Nat)
    (c : Nat), item_loop n s out c (input.take (n - c)) = item_loop n s out c input := by
  intro input
  induction input with
  | nil => intro s out c; rw [List.take_nil]
  | cons x rest ih =>
    intro s out c
    by_cases hg : out.length < n ∧ c < n
    · have hn : n - c = (n - (c + 1)) + 1 := by omega
      rw [hn, List.take_succ_cons, item_loop_cons, item_loop_cons, if_pos hg, if_pos hg]
      by_cases hx : is_marker x = true
      · rw [if_pos hx, if_pos hx, write_padding_eq]
        by_cases hf : n - out.length < (on_marker s x).d_remaining_padding_length.toNat
        · simp only [hf, decide_True]
        · simp only [hf, decide_False]
          exact ih _ _ _
      · rw [if_neg hx, if_neg hx]
        exact ih _ _ _
    · rw [item_loop_cons, if_neg hg]
      cases hl : List.take (n - c) (x :: rest) with
      | nil => rw [item_loop_nil, if_neg hg]
      | cons y ys => rw [item_loop_cons, if_neg hg]

/-- A call reads the input at indices below `noutput_items` only. -/
theorem general_work_take (n : Nat) (s : State) (xs : List Nat) :
    general_work n s (xs.take n) = general_work n s xs := by
  unfold general_work
  rw [write_padding_eq]
  by_cases hf : n - ([] : List Nat).length < s.d_remaining_padding_length.toNat
  · simp only [hf, decide_True]
  · simp only [hf, decide_False]
    exact item_loop_take n xs _ _ 0

/-- A call returns when `noutput_items` input items are available. -/
theorem general_work_some (n : Nat) (s : State) (xs : List Nat) (h : n ≤ xs.length) :
    ∃ r, general_work n s xs = some r := by
  unfold general_work
  rw [write_padding_eq]
  by_cases hf : n - ([] : List Nat).length < s.d_remaining_padding_length.toNat
  · simp only [hf, decide_True]; exact ⟨_, rfl⟩
  · simp only [hf, decide_False]
    exact item_loop_some n xs _ _ 0 (by omega)

/-- Bounds of a call: the counters stay within `noutput_items`, zeros are left
owed only when the output is full, and with `noutput_items ≥ 1` an item is
consumed or an item is written. -/
theorem general_work_bounds (n : Nat) (s : State) (xs : List Nat) (r : Result)
    (h : general_work n s xs = some r) :
    r.consumed ≤ n ∧ r.out.length ≤ n ∧
      (0 < r.state.d_remaining_padding_length → r.out.length = n) ∧
      (1 ≤ n → 1 ≤ r.consumed + r.out.length) := by
  unfold general_work at h
  rw [write_padding_eq] at h
  by_cases hf : n - ([] : List Nat).length < s.d_remaining_padding_length.toNat
  · simp only [hf, decide_True] at h
    cases h
    have hmin : min s.d_remaining_padding_length.toNat (n - ([] : List Nat).length) = n := by
      simp only [List.length_nil] at hf ⊢; omega
    dsimp only
    rw [hmin, List.nil_append, List.length_replicate]
    exact ⟨Nat.zero_le _, le_refl _, fun _ => rfl, fun h1 => by omega⟩
  · simp only [hf, decide_False] at h
    have hmin : min s.d_remaining_padding_length.toNat (n - ([] : List Nat).length)
        = s.d_remaining_padding_length.toNat := by
      simp only [List.length_nil] at hf ⊢; omega
    rw [hmin, List.nil_append] at h
    have hl : (List.replicate s.d_remaining_padding_length.toNat 0).length ≤ n := by
      rw [List.length_replicate]; simp only [List.length_nil] at hf; omega
    have hb := item_loop_bounds n xs _ _ 0 r hl (Nat.zero_le _) (by dsimp only; omega) h
    refine ⟨hb.2.1, hb.2.2.2.1, hb.2.2.2.2.1, fun h1 => ?_⟩
    rw [List.length_replicate] at hb
    by_cases h0 : s.d_remaining_padding_length.toNat < n
    · have := hb.2.2.2.2.2 h0 (by omega); omega
    · have := hb.2.2.1; omega


/-- C22. Padding Reconstructor buffer bounds: for every state and every
`noutput_items ≥ 0`, a call on at least `noutput_items` available input items
(what `forecast` requests) returns, so no input item is read that is not
there; it returns the same on the first `noutput_items` input items alone, so
every input read is at an index below `noutput_items`; and the number of items
produced and the number consumed are at most `noutput_items`. The output is
written at the consecutive indices from 0 on, so with at most `noutput_items`
items written every write is at an index below `noutput_items`. -/
theorem buffer_bounds (n : Nat) (s : State) (xs : List Nat) (h : n ≤ xs.length) :
    ∃ r, general_work n s xs = some r ∧ general_work n s (xs.take n) = some r ∧
      r.out.length ≤ n ∧ r.consumed ≤ n := by
  obtain ⟨r, hr⟩ := general_work_some n s xs h
  have hb := general_work_bounds n s xs r hr
  exact ⟨r, hr, by rw [general_work_take, hr], hb.2.1, hb.1⟩

set_option maxRecDepth 100000 in
/-- Witness for C22: capacity 3 on four items, a marker among them, with two
zeros owed. -/
theorem buffer_bounds_witness :
    3 ≤ [5, mk_marker 1001, 7, 9].length ∧
    ∃ r, general_work 3 ⟨1000, 4, 2, c_1000000⟩ [5, mk_marker 1001, 7, 9] = some r ∧
      general_work 3 ⟨1000, 4, 2, c_1000000⟩ ([5, mk_marker 1001, 7, 9].take 3) = some r ∧
      r.out.length ≤ 3 ∧ r.consumed ≤ 3 :=
  ⟨by decide, buffer_bounds 3 ⟨1000, 4, 2, c_1000000⟩ [5, mk_marker 1001, 7, 9] (by decide)⟩

/-- C23. Padding is only left owed when the output is full: for every state,
capacity and input, if a call returns with `d_remaining_padding_length > 0`
then the number of items it produced equals `noutput_items`. -/
theorem padding_left_only_when_full (n : Nat) (s : State) (xs : List Nat) (r : Result)
    (h : general_work n s xs = some r) (hp : 0 < r.state.d_remaining_padding_length) :
    r.out.length = n :=
  (general_work_bounds n s xs r h).2.2.1 hp

set_option maxRecDepth 100000 in
/-- Witness for C23: capacity 4; a data item, then a marker one tick after the
last one at 1 MHz, which asks for 10 - 1 = 9 zeros; three of them fit. -/
theorem padding_left_only_when_full_witness :
    general_work 4 ⟨1000, 0, 0, c_1000000⟩ [7, mk_marker 1001, 8] =
      some ⟨2, [7, 0, 0, 0], ⟨1001, 0, 6, c_1000000⟩⟩ ∧
    0 < (⟨2, [7, 0, 0, 0], ⟨1001, 0, 6, c_1000000⟩⟩ : Result).state.d_remaining_padding_length ∧
    (⟨2, [7, 0, 0, 0], ⟨1001, 0, 6, c_1000000⟩⟩ : Result).out.length = 4 :=
  ⟨by decide, by decide,
    padding_left_only_when_full 4 ⟨1000, 0, 0, c_1000000⟩ [7, mk_marker 1001, 8]
      ⟨2, [7, 0, 0, 0], ⟨1001, 0, 6, c_1000000⟩⟩ (by decide) (by decide)⟩

/-- C24. Padding Reconstructor progress: for every state and every call with
`noutput_items ≥ 1` on at least `noutput_items` available input items, the
call returns and consumes at least one input item or produces at least one
output item: `consumed + produced ≥ 1`. -/
theorem call_makes_progress (n : Nat) (s : State) (xs : List Nat) (hn : 1 ≤ n)
    (h : n ≤ xs.length) :
    ∃ r, general_work n s xs = some r ∧ 1 ≤ r.consumed + r.out.length := by
  obtain ⟨r, hr⟩ := general_work_some n s xs h
  exact ⟨r, hr, (general_work_bounds n s xs r hr).2.2.2 hn⟩

set_option maxRecDepth 100000 in
/-- Witness for C24: capacity 1 and the first marker of a stream, which is
consumed and writes nothing. -/
theorem call_makes_progress_witness :
    1 ≤ 1 ∧ 1 ≤ [mk_marker 5].length ∧
    ∃ r, general_work 1 (init c_1000000) [mk_marker 5] = some r ∧
      1 ≤ r.consumed + r.out.length :=
  ⟨by decide, by decide, call_makes_progress 1 (init c_1000000) [mk_marker 5]
    (by decide) (by decide)⟩

end time_encoded_to_padded_stream_impl

/-! ## Properties of the Tag Extractor -/

namespace time_encoded_to_tagged_stream_impl

theorem scan_loop_nil (n nw i del : Nat) (out : Nat → Nat) (tags : List Tag) :
    scan_loop n nw i del out tags [] = if i < n then none else some (del, out, tags) := by
  rw [scan_loop]

theorem scan_loop_cons (n nw i del : Nat) (out : Nat → Nat) (tags : List Tag) (x : Nat)
    (rest : List Nat) :
    scan_loop n nw i del out tags (x :: rest) =
      if i < n then
        if is_marker x then
          scan_loop n nw (i + 1) (del + 1) out
            (tags ++ [⟨absolute_offset nw i del, tag_time x⟩]) rest
        else scan_loop n nw (i + 1) del (Function.update out (i - del) x) tags rest
      else some (del, out, tags) := by
  rw [scan_loop]

theorem map_update_range (out : Nat → Nat) (a x : Nat) :
    (List.range (a + 1)).map (Function.update out a x) = (List.range a).map out ++ [x] := by
  rw [List.range_succ, List.map_append]
  congr 1
  · apply List.map_congr_left
    intro j hj
    have : j ≠ a := by simp at hj; omega
    simp [Function.update, this]
  · simp

/-- Invariant of the loop of the Tag Extractor: it returns when enough input is
available, `deleted_samples` and the tags count the markers read, and the
first `i - deleted_samples` slots of the output hold the items read that are
not markers, in their order. -/
theorem scan_loop_spec (n nw : Nat) : ∀ (input : List Nat) (i del : Nat) (out : Nat → Nat)
    (tags : List Tag), del ≤ i → n - i ≤ input.length →
    ∃ del1 out1 tags1, scan_loop n nw i del out tags input = some (del1, out1, tags1) ∧
      del1 = del + ((input.take (n - i)).filter is_marker).length ∧
      tags1.length = tags.length + ((input.take (n - i)).filter is_marker).length ∧
      (List.range (i - del +
          ((input.take (n - i)).filter (fun x => !is_marker x)).length)).map out1 =
        (List.range (i - del)).map out ++ (input.take (n - i)).filter (fun x => !is_marker x) := by
  intro input
  induction input with
  | nil =>
    intro i del out tags _ hl
    have hg : ¬ i < n := by simp at hl; omega
    rw [scan_loop_nil, if_neg hg]
    exact ⟨del, out, tags, rfl, by simp, by simp, by simp⟩
  | cons x rest ih =>
    intro i del out tags hd hl
    rw [scan_loop_cons]
    by_cases hg : i < n
    · rw [if_pos hg]
      have hn : n - i = (n - (i + 1)) + 1 := by omega
      have hr : n - (i + 1) ≤ rest.length := by simp at hl; omega
      rw [hn, List.take_succ_cons]
      by_cases hx : is_marker x = true
      · rw [if_pos hx]
        obtain ⟨del1, out1, tags1, h1, h2, h3, h4⟩ :=
          ih (i + 1) (del + 1) out (tags ++ [⟨absolute_offset nw i del, tag_time x⟩])
            (by omega) hr
        refine ⟨del1, out1, tags1, h1, ?_, ?_, ?_⟩
        · rw [h2]; simp [List.filter_cons, hx]; omega
        · rw [h3]; simp [List.filter_cons, hx]; omega
        · have he : i + 1 - (del + 1) = i - del := by omega
          rw [he] at h4
          simpa [List.filter_cons, hx] using h4
      · rw [if_neg hx]
        obtain ⟨del1, out1, tags1, h1, h2, h3, h4⟩ :=
          ih (i + 1) del (Function.update out (i - del) x) tags (by omega) hr
        refine ⟨del1, out1, tags1, h1, ?_, ?_, ?_⟩
        · rw [h2]; simp [List.filter_cons, hx]
        · rw [h3]; simp [List.filter_cons, hx]
        · have he : i + 1 - del = (i - del) + 1 := by omega
          rw [he, map_update_range] at h4
          have hx' : is_marker x = false := by simpa using hx
          simp only [List.filter_cons, hx', Bool.not_false, if_true, List.length_cons]
          have ha : i - del + (List.length (List.filter (fun x => !is_marker x)
              (List.take (n - (i + 1)) rest)) + 1) = i - del + 1 +
              List.length (List.filter (fun x => !is_marker x) (List.take (n - (i + 1)) rest)) := by
            omega
          rw [ha, h4]; simp
    · rw [if_neg hg]
      have hn : n - i = 0 := by omega
      rw [hn]
      exact ⟨del, out, tags, rfl, by simp, by simp, by simp⟩

theorem filter_marker_length (xs : List Nat) :
    (xs.filter is_marker).length + (xs.filter (fun x => !is_marker x)).length = xs.length := by
  induction xs with
  | nil => simp
  | cons x rest ih =>
    by_cases hx : is_marker x = true
    · simp [List.filter_cons, hx]; omega
    · simp [List.filter_cons, hx]; omega

/-- One call of the Tag Extractor on `n` available items. -/
theorem tagged_general_work_spec (n nw : Nat) (xs : List Nat) (buf : Nat → Nat) (h : n ≤ xs.length) :
    ∃ r, general_work n nw xs buf = some r ∧
      r.out = (xs.take n).filter (fun x => !is_marker x) ∧
      r.produced = r.out.length ∧ r.consumed = n ∧
      r.tags.length = ((xs.take n).filter is_marker).length ∧
      r.produced + r.tags.length = n := by
  obtain ⟨del1, out1, tags1, h1, h2, h3, h4⟩ :=
    scan_loop_spec n nw xs 0 0 buf [] (le_refl _) (by omega)
  have hlen := filter_marker_length (xs.take n)
  have htake : (xs.take n).length = n := by simp; omega
  simp only [Nat.sub_zero, Nat.zero_add, List.range_zero, List.map_nil, List.nil_append,
    List.length_nil] at h2 h3 h4
  have hp : n - del1 = ((xs.take n).filter (fun x => !is_marker x)).length := by omega
  refine ⟨_, by unfold general_work; rw [h1], ?_, ?_, rfl, ?_, ?_⟩
  · simp only; rw [hp, h4]
  · simp only; rw [hp, h4]
  · simpa using h3
  · simp only; omega

/-- C2. Tag Extractor: for every call on `noutput_items = n` available input
items the call returns, and the produced output is the input with the marker
items removed: the non-marker items in their order with their values, and no
item of the output is a marker. -/
theorem tag_extractor_output_is_input_without_markers (n nw : Nat) (xs : List Nat)
    (buf : Nat → Nat) (h : n ≤ xs.length) :
    ∃ r, general_work n nw xs buf = some r ∧
      r.out = (xs.take n).filter (fun x => !is_marker x) ∧
      ∀ y ∈ r.out, is_marker y = false := by
  obtain ⟨r, hr, ho, _⟩ := tagged_general_work_spec n nw xs buf h
  refine ⟨r, hr, ho, ?_⟩
  intro y hy
  rw [ho] at hy
  simpa using (List.mem_filter.mp hy).2

/-- Witness for C2: five items, two of them markers. -/
theorem tag_extractor_output_is_input_without_markers_witness :
    5 ≤ [1, mk_marker 1000, mk_marker 2000, 3, 4].length ∧
    ∃ r, general_work 5 100 [1, mk_marker 1000, mk_marker 2000, 3, 4] (fun _ => 77) = some r ∧
      r.out = ([1, mk_marker 1000, mk_marker 2000, 3, 4].take 5).filter (fun x => !is_marker x) ∧
      ∀ y ∈ r.out, is_marker y = false :=
  ⟨by decide, tag_extractor_output_is_input_without_markers 5 100
    [1, mk_marker 1000, mk_marker 2000, 3, 4] (fun _ => 77) (by decide)⟩

/-- C3. Tag Extractor: for every call on `noutput_items = n` available input
items, the number of items produced (the return value) plus the number of tags
written by `add_item_tag` is `n`, and `n` input items are consumed. -/
theorem tag_extractor_produced_plus_tags (n nw : Nat) (xs : List Nat)
    (buf : Nat → Nat) (h : n ≤ xs.length) :
    ∃ r, general_work n nw xs buf = some r ∧
      r.produced + r.tags.length = n ∧ r.consumed = n ∧ r.produced = r.out.length := by
  obtain ⟨r, hr, _, hp, hc, _, hs⟩ := tagged_general_work_spec n nw xs buf h
  exact ⟨r, hr, hs, hc, hp⟩

/-- Witness for C3: four of five available items are processed. -/
theorem tag_extractor_produced_plus_tags_witness :
    4 ≤ [mk_marker 7, 1, 2, mk_marker 9, 5].length ∧
    ∃ r, general_work 4 0 [mk_marker 7, 1, 2, mk_marker 9, 5] (fun _ => 0) = some r ∧
      r.produced + r.tags.length = 4 ∧ r.consumed = 4 ∧ r.produced = r.out.length :=
  ⟨by decide, tag_extractor_produced_plus_tags 4 0 [mk_marker 7, 1, 2, mk_marker 9, 5]
    (fun _ => 0) (by decide)⟩

theorem absolute_offset_eq (nw i del : Nat) (h : del ≤ i) :
    absolute_offset nw i del = (nw + (i - del)) % two64 := by
  unfold absolute_offset two64
  omega

/-- The tags that the loop of the Tag Extractor adds are the expected ones. -/
theorem scan_loop_tags (n nw : Nat) : ∀ (input : List Nat) (i del : Nat) (out : Nat → Nat)
    (tags : List Tag) (del1 : Nat) (out1 : Nat → Nat) (tags1 : List Tag), del ≤ i →
    scan_loop n nw i del out tags input = some (del1, out1, tags1) →
    tags1 = tags ++ expected_tags nw (i - del) (input.take (n - i)) := by
  intro input
  induction input with
  | nil =>
    intro i del out tags del1 out1 tags1 _ h
    rw [scan_loop_nil] at h
    by_cases hg : i < n
    · rw [if_pos hg] at h; cases h
    · rw [if_neg hg] at h
      cases h
      simp [expected_tags]
  | cons x rest ih =>
    intro i del out tags del1 out1 tags1 hd h
    rw [scan_loop_cons] at h
    by_cases hg : i < n
    · rw [if_pos hg] at h
      have hn : n - i = (n - (i + 1)) + 1 := by omega
      rw [hn, List.take_succ_cons]
      by_cases hx : is_marker x = true
      · rw [if_pos hx] at h
        have h1 := ih _ _ _ _ _ _ _ (by omega) h
        have he : i + 1 - (del + 1) = i - del := by omega
        rw [h1, he, absolute_offset_eq _ _ _ hd]
        simp [expected_tags, hx]
      · rw [if_neg hx] at h
        have h1 := ih _ _ _ _ _ _ _ (by omega) h
        have he : i + 1 - del = (i - del) + 1 := by omega
        rw [h1, he]
        simp [expected_tags, hx]
    · rw [if_neg hg] at h
      cases h
      have hn : n - i = 0 := by omega
      simp [hn, expected_tags]

/-- One call of the Tag Extractor on `n` available items: output and tags. -/
theorem tagged_general_work_tags (n nw : Nat) (xs : List Nat) (buf : Nat → Nat)
    (h : n ≤ xs.length) :
    ∃ r, general_work n nw xs buf = some r ∧
      r.out = (xs.take n).filter (fun x => !is_marker x) ∧
      r.produced = ((xs.take n).filter (fun x => !is_marker x)).length ∧
      r.tags = expected_tags nw 0 (xs.take n) := by
  obtain ⟨del1, out1, tags1, h1, h2, h3, h4⟩ :=
    scan_loop_spec n nw xs 0 0 buf [] (le_refl _) (by omega)
  have ht := scan_loop_tags n nw xs 0 0 buf [] del1 out1 tags1 (le_refl _) h1
  have hlen := filter_marker_length (xs.take n)
  have htake : (xs.take n).length = n := by simp; omega
  simp only [Nat.sub_zero, Nat.zero_add, List.range_zero, List.map_nil, List.nil_append,
    List.length_nil] at h2 h3 h4 ht
  have hp : n - del1 = ((xs.take n).filter (fun x => !is_marker x)).length := by omega
  refine ⟨_, by unfold general_work; rw [h1], ?_, ?_, ht⟩
  · simp only; rw [hp, h4]
  · simp only; exact hp

theorem expected_tags_cons_marker (nw c x : Nat) (l : List Nat) (hx : is_marker x = true) :
    expected_tags nw c (x :: l) =
      ⟨(nw + c) % two64, tag_time x⟩ :: expected_tags nw c l := by
  rw [expected_tags, if_pos hx]

theorem expected_tags_cons_data (nw c x : Nat) (l : List Nat) (hx : is_marker x = false) :
    expected_tags nw c (x :: l) = expected_tags nw (c + 1) l := by
  rw [expected_tags, if_neg (by simp [hx])]

theorem expected_tags_length (nw : Nat) : ∀ (l : List Nat) (c : Nat),
    (expected_tags nw c l).length = (l.filter is_marker).length := by
  intro l
  induction l with
  | nil => intro c; rfl
  | cons x rest ih =>
    intro c
    by_cases hx : is_marker x = true
    · rw [expected_tags_cons_marker _ _ _ _ hx, List.filter_cons_of_pos hx, List.length_cons,
        List.length_cons, ih]
    · have hx' : is_marker x = false := by simpa using hx
      rw [expected_tags_cons_data _ _ _ _ hx', List.filter_cons_of_neg hx, ih]

theorem expected_tags_append_marker (nw : Nat) : ∀ (a : List Nat) (c m : Nat) (b : List Nat),
    is_marker m = true →
    expected_tags nw c (a ++ m :: b) =
      expected_tags nw c a ++
        ⟨(nw + (c + (a.filter (fun x => !is_marker x)).length)) % two64, tag_time m⟩ ::
          expected_tags nw (c + (a.filter (fun x => !is_marker x)).length) b := by
  intro a
  induction a with
  | nil =>
    intro c m b hm
    rw [List.nil_append, expected_tags_cons_marker _ _ _ _ hm]
    rfl
  | cons x rest ih =>
    intro c m b hm
    by_cases hx : is_marker x = true
    · rw [List.cons_append, expected_tags_cons_marker _ _ _ _ hx,
        expected_tags_cons_marker _ _ _ _ hx, ih _ _ _ hm,
        List.filter_cons_of_neg (by simp [hx]), List.cons_append]
    · have hx' : is_marker x = false := by simpa using hx
      have e : c + 1 + (rest.filter (fun x => !is_marker x)).length
          = c + ((rest.filter (fun x => !is_marker x)).length + 1) := by omega
      rw [List.cons_append, expected_tags_cons_data _ _ _ _ hx',
        expected_tags_cons_data _ _ _ _ hx', ih _ _ _ hm,
        List.filter_cons_of_pos (by simp [hx']), List.length_cons, e]

/-- The tag of the marker that follows the items `a`. -/
theorem expected_tags_getElem (nw : Nat) (a : List Nat) (c m : Nat) (b : List Nat)
    (hm : is_marker m = true) :
    (expected_tags nw c (a ++ m :: b))[(a.filter is_marker).length]? =
      some ⟨(nw + (c + (a.filter (fun x => !is_marker x)).length)) % two64, tag_time m⟩ := by
  rw [expected_tags_append_marker nw a c m b hm, ← expected_tags_length nw a c,
    List.getElem?_append_right (le_refl _)]
  simp

/-- An available item splits the items of the call. -/
theorem take_split (xs : List Nat) (n i m : Nat) (hi : i < n) (hm : xs[i]? = some m) :
    xs.take n = xs.take i ++ m :: (xs.take n).drop (i + 1) := by
  have hlt : i < xs.length := (List.getElem?_eq_some_iff.mp hm).1
  have hv : xs[i] = m := (List.getElem?_eq_some_iff.mp hm).2
  have hl : i < (xs.take n).length := by simp; omega
  have h1 : (xs.take n).take i = xs.take i := by
    rw [List.take_take]; congr 1; omega
  have h2 : (xs.take n)[i] = m := by
    rw [List.getElem_take]; exact hv
  conv => lhs; rw [← List.take_append_drop i (xs.take n), h1, List.drop_eq_getElem_cons hl, h2]

/-- The number of items that are not markers among the first `i` items. -/
theorem count_mono (l : List Nat) (i j : Nat) (h : i ≤ j) :
    ((l.take i).filter (fun x => !is_marker x)).length ≤
      ((l.take j).filter (fun x => !is_marker x)).length := by
  have e : l.take i = (l.take j).take i := by
    rw [List.take_take]; congr 1; omega
  rw [e]
  exact List.Sublist.length_le (List.Sublist.filter _ (List.take_sublist _ _))

theorem count_succ_data (l : List Nat) (k d : Nat) (hk : l[k]? = some d)
    (hd : is_marker d = false) :
    ((l.take (k + 1)).filter (fun x => !is_marker x)).length =
      ((l.take k).filter (fun x => !is_marker x)).length + 1 := by
  rw [List.take_succ, hk, List.filter_append]
  simp [hd]

theorem count_succ_marker (l : List Nat) (k d : Nat) (hk : l[k]? = some d)
    (hd : is_marker d = true) :
    (l.take (k + 1)).filter (fun x => !is_marker x) =
      (l.take k).filter (fun x => !is_marker x) := by
  rw [List.take_succ, hk, List.filter_append]
  simp [hd]

/-- Markers only between the indices `i` and `j`: the same items that are not
markers before both. -/
theorem count_eq_of_markers_between (l : List Nat) (i : Nat) : ∀ (j : Nat), i ≤ j →
    j ≤ l.length →
    (∀ k d, i ≤ k → k < j → l[k]? = some d → is_marker d = true) →
    (l.take j).filter (fun x => !is_marker x) = (l.take i).filter (fun x => !is_marker x) := by
  intro j
  induction j with
  | zero => intro h _ _; have : i = 0 := by omega
            rw [this]
  | succ j ih =>
    intro h hl hm
    rcases Nat.eq_or_lt_of_le h with he | hlt
    · rw [he]
    · have hj : j < l.length := by omega
      have hk : l[j]? = some l[j] := List.getElem?_eq_getElem hj
      rw [count_succ_marker l j l[j] hk (hm j l[j] (by omega) (by omega) hk)]
      exact ih (by omega) (by omega) (fun k d h1 h2 => hm k d h1 (by omega))

/-- Where an item that is not a marker stands among the items that are not
markers. -/
theorem filter_getElem_at (l : List Nat) (j d : Nat) (hj : l[j]? = some d)
    (hd : is_marker d = false) :
    (l.filter (fun x => !is_marker x))[((l.take j).filter (fun x => !is_marker x)).length]? =
      some d := by
  have hlt : j < l.length := (List.getElem?_eq_some_iff.mp hj).1
  have hv : l[j] = d := (List.getElem?_eq_some_iff.mp hj).2
  have e : l = l.take j ++ d :: l.drop (j + 1) := by
    conv => lhs; rw [← List.take_append_drop j l, List.drop_eq_getElem_cons hlt, hv]
  conv => lhs; arg 1; rw [e, List.filter_append]
  rw [List.getElem?_append_right (le_refl _)]
  simp [hd]

/-- Without wraparound every expected offset lies between the first and the
last position of the call, and the offsets do not decrease. -/
theorem expected_tags_bounds (nw : Nat) : ∀ (l : List Nat) (c : Nat),
    nw + c + l.length ≤ two64 →
    (∀ t ∈ expected_tags nw c l, nw + c ≤ t.offset ∧
      t.offset ≤ nw + c + (l.filter (fun x => !is_marker x)).length) ∧
    List.Pairwise (fun a b : Tag => a.offset ≤ b.offset) (expected_tags nw c l) := by
  intro l
  induction l with
  | nil => intro c _; exact ⟨by simp [expected_tags], by simp [expected_tags]⟩
  | cons x rest ih =>
    intro c h
    simp only [List.length_cons] at h
    by_cases hx : is_marker x = true
    · obtain ⟨h1, h2⟩ := ih c (by omega)
      rw [expected_tags_cons_marker _ _ _ _ hx, List.filter_cons_of_neg (by simp [hx])]
      have hmod : (nw + c) % two64 = nw + c := Nat.mod_eq_of_lt (by omega)
      refine ⟨?_, ?_⟩
      · intro t ht
        rcases List.mem_cons.mp ht with he | hr
        · rw [he]; simp only [hmod]; omega
        · exact h1 t hr
      · rw [List.pairwise_cons]
        refine ⟨?_, h2⟩
        intro t ht
        simp only [hmod]
        exact (h1 t ht).1
    · have hx' : is_marker x = false := by simpa using hx
      obtain ⟨h1, h2⟩ := ih (c + 1) (by omega)
      rw [expected_tags_cons_data _ _ _ _ hx', List.filter_cons_of_pos (by simp [hx']),
        List.length_cons]
      refine ⟨?_, h2⟩
      intro t ht
      have := h1 t ht
      omega

theorem count_le_index (l : List Nat) (i : Nat) :
    ((l.take i).filter (fun x => !is_marker x)).length ≤ i :=
  le_trans (List.length_filter_le _ _) (by simp)

/-- The tag of the marker at the input index `i`. -/
theorem tag_of_marker (n nw : Nat) (xs : List Nat) (i m : Nat) (hi : i < n)
    (hm : xs[i]? = some m) (hmk : is_marker m = true) :
    (expected_tags nw 0 (xs.take n))[((xs.take i).filter is_marker).length]? =
      some ⟨offset_at nw xs i, tag_time m⟩ := by
  rw [take_split xs n i m hi hm, expected_tags_getElem nw _ 0 m _ hmk, Nat.zero_add]
  rfl

theorem offset_at_eq (n nw : Nat) (xs : List Nat) (i : Nat) (hi : i < n)
    (hw : nw + n ≤ two64) :
    offset_at nw xs i = nw + ((xs.take i).filter (fun x => !is_marker x)).length := by
  have := count_le_index xs i
  exact Nat.mod_eq_of_lt (by omega)

/-- C13, as amended. Tag Extractor offsets within one call: for every call on
`n` available items with `nitems_written(0) + n ≤ 2^64`, so that no offset
wraps around, the offsets of the tags, taken in input order, do not decrease;
for two markers at the input indices `i < j` the second offset is greater than
the first if an item that is not a marker lies between them, and equal to it
if only markers do. -/
theorem offsets_nondecreasing (n nw : Nat) (xs : List Nat) (buf : Nat → Nat)
    (h : n ≤ xs.length) (hw : nw + n ≤ two64) :
    ∃ r, general_work n nw xs buf = some r ∧
      List.Pairwise (fun a b : Tag => a.offset ≤ b.offset) r.tags ∧
      ∀ i j mi mj, i < j → j < n → xs[i]? = some mi → is_marker mi = true →
        xs[j]? = some mj → is_marker mj = true →
        r.tags[((xs.take i).filter is_marker).length]? = some ⟨offset_at nw xs i, tag_time mi⟩ ∧
        r.tags[((xs.take j).filter is_marker).length]? = some ⟨offset_at nw xs j, tag_time mj⟩ ∧
        offset_at nw xs i ≤ offset_at nw xs j ∧
        ((∃ k d, i < k ∧ k < j ∧ xs[k]? = some d ∧ is_marker d = false) →
          offset_at nw xs i < offset_at nw xs j) ∧
        ((∀ k d, i < k → k < j → xs[k]? = some d → is_marker d = true) →
          offset_at nw xs i = offset_at nw xs j) := by
  obtain ⟨r, hr, _, _, ht⟩ := tagged_general_work_tags n nw xs buf h
  have hb := (expected_tags_bounds nw (xs.take n) 0 (by simp; omega)).2
  refine ⟨r, hr, by rw [ht]; exact hb, ?_⟩
  intro i j mi mj hij hj hi hmi hmj hmmj
  rw [ht, offset_at_eq n nw xs i (by omega) hw, offset_at_eq n nw xs j hj hw]
  refine ⟨?_, ?_, ?_, ?_, ?_⟩
  · rw [← offset_at_eq n nw xs i (by omega) hw]
    exact tag_of_marker n nw xs i mi (by omega) hi hmi
  · rw [← offset_at_eq n nw xs j hj hw]
    exact tag_of_marker n nw xs j mj hj hmj hmmj
  · have := count_mono xs i j (by omega)
    omega
  · rintro ⟨k, d, hik, hkj, hk, hd⟩
    have h1 := count_mono xs i k (by omega)
    have h2 := count_succ_data xs k d hk hd
    have h3 := count_mono xs (k + 1) j (by omega)
    omega
  · intro hall
    have h1 := count_succ_marker xs i mi hi hmi
    have h2 := count_eq_of_markers_between xs (i + 1) j (by omega) (by omega)
      (fun k d hk1 hk2 => hall k d (by omega) hk2)
    rw [h2, h1]

/-- Witness for C13: seven items with markers at the indices 1, 2 and 5. -/
theorem offsets_nondecreasing_witness :
    7 ≤ [5, mk_marker 10, mk_marker 11, 6, 7, mk_marker 12, 8].length ∧ 100 + 7 ≤ two64 ∧
    ∃ r, general_work 7 100 [5, mk_marker 10, mk_marker 11, 6, 7, mk_marker 12, 8]
        (fun _ => 0) = some r ∧
      List.Pairwise (fun a b : Tag => a.offset ≤ b.offset) r.tags ∧
      ∀ i j mi mj, i < j → j < 7 →
        [5, mk_marker 10, mk_marker 11, 6, 7, mk_marker 12, 8][i]? = some mi →
        is_marker mi = true →
        [5, mk_marker 10, mk_marker 11, 6, 7, mk_marker 12, 8][j]? = some mj →
        is_marker mj = true →
        r.tags[(([5, mk_marker 10, mk_marker 11, 6, 7, mk_marker 12, 8].take i).filter
            is_marker).length]? =
          some ⟨offset_at 100 [5, mk_marker 10, mk_marker 11, 6, 7, mk_marker 12, 8] i,
            tag_time mi⟩ ∧
        r.tags[(([5, mk_marker 10, mk_marker 11, 6, 7, mk_marker 12, 8].take j).filter
            is_marker).length]? =
          some ⟨offset_at 100 [5, mk_marker 10, mk_marker 11, 6, 7, mk_marker 12, 8] j,
            tag_time mj⟩ ∧
        offset_at 100 [5, mk_marker 10, mk_marker 11, 6, 7, mk_marker 12, 8] i ≤
          offset_at 100 [5, mk_marker 10, mk_marker 11, 6, 7, mk_marker 12, 8] j ∧
        ((∃ k d, i < k ∧ k < j ∧
            [5, mk_marker 10, mk_marker 11, 6, 7, mk_marker 12, 8][k]? = some d ∧
            is_marker d = false) →
          offset_at 100 [5, mk_marker 10, mk_marker 11, 6, 7, mk_marker 12, 8] i <
            offset_at 100 [5, mk_marker 10, mk_marker 11, 6, 7, mk_marker 12, 8] j) ∧
        ((∀ k d, i < k → k < j →
            [5, mk_marker 10, mk_marker 11, 6, 7, mk_marker 12, 8][k]? = some d →
            is_marker d = true) →
          offset_at 100 [5, mk_marker 10, mk_marker 11, 6, 7, mk_marker 12, 8] i =
            offset_at 100 [5, mk_marker 10, mk_marker 11, 6, 7, mk_marker 12, 8] j) :=
  ⟨by decide, by decide,
    offsets_nondecreasing 7 100 [5, mk_marker 10, mk_marker 11, 6, 7, mk_marker 12, 8]
      (fun _ => 0) (by decide) (by decide)⟩

/-- C13 as stated fails. Two markers that follow each other get the same
offset: on the input of the two markers with the timestamps 5 and 6, with
`nitems_written(0) = 100`, both tags have the offset 100. -/
theorem offsets_strictly_increasing_counterexample :
    (general_work 2 100 [mk_marker 5, mk_marker 6] (fun _ => 0)).map
        (fun r => r.tags.map Tag.offset) = some [100, 100] ∧
    ¬ List.Pairwise (fun a b : Nat => a < b) [100, 100] := by
  decide

/-- C14. Tag Extractor offsets across calls: for two successive calls on `n1`
and on `n2` available items, where `nitems_written(0)` is `nw` in the first
call and `nw` plus the number of items that the first call produced in the
second, both calls return and every offset of a tag of the second call is
greater than or equal to every offset of a tag of the first call. The
hypothesis `nw + n1 + n2 ≤ 2^64` is the range of the `uint64_t` sums of line
81: the counter `nitems_written(0)` starts at 0 and grows by the number of
items produced, so in no run does a sum reach `2^64`. -/
theorem offsets_continue_across_calls (n1 n2 nw : Nat) (xs1 xs2 : List Nat)
    (buf1 buf2 : Nat → Nat) (h1 : n1 ≤ xs1.length) (h2 : n2 ≤ xs2.length)
    (hw : nw + n1 + n2 ≤ two64) :
    ∃ r1 r2, general_work n1 nw xs1 buf1 = some r1 ∧
      general_work n2 (nw + r1.produced) xs2 buf2 = some r2 ∧
      ∀ t1 ∈ r1.tags, ∀ t2 ∈ r2.tags, t1.offset ≤ t2.offset := by
  obtain ⟨r1, hr1, _, hp1, ht1⟩ := tagged_general_work_tags n1 nw xs1 buf1 h1
  obtain ⟨r2, hr2, _, _, ht2⟩ := tagged_general_work_tags n2 (nw + r1.produced) xs2 buf2 h2
  have hl1 : (xs1.take n1).length = n1 := by simp; omega
  have hl2 : (xs2.take n2).length = n2 := by simp; omega
  have hp : r1.produced ≤ n1 := by
    rw [hp1]
    exact le_trans (List.length_filter_le _ _) (le_of_eq hl1)
  have hb1 := (expected_tags_bounds nw (xs1.take n1) 0 (by rw [hl1]; omega)).1
  have hb2 := (expected_tags_bounds (nw + r1.produced) (xs2.take n2) 0
    (by rw [hl2]; omega)).1
  refine ⟨r1, r2, hr1, hr2, ?_⟩
  intro t1 ht1' t2 ht2'
  rw [ht1] at ht1'
  rw [ht2] at ht2'
  have a := (hb1 t1 ht1').2
  have b := (hb2 t2 ht2').1
  rw [← hp1] at a
  omega

/-- Witness for C14: a call on three items, a marker last, then a call on
three items, a marker first. -/
theorem offsets_continue_across_calls_witness :
    3 ≤ [5, 6, mk_marker 10].length ∧ 3 ≤ [mk_marker 11, 7, mk_marker 12].length ∧
    100 + 3 + 3 ≤ two64 ∧
    ∃ r1 r2, general_work 3 100 [5, 6, mk_marker 10] (fun _ => 0) = some r1 ∧
      general_work 3 (100 + r1.produced) [mk_marker 11, 7, mk_marker 12] (fun _ => 0) =
        some r2 ∧
      ∀ t1 ∈ r1.tags, ∀ t2 ∈ r2.tags, t1.offset ≤ t2.offset :=
  ⟨by decide, by decide, by decide,
    offsets_continue_across_calls 3 3 100 [5, 6, mk_marker 10] [mk_marker 11, 7, mk_marker 12]
      (fun _ => 0) (fun _ => 0) (by decide) (by decide) (by decide)⟩

/-- C15. Tag Extractor annotation position: for every call on `n` available
items and every marker at an input index `i < n`, the call returns and the
tag of the marker has the offset `nitems_written(0)` plus the number of items
that are not markers among the input indices `0..i-1` (the `uint64_t` sum,
which is the sum of the numbers unless it reaches `2^64`);
and if an item that is not a marker follows the marker in the same call, the
first such item is written at the output index offset minus
`nitems_written(0)`, which is that number. -/
theorem tag_offset_is_next_output_position (n nw : Nat) (xs : List Nat) (buf : Nat → Nat)
    (i m : Nat) (h : n ≤ xs.length) (hnw : nw < two64) (hn : n < two64) (hi : i < n)
    (hm : xs[i]? = some m) (hmk : is_marker m = true) :
    ∃ r t, general_work n nw xs buf = some r ∧
      r.tags[((xs.take i).filter is_marker).length]? = some t ∧
      t.offset = (nw + ((xs.take i).filter (fun x => !is_marker x)).length) % two64 ∧
      (nw + n ≤ two64 →
        t.offset = nw + ((xs.take i).filter (fun x => !is_marker x)).length) ∧
      ∀ j d, i < j → j < n → xs[j]? = some d → is_marker d = false →
        (∀ k e, i < k → k < j → xs[k]? = some e → is_marker e = true) →
        (t.offset + (two64 - nw)) % two64 =
          ((xs.take i).filter (fun x => !is_marker x)).length ∧
        r.out[(t.offset + (two64 - nw)) % two64]? = some d := by
  obtain ⟨r, hr, ho, _, ht⟩ := tagged_general_work_tags n nw xs buf h
  have htag := tag_of_marker n nw xs i m hi hm hmk
  refine ⟨r, ⟨offset_at nw xs i, tag_time m⟩, hr, by rw [ht]; exact htag, rfl,
    fun hw => offset_at_eq n nw xs i hi hw, ?_⟩
  intro j d hij hj hd hdm hall
  have hc := count_le_index xs i
  have hsub : (offset_at nw xs i + (two64 - nw)) % two64
      = ((xs.take i).filter (fun x => !is_marker x)).length := by
    unfold offset_at
    generalize ((xs.take i).filter (fun x => !is_marker x)).length = c at hc ⊢
    unfold two64 at *
    omega
  refine ⟨hsub, ?_⟩
  simp only [hsub]
  have h1 := count_succ_marker xs i m hm hmk
  have h2 := count_eq_of_markers_between xs (i + 1) j (by omega) (by omega)
    (fun k e hk1 hk2 => hall k e (by omega) hk2)
  have hjt : (xs.take n)[j]? = some d := by
    rw [List.getElem?_take_of_lt hj]; exact hd
  have h3 := filter_getElem_at (xs.take n) j d hjt hdm
  have h4 : (xs.take n).take j = xs.take j := by
    rw [List.take_take]; congr 1; omega
  rw [h4, h2, h1] at h3
  rw [ho]; exact h3

/-- Witness for C15: the marker at the index 1, followed by a marker and then
by the data item 6, which is written at the output index 1. -/
theorem tag_offset_is_next_output_position_witness :
    5 ≤ [5, mk_marker 10, mk_marker 11, 6, 7].length ∧ 100 < two64 ∧ 5 < two64 ∧ 1 < 5 ∧
    [5, mk_marker 10, mk_marker 11, 6, 7][1]? = some (mk_marker 10) ∧
    is_marker (mk_marker 10) = true ∧
    ∃ r t, general_work 5 100 [5, mk_marker 10, mk_marker 11, 6, 7] (fun _ => 0) = some r ∧
      r.tags[(([5, mk_marker 10, mk_marker 11, 6, 7].take 1).filter is_marker).length]? =
        some t ∧
      t.offset = (100 + (([5, mk_marker 10, mk_marker 11, 6, 7].take 1).filter
        (fun x => !is_marker x)).length) % two64 ∧
      (100 + 5 ≤ two64 →
        t.offset = 100 + (([5, mk_marker 10, mk_marker 11, 6, 7].take 1).filter
          (fun x => !is_marker x)).length) ∧
      ∀ j d, 1 < j → j < 5 → [5, mk_marker 10, mk_marker 11, 6, 7][j]? = some d →
        is_marker d = false →
        (∀ k e, 1 < k → k < j → [5, mk_marker 10, mk_marker 11, 6, 7][k]? = some e →
          is_marker e = true) →
        (t.offset + (two64 - 100)) % two64 =
          (([5, mk_marker 10, mk_marker 11, 6, 7].take 1).filter
            (fun x => !is_marker x)).length ∧
        r.out[(t.offset + (two64 - 100)) % two64]? = some d :=
  ⟨by decide, by decide, by decide, by decide, by decide, by decide,
    tag_offset_is_next_output_position 5 100 [5, mk_marker 10, mk_marker 11, 6, 7]
      (fun _ => 0) 1 (mk_marker 10) (by decide) (by decide) (by decide) (by decide)
      (by decide) (by decide)⟩

end time_encoded_to_tagged_stream_impl

/-! ## Properties of the marker detector -/

/-- C20. Marker detector: an item is a marker, for the Padding Reconstructor
and for the Tag Extractor alike, if and only if its low 32 bits are
`0xFFFFFFFF`; for every 32-bit timestamp `ts` the item
`(ts << 32) | 0xFFFFFFFF` is a marker whose timestamp `item >> 32` is `ts`;
every 64-bit marker item is `(its timestamp << 32) | 0xFFFFFFFF`; and the
filler item 0 is not a marker. -/
theorem marker_detector (ts item : Nat) (hts : ts < 4294967296)
    (hitem : item < 18446744073709551616) :
    (is_marker item = true ↔ item % 2 ^ 32 = 0xFFFFFFFF) ∧
    is_marker ((ts <<< 32) ||| 0xFFFFFFFF) = true ∧
    marker_timestamp ((ts <<< 32) ||| 0xFFFFFFFF) = ts ∧
    ((ts <<< 32) ||| 0xFFFFFFFF) >>> 32 = ts ∧
    (is_marker item = true →
      marker_timestamp item = item >>> 32 ∧
      item = ((marker_timestamp item) <<< 32) ||| 0xFFFFFFFF) ∧
    is_marker 0 = false := by
  have hi := time_encoded_to_padded_stream_impl.is_marker_iff item
  have hmk : ∀ t, (t <<< 32) ||| 0xFFFFFFFF = t * two32 + 4294967295 :=
    time_encoded_to_padded_stream_impl.mk_marker_eq
  refine ⟨by rw [hi]; rfl, time_encoded_to_padded_stream_impl.is_marker_mk_marker ts, ?_, ?_, ?_,
    by decide⟩
  · have := time_encoded_to_padded_stream_impl.marker_timestamp_mk_marker ts
    unfold mk_marker at this
    rw [this]
    exact Nat.mod_eq_of_lt hts
  · rw [hmk, Nat.shiftRight_eq_div_pow]
    unfold two32
    omega
  · intro hm
    have h1 : item % two32 = 4294967295 := hi.mp hm
    have h2 : marker_timestamp item = item >>> 32 := by
      unfold marker_timestamp
      rw [Nat.shiftRight_eq_div_pow]
      unfold two32
      omega
    refine ⟨h2, ?_⟩
    rw [hmk, h2, Nat.shiftRight_eq_div_pow]
    unfold two32 at *
    omega

/-- Witness for C20: the timestamp 1000 and the marker item that carries the
timestamp 7. -/
theorem marker_detector_witness :
    1000 < 4294967296 ∧ 0x00000007FFFFFFFF < 18446744073709551616 ∧
    (is_marker 0x00000007FFFFFFFF = true ↔ 0x00000007FFFFFFFF % 2 ^ 32 = 0xFFFFFFFF) ∧
    is_marker ((1000 <<< 32) ||| 0xFFFFFFFF) = true ∧
    marker_timestamp ((1000 <<< 32) ||| 0xFFFFFFFF) = 1000 ∧
    ((1000 <<< 32) ||| 0xFFFFFFFF) >>> 32 = 1000 ∧
    (is_marker 0x00000007FFFFFFFF = true →
      marker_timestamp 0x00000007FFFFFFFF = 0x00000007FFFFFFFF >>> 32 ∧
      0x00000007FFFFFFFF = ((marker_timestamp 0x00000007FFFFFFFF) <<< 32) ||| 0xFFFFFFFF) ∧
    is_marker 0 = false :=
  ⟨by decide, by decide, marker_detector 1000 0x00000007FFFFFFFF (by decide) (by decide)⟩

/-! ## Properties of the compressed sample words -/

theorem shiftRight_lor (a b k : Nat) : (a ||| b) >>> k = a >>> k ||| b >>> k := by
  apply Nat.eq_of_testBit_eq
  intro i
  simp only [Nat.testBit_shiftRight, Nat.testBit_or]

theorem lor_land (a b c : Nat) : (a ||| b) &&& c = (a &&& c) ||| (b &&& c) := by
  apply Nat.eq_of_testBit_eq
  intro i
  simp only [Nat.testBit_and, Nat.testBit_or]
  cases a.testBit i <;> cases b.testBit i <;> cases c.testBit i <;> rfl

/-- The conversion to `int16_t` keeps the value modulo `2^16`. -/
theorem to_int16_mod (a : Nat) : (to_int16 a % 65536).toNat = a % 65536 := by
  unfold to_int16
  split <;> omega

/-- The range of `int16_t`. -/
theorem to_int16_range (a : Nat) : -32768 ≤ to_int16 a ∧ to_int16 a ≤ 32767 := by
  unfold to_int16
  split <;> omega

namespace sample_print_impl

/-- Arithmetic form of `time`: the low four bits of the word, then its high
sixteen bits. -/
theorem time_eq (w : Nat) (hw : w < 4294967296) :
    time w = (w % 16) * 65536 + w / 65536 := by
  unfold time
  have h1 : w &&& 0xf = w % 16 := by
    have := Nat.and_pow_two_sub_one_eq_mod w 4
    simpa using this
  have h2 : w >>> 16 = w / 65536 := by
    rw [Nat.shiftRight_eq_div_pow]
  have h3 : w / 65536 < 2 ^ 16 := by omega
  rw [h1, h2, Nat.shiftLeft_eq, Nat.mul_comm, ← Nat.mul_add_lt_is_or h3]

/-- Arithmetic form of `fft_index`. -/
theorem fft_index_eq (w : Nat) : fft_index w = (w / 16) % 2048 := by
  unfold fft_index
  have h1 : (w >>> 4) &&& 0x7ff = (w >>> 4) % 2048 := by
    have := Nat.and_pow_two_sub_one_eq_mod (w >>> 4) 11
    simpa using this
  rw [h1, Nat.shiftRight_eq_div_pow]
  omega

/-- Arithmetic form of `mag`: the halves of the word swapped. -/
theorem mag_eq (w : Nat) (hw : w < 4294967296) :
    mag w = (w % 65536) * 65536 + w / 65536 := by
  unfold mag
  have h1 : w &&& 0xffff = w % 65536 := by
    have := Nat.and_pow_two_sub_one_eq_mod w 16
    simpa using this
  have h2 : w >>> 16 = w / 65536 := by
    rw [Nat.shiftRight_eq_div_pow]
  have h3 : w / 65536 < 2 ^ 16 := by omega
  rw [h1, h2, Nat.shiftLeft_eq, Nat.lor_comm, Nat.mul_comm, ← Nat.mul_add_lt_is_or h3]

/-- The flag is bit 15 of the word. -/
theorem is_average_eq (w : Nat) : is_average w = w.testBit 15 := by
  unfold is_average
  have h1 : (w >>> 15) &&& (if (1 : Nat) == 1 then 1 else 0) = (w >>> 15) % 2 := by
    simp
  rw [h1, Nat.testBit, Nat.shiftRight_eq_div_pow]
  have h2 : 1 &&& w / 2 ^ 15 = (w / 2 ^ 15) % 2 := by
    rw [Nat.land_comm]
    simp
  rw [h2]

/-- C16, as amended. Word Codec example: in `word0 = 0x00008003` bit 15 is
set, so the word pair `word0 = 0x00008003`, `word1 = 0x00010002` is printed as
an average, with `fft_index = 0`, `time = 0x30000` and the magnitude
`0x00020001`; with bit 15 clear, `word0 = 0x00000003`, the pair is printed as
an FFT sample with `fft_index = 0`, the same time, `real = 2` and `imag = 1`. -/
theorem word_codec_example :
    is_average 0x00008003 = true ∧
    decode 0x00008003 0x00010002 = Line.average 0 0x30000 0x00020001 ∧
    work 2 [0x00008003, 0x00010002] = some ([Line.average 0 0x30000 0x00020001], 2) ∧
    is_average 0x00000003 = false ∧
    decode 0x00000003 0x00010002 = Line.fft_sample 0 0x30000 2 1 ∧
    work 2 [0x00000003, 0x00010002] = some ([Line.fft_sample 0 0x30000 2 1], 2) := by
  decide

/-- C16 as stated fails. The word `0x00008003` has bit 15 set: the average
flag is not clear, and the pair `0x00008003`, `0x00010002` is not printed as an
FFT sample, whatever the time. -/
theorem word_codec_example_counterexample :
    (0x00008003 : Nat).testBit 15 = true ∧
    is_average 0x00008003 = true ∧
    ∀ t, decode 0x00008003 0x00010002 ≠ Line.fft_sample 0 t 2 1 := by
  refine ⟨by decide, by decide, ?_⟩
  intro t
  have h : decode 0x00008003 0x00010002 = Line.average 0 0x30000 0x00020001 := by decide
  rw [h]
  exact fun hc => Line.noConfusion hc

/-- C17. Average classification: for every word `sample0` the flag that
`(sample0 >> 15) & 1 == 1` computes, in `sample_print` and in
`average_detector`, is true if and only if bit 15 of the word is set; the
pair is printed as an average exactly then and as an FFT sample otherwise:
every word pair is decoded. -/
theorem average_flag_is_bit_15 (sample0 sample1 : Nat) :
    (is_average sample0 = true ↔ sample0.testBit 15 = true) ∧
    (average_detector_impl.is_average sample0 = true ↔ sample0.testBit 15 = true) ∧
    (sample0.testBit 15 = true ↔ (sample0 / 32768) % 2 = 1) ∧
    (sample0.testBit 15 = true →
      decode sample0 sample1 = Line.average (fft_index sample0) (time sample0) (mag sample1)) ∧
    (sample0.testBit 15 = false →
      decode sample0 sample1 =
        Line.fft_sample (fft_index sample0) (time sample0) (real sample1) (imag sample1)) := by
  have h := is_average_eq sample0
  have h' : average_detector_impl.is_average sample0 = sample0.testBit 15 := h
  refine ⟨by rw [h], by rw [h'], ?_, ?_, ?_⟩
  · rw [Nat.testBit, Nat.shiftRight_eq_div_pow]
    have h2 : 1 &&& sample0 / 2 ^ 15 = (sample0 / 2 ^ 15) % 2 := by
      rw [Nat.land_comm]
      simp
    rw [h2]
    simp
  · intro hb
    unfold decode
    rw [h, hb]
    rfl
  · intro hb
    unfold decode
    rw [h, hb]
    rfl

/-- C18. Decoded field widths: for every 32-bit word, `time` is less than
`2^20`, its top four bits are the bits 3..0 of the word and its low sixteen
bits are the bits 31..16 of the word; `fft_index` is less than `2^11` and is
the bits 14..4 of the word. The average detector computes the same time. -/
theorem decoded_field_widths (sample0 : Nat) (hw : sample0 < 4294967296) :
    time sample0 < 2 ^ 20 ∧
    time sample0 / 2 ^ 16 = sample0 % 2 ^ 4 ∧
    time sample0 % 2 ^ 16 = sample0 / 2 ^ 16 ∧
    fft_index sample0 < 2 ^ 11 ∧
    fft_index sample0 = (sample0 / 2 ^ 4) % 2 ^ 11 ∧
    average_detector_impl.time sample0 = time sample0 := by
  have ht := time_eq sample0 hw
  have hf := fft_index_eq sample0
  refine ⟨?_, ?_, ?_, ?_, ?_, rfl⟩
  · rw [ht]; norm_num; omega
  · rw [ht]; norm_num; omega
  · rw [ht]; norm_num; omega
  · rw [hf]; norm_num; omega
  · rw [hf]; norm_num

/-- Witness for C18: the word `0x12348ab7`. -/
theorem decoded_field_widths_witness :
    0x12348ab7 < 4294967296 ∧
    time 0x12348ab7 < 2 ^ 20 ∧
    time 0x12348ab7 / 2 ^ 16 = 0x12348ab7 % 2 ^ 4 ∧
    time 0x12348ab7 % 2 ^ 16 = 0x12348ab7 / 2 ^ 16 ∧
    fft_index 0x12348ab7 < 2 ^ 11 ∧
    fft_index 0x12348ab7 = (0x12348ab7 / 2 ^ 4) % 2 ^ 11 ∧
    average_detector_impl.time 0x12348ab7 = time 0x12348ab7 :=
  ⟨by decide, decoded_field_widths 0x12348ab7 (by decide)⟩

/-- C19. Average reinterpretation: for every word pair, setting bit 15 of
`word0` leaves the decoded time and `fft_index` as they are and makes the pair
an average whose magnitude is `word1` with its 16-bit halves swapped,
`((word1 & 0xFFFF) << 16) | (word1 >> 16)`; swapping the halves of the
magnitude again gives `word1` back. -/
theorem average_reinterpretation (sample0 sample1 : Nat) (h1 : sample1 < 4294967296) :
    time (sample0 ||| 0x8000) = time sample0 ∧
    fft_index (sample0 ||| 0x8000) = fft_index sample0 ∧
    decode (sample0 ||| 0x8000) sample1 =
      Line.average (fft_index sample0) (time sample0) (mag sample1) ∧
    mag sample1 = ((sample1 &&& 0xFFFF) <<< 16) ||| (sample1 >>> 16) ∧
    mag sample1 < 4294967296 ∧
    mag (mag sample1) = sample1 := by
  have ht : time (sample0 ||| 0x8000) = time sample0 := by
    unfold time
    rw [lor_land, shiftRight_lor]
    have c1 : (0x8000 : Nat) &&& 0xf = 0 := by decide
    have c2 : (0x8000 : Nat) >>> 16 = 0 := by decide
    rw [c1, c2, Nat.or_zero, Nat.or_zero]
  have hf : fft_index (sample0 ||| 0x8000) = fft_index sample0 := by
    unfold fft_index
    rw [shiftRight_lor, lor_land]
    have c1 : ((0x8000 : Nat) >>> 4) &&& 0x7ff = 0 := by decide
    rw [c1, Nat.or_zero]
  have ha : is_average (sample0 ||| 0x8000) = true := by
    rw [is_average_eq, Nat.testBit_or]
    have c1 : (0x8000 : Nat).testBit 15 = true := by decide
    rw [c1, Bool.or_true]
  have hm := mag_eq sample1 h1
  have hlt : mag sample1 < 4294967296 := by rw [hm]; omega
  refine ⟨ht, hf, ?_, ?_, hlt, ?_⟩
  · unfold decode
    rw [ha, ht, hf]
    rfl
  · unfold mag
    exact Nat.lor_comm _ _
  · rw [mag_eq (mag sample1) hlt, hm]
    omega

/-- Witness for C19: the words `0x12340ab7` and `0xfffe8001`. -/
theorem average_reinterpretation_witness :
    0xfffe8001 < 4294967296 ∧
    time (0x12340ab7 ||| 0x8000) = time 0x12340ab7 ∧
    fft_index (0x12340ab7 ||| 0x8000) = fft_index 0x12340ab7 ∧
    decode (0x12340ab7 ||| 0x8000) 0xfffe8001 =
      Line.average (fft_index 0x12340ab7) (time 0x12340ab7) (mag 0xfffe8001) ∧
    mag 0xfffe8001 = ((0xfffe8001 &&& 0xFFFF) <<< 16) ||| (0xfffe8001 >>> 16) ∧
    mag 0xfffe8001 < 4294967296 ∧
    mag (mag 0xfffe8001) = 0xfffe8001 :=
  ⟨by decide, average_reinterpretation 0x12340ab7 0xfffe8001 (by decide)⟩

/-- The flag as a number is bit 15 of the word. -/
theorem flag_eq (w : Nat) : (if is_average w then 1 else 0) = (w / 32768) % 2 := by
  rw [is_average_eq, Nat.testBit_to_div_mod]
  by_cases h : w / 2 ^ 15 % 2 = 1
  · simp only [h, decide_True, if_true]
    omega
  · simp only [h, decide_False]
    simp only [Bool.false_eq_true, if_false]
    omega

/-- Assembly of a 32-bit word from its bits 31..16, bit 15, bits 14..4 and
bits 3..0. -/
theorem word0_assembly (hi f x lo : Nat) (hf : f < 2) (hx : x < 2048) (hlo : lo < 16) :
    ((hi <<< 16) ||| (f <<< 15) ||| (x <<< 4) ||| lo) =
      hi * 65536 + f * 32768 + x * 16 + lo := by
  have e1 : (hi <<< 16) ||| (f <<< 15) = 2 ^ 15 * (2 * hi + f) := by
    rw [Nat.shiftLeft_eq, Nat.shiftLeft_eq, Nat.mul_comm hi,
      ← Nat.mul_add_lt_is_or (by omega : f * 2 ^ 15 < 2 ^ 16)]
    omega
  have e2 : 2 ^ 15 * (2 * hi + f) ||| (x <<< 4) = 2 ^ 4 * (2048 * (2 * hi + f) + x) := by
    rw [Nat.shiftLeft_eq, ← Nat.mul_add_lt_is_or (by omega : x * 2 ^ 4 < 2 ^ 15)]
    omega
  rw [e1, e2, ← Nat.mul_add_lt_is_or (by omega : lo < 2 ^ 4)]
  omega

/-- Assembly of a 32-bit word from its halves. -/
theorem word1_assembly (hi lo : Nat) (hlo : lo < 65536) :
    ((hi <<< 16) ||| lo) = hi * 65536 + lo := by
  rw [Nat.shiftLeft_eq, Nat.mul_comm hi, ← Nat.mul_add_lt_is_or (by omega : lo < 2 ^ 16)]

/-- The low half of the second word, from `real`. -/
theorem real_mod (w : Nat) : (real w % 65536).toNat = w % 65536 := by
  unfold real
  have h1 : w &&& 0xffff = w % 65536 := by
    have := Nat.and_pow_two_sub_one_eq_mod w 16
    simpa using this
  rw [to_int16_mod, h1]
  omega

/-- The high half of the second word, from `imag`. -/
theorem imag_mod (w : Nat) (hw : w < 4294967296) : (imag w % 65536).toNat = w / 65536 := by
  unfold imag
  rw [to_int16_mod, Nat.shiftRight_eq_div_pow]
  omega

/-- C25. The compressed word decode is lossless: for every pair of 32-bit
words, `word0 = ((time & 0xFFFF) << 16) | (flag << 15) | (fft_index << 4) |
(time >> 16)`, where `flag` is 1 if the sample is an average and 0 if not, and
`word1 = ((imag mod 2^16) << 16) | (real mod 2^16)`, with `real` and `imag`
the signed 16-bit values, which lie in `[-32768, 32767]`; hence two pairs of
32-bit words with equal `time`, `fft_index`, flag, `real` and `imag` are
equal. -/
theorem decode_lossless (word0 word1 : Nat) (h0 : word0 < 4294967296)
    (h1 : word1 < 4294967296) :
    word0 = (((time word0 &&& 0xFFFF) <<< 16) ||| ((if is_average word0 then 1 else 0) <<< 15)
      ||| (fft_index word0 <<< 4) ||| (time word0 >>> 16)) ∧
    word1 = ((((imag word1 % 65536).toNat) <<< 16) ||| (real word1 % 65536).toNat) ∧
    -32768 ≤ real word1 ∧ real word1 ≤ 32767 ∧ -32768 ≤ imag word1 ∧ imag word1 ≤ 32767 ∧
    ∀ v0 v1 : Nat, v0 < 4294967296 → v1 < 4294967296 →
      time v0 = time word0 → fft_index v0 = fft_index word0 →
      is_average v0 = is_average word0 → real v1 = real word1 → imag v1 = imag word1 →
      v0 = word0 ∧ v1 = word1 := by
  have ht := time_eq word0 h0
  have hlow : time word0 &&& 0xFFFF = word0 / 65536 := by
    have := Nat.and_pow_two_sub_one_eq_mod (time word0) 16
    have e : time word0 &&& 0xFFFF = time word0 % 65536 := by simpa using this
    rw [e, ht]; omega
  have hhigh : time word0 >>> 16 = word0 % 16 := by
    rw [Nat.shiftRight_eq_div_pow, ht]; omega
  refine ⟨?_, ?_, (to_int16_range _).1, (to_int16_range _).2, (to_int16_range _).1,
    (to_int16_range _).2, ?_⟩
  · rw [hlow, hhigh, flag_eq, fft_index_eq,
      word0_assembly _ _ _ _ (by omega) (by omega) (by omega)]
    omega
  · rw [imag_mod word1 h1, real_mod, word1_assembly _ _ (by omega)]
    omega
  · intro v0 v1 hv0 hv1 e1 e2 e3 e4 e5
    have f1 : (if is_average v0 then 1 else 0) = (if is_average word0 then 1 else 0) := by
      rw [e3]
    rw [flag_eq, flag_eq] at f1
    rw [time_eq v0 hv0, ht] at e1
    rw [fft_index_eq, fft_index_eq] at e2
    have g4 := real_mod v1
    have g5 := imag_mod v1 hv1
    rw [e4, real_mod] at g4
    rw [e5, imag_mod word1 h1] at g5
    clear hlow hhigh ht e3 e4 e5
    have inj : ∀ p q p2 q2 : Nat, q < 65536 → q2 < 65536 →
        p * 65536 + q = p2 * 65536 + q2 → p = p2 ∧ q = q2 := by
      intro p q p2 q2 _ _ _
      constructor <;> omega
    obtain ⟨a1, a2⟩ := inj _ _ _ _ (by omega) (by omega) e1
    have d0 : ∀ w : Nat, w = (w / 65536) * 65536 + ((w / 32768) % 2) * 32768
        + ((w / 16) % 2048) * 16 + w % 16 := fun w => by omega
    have d1 : ∀ w : Nat, w = (w / 65536) * 65536 + w % 65536 := fun w => by omega
    constructor
    · rw [d0 v0, d0 word0, a1, a2, e2, f1]
    · rw [d1 v1, d1 word1, g4, g5]

/-- Witness for C25: the words `0x12348ab7` and `0xfffe8001`. -/
theorem decode_lossless_witness :
    0x12348ab7 < 4294967296 ∧ 0xfffe8001 < 4294967296 ∧
    0x12348ab7 = (((time 0x12348ab7 &&& 0xFFFF) <<< 16) |||
      ((if is_average 0x12348ab7 then 1 else 0) <<< 15)
      ||| (fft_index 0x12348ab7 <<< 4) ||| (time 0x12348ab7 >>> 16)) ∧
    0xfffe8001 = ((((imag 0xfffe8001 % 65536).toNat) <<< 16) |||
      (real 0xfffe8001 % 65536).toNat) ∧
    -32768 ≤ real 0xfffe8001 ∧ real 0xfffe8001 ≤ 32767 ∧
    -32768 ≤ imag 0xfffe8001 ∧ imag 0xfffe8001 ≤ 32767 ∧
    ∀ v0 v1 : Nat, v0 < 4294967296 → v1 < 4294967296 →
      time v0 = time 0x12348ab7 → fft_index v0 = fft_index 0x12348ab7 →
      is_average v0 = is_average 0x12348ab7 → real v1 = real 0xfffe8001 →
      imag v1 = imag 0xfffe8001 → v0 = 0x12348ab7 ∧ v1 = 0xfffe8001 :=
  ⟨by decide, by decide, decode_lossless 0x12348ab7 0xfffe8001 (by decide) (by decide)⟩

end sample_print_impl

/-! ## Rounding error of the floating-point operations, and the time value of the tags -/

theorem ilog2_aux_spec : ∀ (fuel n : Nat), 0 < n → n ≤ fuel →
    2 ^ ilog2_aux fuel n ≤ n ∧ n < 2 ^ (ilog2_aux fuel n + 1) := by
  intro fuel
  induction fuel with
  | zero => intro n h1 h2; omega
  | succ f ih =>
    intro n h1 h2
    rw [ilog2_aux]
    by_cases h : n < 2
    · rw [if_pos h]
      have : n = 1 := by omega
      subst this
      decide
    · rw [if_neg h]
      have := ih (n / 2) (by omega) (by omega)
      simp only [Nat.pow_succ] at this ⊢
      constructor <;> omega

theorem ilog2_spec (n : Nat) (h : 0 < n) : 2 ^ ilog2 n ≤ n ∧ n < 2 ^ (ilog2 n + 1) :=
  ilog2_aux_spec n n h (le_refl n)

theorem zpow_split (t : Int) : (2 : ℚ) ^ t = (2 : ℚ) ^ t.toNat / (2 : ℚ) ^ (-t).toNat := by
  rcases le_total 0 t with h | h
  · obtain ⟨k, rfl⟩ := Int.eq_ofNat_of_zero_le h
    simp
  · obtain ⟨k, hk⟩ := Int.eq_ofNat_of_zero_le (neg_nonneg.mpr h)
    have ht : t = -(k : Int) := by omega
    subst ht
    simp

theorem Fp.val_eq (x : Fp) : x.val = (x.man : ℚ) * (2 : ℚ) ^ x.exp := by
  unfold Fp.val Fp.num Fp.den
  rw [zpow_split]
  push_cast
  rw [mul_div_assoc]

theorem round_half_even_spec (n d : Nat) (hd : 0 < d) :
    |((round_half_even n d : Nat) : ℚ) - (n : ℚ) / (d : ℚ)| ≤ 1 / 2 := by
  have hdq : (0 : ℚ) < (d : ℚ) := by exact_mod_cast hd
  have key : (n : ℚ) = (d : ℚ) * ((n / d : Nat) : ℚ) + ((n % d : Nat) : ℚ) := by
    exact_mod_cast (Nat.div_add_mod n d).symm
  have hr : ((n % d : Nat) : ℚ) < (d : ℚ) := by exact_mod_cast Nat.mod_lt n hd
  have hr0 : (0 : ℚ) ≤ ((n % d : Nat) : ℚ) := by positivity
  have hdiv : (n : ℚ) / (d : ℚ) = ((n / d : Nat) : ℚ) + ((n % d : Nat) : ℚ) / (d : ℚ) := by
    rw [key]; field_simp; ring
  rw [hdiv]
  unfold round_half_even
  simp only []
  rw [abs_le]
  by_cases h1 : 2 * (n % d) < d
  · rw [if_pos h1]
    have h1q : 2 * ((n % d : Nat) : ℚ) < (d : ℚ) := by exact_mod_cast h1
    have : ((n % d : Nat) : ℚ) / (d : ℚ) ≤ 1 / 2 := by
      rw [div_le_iff₀ hdq]; linarith
    have : 0 ≤ ((n % d : Nat) : ℚ) / (d : ℚ) := by positivity
    constructor <;> linarith
  · rw [if_neg h1]
    have h1q : (d : ℚ) ≤ 2 * ((n % d : Nat) : ℚ) := by exact_mod_cast Nat.le_of_not_lt h1
    have hge : 1 / 2 ≤ ((n % d : Nat) : ℚ) / (d : ℚ) := by
      rw [le_div_iff₀ hdq]; linarith
    have hle : ((n % d : Nat) : ℚ) / (d : ℚ) ≤ 1 := by
      rw [div_le_iff₀ hdq]; linarith
    by_cases h2 : d < 2 * (n % d)
    · rw [if_pos h2]
      push_cast
      constructor <;> linarith
    · rw [if_neg h2]
      have h2q : 2 * ((n % d : Nat) : ℚ) = (d : ℚ) := by
        have : 2 * (n % d) = d := by omega
        exact_mod_cast this
      have heq : ((n % d : Nat) : ℚ) / (d : ℚ) = 1 / 2 := by
        rw [div_eq_iff (ne_of_gt hdq)]; linarith
      split
      · constructor <;> linarith
      · push_cast
        constructor <;> linarith

theorem ilog2_ratio_spec (num den : Nat) (hn : 0 < num) (hd : 0 < den) :
    (2 : ℚ) ^ (ilog2_ratio num den) ≤ (num : ℚ) / (den : ℚ) ∧
      (num : ℚ) / (den : ℚ) < (2 : ℚ) ^ (ilog2_ratio num den + 1) := by
  obtain ⟨ha1, ha2⟩ := ilog2_spec num hn
  obtain ⟨hb1, hb2⟩ := ilog2_spec den hd
  have hnq : (0 : ℚ) < (num : ℚ) := by exact_mod_cast hn
  have hdq : (0 : ℚ) < (den : ℚ) := by exact_mod_cast hd
  have ha1q : (2 : ℚ) ^ (ilog2 num : Int) ≤ (num : ℚ) := by
    rw [zpow_natCast]; exact_mod_cast ha1
  have ha2q : (num : ℚ) < (2 : ℚ) ^ ((ilog2 num : Int) + 1) := by
    have : (num : ℚ) < (2 : ℚ) ^ (ilog2 num + 1) := by exact_mod_cast ha2
    rw [show ((ilog2 num : Int) + 1) = ((ilog2 num + 1 : Nat) : Int) by push_cast; ring,
      zpow_natCast]
    exact this
  have hb1q : (2 : ℚ) ^ (ilog2 den : Int) ≤ (den : ℚ) := by
    rw [zpow_natCast]; exact_mod_cast hb1
  have hb2q : (den : ℚ) < (2 : ℚ) ^ ((ilog2 den : Int) + 1) := by
    have : (den : ℚ) < (2 : ℚ) ^ (ilog2 den + 1) := by exact_mod_cast hb2
    rw [show ((ilog2 den : Int) + 1) = ((ilog2 den + 1 : Nat) : Int) by push_cast; ring,
      zpow_natCast]
    exact this
  have h2 : (0 : ℚ) < 2 := by norm_num
  have h2n : (2 : ℚ) ≠ 0 := by norm_num
  -- the quotient lies between 2^(t-1) and 2^(t+1)
  have hlo : (2 : ℚ) ^ ((ilog2 num : Int) - (ilog2 den : Int) - 1) ≤ (num : ℚ) / (den : ℚ) := by
    rw [le_div_iff₀ hdq]
    have e : (2 : ℚ) ^ (ilog2 num : Int) =
        (2 : ℚ) ^ ((ilog2 num : Int) - (ilog2 den : Int) - 1) * (2 : ℚ) ^ ((ilog2 den : Int) + 1) := by
      rw [← zpow_add₀ h2n]; congr 1; ring
    have hpos : (0 : ℚ) < (2 : ℚ) ^ ((ilog2 num : Int) - (ilog2 den : Int) - 1) := zpow_pos h2 _
    calc (2 : ℚ) ^ ((ilog2 num : Int) - (ilog2 den : Int) - 1) * (den : ℚ)
        ≤ (2 : ℚ) ^ ((ilog2 num : Int) - (ilog2 den : Int) - 1) * (2 : ℚ) ^ ((ilog2 den : Int) + 1) :=
          mul_le_mul_of_nonneg_left (le_of_lt hb2q) (le_of_lt hpos)
      _ = (2 : ℚ) ^ (ilog2 num : Int) := e.symm
      _ ≤ (num : ℚ) := ha1q
  have hhi : (num : ℚ) / (den : ℚ) < (2 : ℚ) ^ ((ilog2 num : Int) - (ilog2 den : Int) + 1) := by
    rw [div_lt_iff₀ hdq]
    have e : (2 : ℚ) ^ ((ilog2 num : Int) + 1) =
        (2 : ℚ) ^ ((ilog2 num : Int) - (ilog2 den : Int) + 1) * (2 : ℚ) ^ (ilog2 den : Int) := by
      rw [← zpow_add₀ h2n]; congr 1; ring
    have hpos : (0 : ℚ) < (2 : ℚ) ^ ((ilog2 num : Int) - (ilog2 den : Int) + 1) := zpow_pos h2 _
    calc (num : ℚ) < (2 : ℚ) ^ ((ilog2 num : Int) + 1) := ha2q
      _ = (2 : ℚ) ^ ((ilog2 num : Int) - (ilog2 den : Int) + 1) * (2 : ℚ) ^ (ilog2 den : Int) := e
      _ ≤ (2 : ℚ) ^ ((ilog2 num : Int) - (ilog2 den : Int) + 1) * (den : ℚ) :=
          mul_le_mul_of_nonneg_left hb1q (le_of_lt hpos)
  -- the test of the definition compares the quotient with 2^t
  have hcond : (den * 2 ^ ((ilog2 num : Int) - (ilog2 den : Int)).toNat ≤
      num * 2 ^ (-((ilog2 num : Int) - (ilog2 den : Int))).toNat) ↔
      (2 : ℚ) ^ ((ilog2 num : Int) - (ilog2 den : Int)) ≤ (num : ℚ) / (den : ℚ) := by
    rw [zpow_split, le_div_iff₀ hdq, div_mul_eq_mul_div, div_le_iff₀ (by positivity)]
    constructor
    · intro h
      have : ((den * 2 ^ ((ilog2 num : Int) - (ilog2 den : Int)).toNat : Nat) : ℚ) ≤
          ((num * 2 ^ (-((ilog2 num : Int) - (ilog2 den : Int))).toNat : Nat) : ℚ) := by
        exact_mod_cast h
      push_cast at this
      linarith
    · intro h
      have : ((den * 2 ^ ((ilog2 num : Int) - (ilog2 den : Int)).toNat : Nat) : ℚ) ≤
          ((num * 2 ^ (-((ilog2 num : Int) - (ilog2 den : Int))).toNat : Nat) : ℚ) := by
        push_cast
        linarith
      exact_mod_cast this
  unfold ilog2_ratio
  simp only []
  by_cases hc : den * 2 ^ ((ilog2 num : Int) - (ilog2 den : Int)).toNat ≤
      num * 2 ^ (-((ilog2 num : Int) - (ilog2 den : Int))).toNat
  · rw [if_pos hc]
    exact ⟨hcond.mp hc, hhi⟩
  · rw [if_neg hc]
    refine ⟨hlo, ?_⟩
    rw [sub_add_cancel]
    exact lt_of_not_le (fun h => hc (hcond.mpr h))

theorem rne_nat (p a den : Nat) (ha : 0 < a) (hd : 0 < den) :
    rne p (a : Int) den =
      ⟨(round_half_even (a * 2 ^ (-(ilog2_ratio a den - ((p : Int) - 1))).toNat)
          (den * 2 ^ (ilog2_ratio a den - ((p : Int) - 1)).toNat) : Nat),
        ilog2_ratio a den - ((p : Int) - 1)⟩ := by
  unfold rne
  have h1 : ¬ ((a : Int) = 0 ∨ den = 0) := by omega
  have h2 : ¬ ((a : Int) < 0) := by omega
  rw [if_neg h1]
  simp only [Int.natAbs_ofNat, if_neg h2]

/-- Rounding to `p` bits changes a positive value by at most the fraction
`2^-p` of it. -/
theorem rne_spec (p a den : Nat) (ha : 0 < a) (hd : 0 < den) :
    |(rne p (a : Int) den).val - (a : ℚ) / (den : ℚ)| ≤ (a : ℚ) / (den : ℚ) / 2 ^ p := by
  rw [rne_nat p a den ha hd, Fp.val_eq]
  simp only []
  obtain ⟨hr, _⟩ := ilog2_ratio_spec a den ha hd
  generalize ilog2_ratio a den = r at hr ⊢
  generalize he : r - ((p : Int) - 1) = e
  have hm := round_half_even_spec (a * 2 ^ (-e).toNat) (den * 2 ^ e.toNat) (by positivity)
  generalize round_half_even (a * 2 ^ (-e).toNat) (den * 2 ^ e.toNat) = m at hm ⊢
  have h2n : (2 : ℚ) ≠ 0 := by norm_num
  have hpe : (0 : ℚ) < (2 : ℚ) ^ e := zpow_pos (by norm_num) _
  have hdq : (0 : ℚ) < (den : ℚ) := by exact_mod_cast hd
  have hratio : (((a * 2 ^ (-e).toNat : Nat) : ℚ)) / ((den * 2 ^ e.toNat : Nat) : ℚ)
      = (a : ℚ) / (den : ℚ) / (2 : ℚ) ^ e := by
    rw [zpow_split e]
    push_cast
    field_simp
  rw [hratio] at hm
  have hsplit : ((m : Int) : ℚ) * (2 : ℚ) ^ e - (a : ℚ) / (den : ℚ)
      = ((m : ℚ) - (a : ℚ) / (den : ℚ) / (2 : ℚ) ^ e) * (2 : ℚ) ^ e := by
    push_cast
    field_simp
    ring
  rw [hsplit, abs_mul, abs_of_pos hpe]
  have hbound : (2 : ℚ) ^ e / 2 ≤ (a : ℚ) / (den : ℚ) / 2 ^ p := by
    have e1 : (2 : ℚ) ^ e / 2 = (2 : ℚ) ^ r / 2 ^ p := by
      rw [← he, show r - ((p : Int) - 1) = r - (p : Int) + 1 by ring, zpow_add₀ h2n,
        zpow_sub₀ h2n, zpow_natCast]
      simp
    rw [e1]
    exact div_le_div_of_nonneg_right hr (by positivity)
  calc |(m : ℚ) - (a : ℚ) / (den : ℚ) / (2 : ℚ) ^ e| * (2 : ℚ) ^ e
      ≤ 1 / 2 * (2 : ℚ) ^ e := mul_le_mul_of_nonneg_right hm (le_of_lt hpe)
    _ = (2 : ℚ) ^ e / 2 := by ring
    _ ≤ (a : ℚ) / (den : ℚ) / 2 ^ p := hbound

theorem Fp.den_pos (x : Fp) : 0 < x.den := by
  unfold Fp.den
  positivity

theorem Fp.num_pos_of_val_pos (x : Fp) (h : 0 < x.val) : 0 < x.num := by
  by_contra hn
  have h1 : (x.num : ℚ) ≤ 0 := by exact_mod_cast not_lt.mp hn
  have h2 : (0 : ℚ) ≤ (x.den : ℚ) := by positivity
  have := div_nonpos_of_nonpos_of_nonneg h1 h2
  unfold Fp.val at h
  linarith

/-- Rounding a positive quotient of integers to `p ≥ 1` bits: the result is
positive and within the fraction `2^-p` of the quotient. -/
theorem rne_rel (p : Nat) (num : Int) (den : Nat) (hp : 1 ≤ p) (hn : 0 < num) (hd : 0 < den) :
    0 < (rne p num den).val ∧
      ((num : ℚ) / (den : ℚ)) * (1 - 1 / 2 ^ p) ≤ (rne p num den).val ∧
      (rne p num den).val ≤ ((num : ℚ) / (den : ℚ)) * (1 + 1 / 2 ^ p) := by
  obtain ⟨a, rfl⟩ := Int.eq_ofNat_of_zero_le (le_of_lt hn)
  have ha : 0 < a := by omega
  have h := rne_spec p a den ha hd
  rw [abs_le] at h
  have hq : (0 : ℚ) < (a : ℚ) / (den : ℚ) := by
    have h1 : (0 : ℚ) < (a : ℚ) := by exact_mod_cast ha
    have h2 : (0 : ℚ) < (den : ℚ) := by exact_mod_cast hd
    positivity
  have hpow : (2 : ℚ) ≤ 2 ^ p := by
    calc (2 : ℚ) = 2 ^ 1 := by norm_num
      _ ≤ 2 ^ p := pow_le_pow_right₀ (by norm_num) hp
  have hfrac : (a : ℚ) / (den : ℚ) / 2 ^ p ≤ (a : ℚ) / (den : ℚ) / 2 := by
    apply div_le_div_of_nonneg_left (le_of_lt hq) (by norm_num) hpow
  have e : (a : ℚ) / (den : ℚ) / 2 ^ p = (a : ℚ) / (den : ℚ) * (1 / 2 ^ p) := by ring
  simp only [Int.cast_natCast]
  refine ⟨by linarith, by linarith, by linarith⟩

/-- The constant `10.24` as a `double`. -/
theorem c_10_24_rel :
    0 < c_10_24.val ∧ (1024 / 100 : ℚ) * (1 - 1 / 2 ^ 53) ≤ c_10_24.val ∧
      c_10_24.val ≤ (1024 / 100 : ℚ) * (1 + 1 / 2 ^ 53) := by
  have h := rne_rel 53 1024 100 (by norm_num) (by norm_num) (by norm_num)
  have e : rne 53 1024 100 = c_10_24 := rfl
  rw [e] at h
  norm_num at h ⊢
  exact h

namespace time_encoded_to_tagged_stream_impl

/-- The time value of a tag for a positive tick count `ts`: it lies within the
fraction `2^-22` of `ts * 10.24`. -/
theorem time_value_rel (ts : Nat) (h : 0 < ts) :
    |(Fp.to_f32 (Fp.mul_f64 (Fp.of_uint_f32 ts) c_10_24)).val - (ts : ℚ) * (1024 / 100)| ≤
      (ts : ℚ) * (1024 / 100) / 2 ^ 22 := by
  have hts : (0 : ℚ) < (ts : ℚ) := by exact_mod_cast h
  -- float(ts)
  obtain ⟨p1, l1, u1⟩ := rne_rel 24 (ts : Int) 1 (by norm_num) (by omega) (by norm_num)
  have e1 : rne 24 (ts : Int) 1 = Fp.of_uint_f32 ts := rfl
  rw [e1] at p1 l1 u1
  simp only [Int.cast_natCast, Nat.cast_one, div_one] at l1 u1
  generalize Fp.of_uint_f32 ts = x1 at p1 l1 u1 ⊢
  -- the double 10.24
  obtain ⟨pc, lc, uc⟩ := c_10_24_rel
  generalize c_10_24 = c at pc lc uc ⊢
  -- the product in double
  have hx1 := Fp.num_pos_of_val_pos x1 p1
  have hc := Fp.num_pos_of_val_pos c pc
  obtain ⟨p2, l2, u2⟩ := rne_rel 53 (x1.num * c.num) (x1.den * c.den) (by norm_num)
    (Int.mul_pos hx1 hc) (Nat.mul_pos x1.den_pos c.den_pos)
  have e2 : rne 53 (x1.num * c.num) (x1.den * c.den) = Fp.mul_f64 x1 c := rfl
  rw [e2] at p2 l2 u2
  have eq2 : (((x1.num * c.num : Int) : ℚ)) / ((x1.den * c.den : Nat) : ℚ) = x1.val * c.val := by
    unfold Fp.val
    push_cast
    rw [mul_div_mul_comm]
  rw [eq2] at l2 u2
  generalize Fp.mul_f64 x1 c = x2 at p2 l2 u2 ⊢
  -- the conversion to float
  have hx2 := Fp.num_pos_of_val_pos x2 p2
  obtain ⟨_, l3, u3⟩ := rne_rel 24 x2.num x2.den (by norm_num) hx2 x2.den_pos
  have e3 : rne 24 x2.num x2.den = Fp.to_f32 x2 := rfl
  rw [e3] at l3 u3
  have eq3 : (x2.num : ℚ) / (x2.den : ℚ) = x2.val := rfl
  rw [eq3] at l3 u3
  generalize (Fp.to_f32 x2).val = v3 at l3 u3 ⊢
  generalize x2.val = v2 at p2 l2 u2 l3 u3
  generalize x1.val = v1 at p1 l1 u1 l2 u2
  generalize c.val = vc at pc lc uc l2 u2
  clear hx1 hc hx2 e1 e2 e3 eq2 eq3
  have hA : (0 : ℚ) ≤ 1 + 1 / 2 ^ 24 := by norm_num
  have hB : (0 : ℚ) ≤ 1 + 1 / 2 ^ 53 := by norm_num
  have hA2 : (0 : ℚ) ≤ 1 - 1 / 2 ^ 24 := by norm_num
  have hB2 : (0 : ℚ) ≤ 1 - 1 / 2 ^ 53 := by norm_num
  have up : v3 ≤ (ts : ℚ) * (1024 / 100) *
      ((1 + 1 / 2 ^ 24) * (1 + 1 / 2 ^ 53) * (1 + 1 / 2 ^ 53) * (1 + 1 / 2 ^ 24)) := by
    calc v3 ≤ v2 * (1 + 1 / 2 ^ 24) := u3
      _ ≤ (v1 * vc * (1 + 1 / 2 ^ 53)) * (1 + 1 / 2 ^ 24) := by gcongr
      _ ≤ (((ts : ℚ) * (1 + 1 / 2 ^ 24)) * ((1024 / 100) * (1 + 1 / 2 ^ 53)) * (1 + 1 / 2 ^ 53))
            * (1 + 1 / 2 ^ 24) := by gcongr
      _ = _ := by ring
  have lo : (ts : ℚ) * (1024 / 100) *
      ((1 - 1 / 2 ^ 24) * (1 - 1 / 2 ^ 53) * (1 - 1 / 2 ^ 53) * (1 - 1 / 2 ^ 24)) ≤ v3 := by
    calc (ts : ℚ) * (1024 / 100) *
          ((1 - 1 / 2 ^ 24) * (1 - 1 / 2 ^ 53) * (1 - 1 / 2 ^ 53) * (1 - 1 / 2 ^ 24))
        = (((ts : ℚ) * (1 - 1 / 2 ^ 24)) * ((1024 / 100) * (1 - 1 / 2 ^ 53)) * (1 - 1 / 2 ^ 53))
            * (1 - 1 / 2 ^ 24) := by ring
      _ ≤ (v1 * vc * (1 - 1 / 2 ^ 53)) * (1 - 1 / 2 ^ 24) := by gcongr
      _ ≤ v2 * (1 - 1 / 2 ^ 24) := by gcongr
      _ ≤ v3 := l3
  have hT : (0 : ℚ) < (ts : ℚ) * (1024 / 100) := by positivity
  generalize (ts : ℚ) * (1024 / 100) = T at up lo hT ⊢
  have kup : ((1 + 1 / 2 ^ 24) * (1 + 1 / 2 ^ 53) * (1 + 1 / 2 ^ 53) * (1 + 1 / 2 ^ 24) : ℚ)
      ≤ 1 + 1 / 2 ^ 22 := by norm_num
  have klo : (1 - 1 / 2 ^ 22 : ℚ) ≤
      (1 - 1 / 2 ^ 24) * (1 - 1 / 2 ^ 53) * (1 - 1 / 2 ^ 53) * (1 - 1 / 2 ^ 24) := by norm_num
  have up2 := le_trans up (mul_le_mul_of_nonneg_left kup (le_of_lt hT))
  have lo2 := le_trans (mul_le_mul_of_nonneg_left klo (le_of_lt hT)) lo
  rw [abs_le]
  constructor <;> linarith

/-- The time value is computed from the upper 32 bits of a 64-bit item. -/
theorem tag_time_eq (m : Nat) (h64 : m < two64) :
    tag_time m = Fp.to_f32 (Fp.mul_f64 (Fp.of_uint_f32 (m >>> 32)) c_10_24) := by
  unfold tag_time
  have hle : m >>> 32 ≤ m := by
    rw [Nat.shiftRight_eq_div_pow]; exact Nat.div_le_self _ _
  rw [Nat.mod_eq_of_lt (lt_of_le_of_lt hle h64)]

/-- The time value for the tick count 0 is 0. -/
theorem time_value_zero :
    (Fp.to_f32 (Fp.mul_f64 (Fp.of_uint_f32 0) c_10_24)).val = 0 := by
  have e : Fp.to_f32 (Fp.mul_f64 (Fp.of_uint_f32 0) c_10_24) = ⟨0, 0⟩ := by decide
  rw [e, Fp.val_eq]
  norm_num

/-- C21, as amended. Tag Extractor time value: for every call on `n` available
items and every marker at an input index `i < n`, the call returns and the
time value of the tag of the marker is `float(timestamp_ticks) * 10.24`, with
`timestamp_ticks = item >> 32`, as the code computes it: the tick count
converted to single precision, multiplied in double precision by the double
nearest to 10.24, and the product converted to single precision. Every item
with the same upper 32 bits gives the same time value, and the time value
differs from `timestamp_ticks * 10.24` by at most the fraction `2^-22` of
it. -/
theorem tag_time_value (n nw : Nat) (xs : List Nat) (buf : Nat → Nat) (i m : Nat)
    (h : n ≤ xs.length) (hi : i < n) (hm : xs[i]? = some m) (hmk : is_marker m = true)
    (h64 : m < two64) :
    ∃ r t, general_work n nw xs buf = some r ∧
      r.tags[((xs.take i).filter is_marker).length]? = some t ∧
      t.value = Fp.to_f32 (Fp.mul_f64 (Fp.of_uint_f32 (m >>> 32)) c_10_24) ∧
      (∀ m2, m2 >>> 32 = m >>> 32 → tag_time m2 = t.value) ∧
      |t.value.val - ((m >>> 32 : Nat) : ℚ) * (1024 / 100)| ≤
        ((m >>> 32 : Nat) : ℚ) * (1024 / 100) / 2 ^ 22 := by
  obtain ⟨r, hr, _, _, ht⟩ := tagged_general_work_tags n nw xs buf h
  have htag := tag_of_marker n nw xs i m hi hm hmk
  refine ⟨r, ⟨offset_at nw xs i, tag_time m⟩, hr, by rw [ht]; exact htag,
    tag_time_eq m h64, fun m2 h2 => by unfold tag_time; rw [h2], ?_⟩
  simp only [tag_time_eq m h64]
  rcases Nat.eq_zero_or_pos (m >>> 32) with h0 | hpos
  · rw [h0, time_value_zero]
    norm_num
  · exact time_value_rel (m >>> 32) hpos

set_option maxRecDepth 100000 in
/-- Witness for C21: the marker with the tick count 1000 at the index 1. -/
theorem tag_time_value_witness :
    3 ≤ [5, mk_marker 1000, 6].length ∧ 1 < 3 ∧
    [5, mk_marker 1000, 6][1]? = some (mk_marker 1000) ∧
    is_marker (mk_marker 1000) = true ∧ mk_marker 1000 < two64 ∧
    ∃ r t, general_work 3 100 [5, mk_marker 1000, 6] (fun _ => 0) = some r ∧
      r.tags[(([5, mk_marker 1000, 6].take 1).filter is_marker).length]? = some t ∧
      t.value = Fp.to_f32 (Fp.mul_f64 (Fp.of_uint_f32 (mk_marker 1000 >>> 32)) c_10_24) ∧
      (∀ m2, m2 >>> 32 = mk_marker 1000 >>> 32 → tag_time m2 = t.value) ∧
      |t.value.val - ((mk_marker 1000 >>> 32 : Nat) : ℚ) * (1024 / 100)| ≤
        ((mk_marker 1000 >>> 32 : Nat) : ℚ) * (1024 / 100) / 2 ^ 22 :=
  ⟨by decide, by decide, by decide, by decide, by decide,
    tag_time_value 3 100 [5, mk_marker 1000, 6] (fun _ => 0) 1 (mk_marker 1000)
      (by decide) (by decide) (by decide) (by decide) (by decide)⟩

set_option maxRecDepth 100000 in
/-- C21 as stated fails. The time value is a single-precision number: for the
tick count 1 it is `10737418 * 2^-20 = 10.239999771118164`, not 10.24; and
the markers with the tick counts `2^24` and `2^24 + 1` get the same time
value `10737418 * 2^4 = 171798688`, while `(2^24 + 1) * 10.24 = 171798702.08`. -/
theorem tag_time_counterexample :
    (general_work 3 0 [mk_marker 1, mk_marker 16777216, mk_marker 16777217]
        (fun _ => 0)).map (fun r => r.tags.map Tag.value) =
      some [⟨10737418, -20⟩, ⟨10737418, 4⟩, ⟨10737418, 4⟩] ∧
    (⟨10737418, -20⟩ : Fp).val ≠ 1 * (1024 / 100) ∧
    (⟨10737418, 4⟩ : Fp).val = 171798688 ∧
    (171798688 : ℚ) ≠ 16777217 * (1024 / 100) := by
  refine ⟨by decide, ?_, ?_, by norm_num⟩
  · rw [Fp.val_eq]; norm_num
  · rw [Fp.val_eq]; norm_num

end time_encoded_to_tagged_stream_impl

/-! ## The gap estimate of the Padding Reconstructor against the exact gap -/

theorem Fp.val_pos_of_num_pos (x : Fp) (h : 0 < x.num) : 0 < x.val := by
  unfold Fp.val
  have h1 : (0 : ℚ) < (x.num : ℚ) := by exact_mod_cast h
  have h2 : (0 : ℚ) < (x.den : ℚ) := by exact_mod_cast x.den_pos
  positivity

theorem Fp.num_eq_zero_of_val_eq_zero (x : Fp) (h : x.val = 0) : x.num = 0 := by
  unfold Fp.val at h
  have h2 : (x.den : ℚ) ≠ 0 := by
    have := x.den_pos
    exact_mod_cast (Nat.pos_iff_ne_zero.mp this)
  rcases div_eq_zero_iff.mp h with h1 | h1
  · exact_mod_cast h1
  · exact absurd h1 h2

/-- Multiplication in `double` of positive values: the result is positive and
within the fraction `2^-53` of the product. -/
theorem mul_f64_rel (x y : Fp) (hx : 0 < x.val) (hy : 0 < y.val) :
    0 < (Fp.mul_f64 x y).val ∧
      x.val * y.val * (1 - 1 / 2 ^ 53) ≤ (Fp.mul_f64 x y).val ∧
      (Fp.mul_f64 x y).val ≤ x.val * y.val * (1 + 1 / 2 ^ 53) := by
  have h := rne_rel 53 (x.num * y.num) (x.den * y.den) (by norm_num)
    (Int.mul_pos (x.num_pos_of_val_pos hx) (y.num_pos_of_val_pos hy))
    (Nat.mul_pos x.den_pos y.den_pos)
  have e : rne 53 (x.num * y.num) (x.den * y.den) = Fp.mul_f64 x y := rfl
  have eq : (((x.num * y.num : Int) : ℚ)) / ((x.den * y.den : Nat) : ℚ) = x.val * y.val := by
    unfold Fp.val
    push_cast
    rw [mul_div_mul_comm]
  rw [e, eq] at h
  exact h

/-- Division in `double` of a positive value by `1000000`. -/
theorem div_1000000_rel (x : Fp) (hx : 0 < x.val) :
    0 < (Fp.div_f64 x c_1000000).val ∧
      x.val / 1000000 * (1 - 1 / 2 ^ 53) ≤ (Fp.div_f64 x c_1000000).val ∧
      (Fp.div_f64 x c_1000000).val ≤ x.val / 1000000 * (1 + 1 / 2 ^ 53) := by
  have hn : c_1000000.num = 1000000 := by decide
  have hd : c_1000000.den = 1 := by decide
  have e : Fp.div_f64 x c_1000000 = rne 53 (x.num * 1) (x.den * 1000000) := by
    unfold Fp.div_f64
    rw [hn, hd]
    rfl
  have h := rne_rel 53 (x.num * 1) (x.den * 1000000) (by norm_num)
    (by have := x.num_pos_of_val_pos hx; omega) (Nat.mul_pos x.den_pos (by norm_num))
  have eq : (((x.num * 1 : Int) : ℚ)) / ((x.den * 1000000 : Nat) : ℚ) = x.val / 1000000 := by
    unfold Fp.val
    push_cast
    rw [mul_one, div_div]
  rw [← e, eq] at h
  exact h

/-- Narrowing of a positive `double` to `float`. -/
theorem to_f32_rel (x : Fp) (hx : 0 < x.val) :
    0 < (Fp.to_f32 x).val ∧
      x.val * (1 - 1 / 2 ^ 24) ≤ (Fp.to_f32 x).val ∧
      (Fp.to_f32 x).val ≤ x.val * (1 + 1 / 2 ^ 24) := by
  have h := rne_rel 24 x.num x.den (by norm_num) (x.num_pos_of_val_pos hx) x.den_pos
  have e : rne 24 x.num x.den = Fp.to_f32 x := rfl
  have eq : (x.num : ℚ) / (x.den : ℚ) = x.val := rfl
  rw [e, eq] at h
  exact h

/-- Addition of `0.5` in `double` to a positive value. -/
theorem add_half_rel (x : Fp) (hx : 0 < x.val) :
    (x.val + 1 / 2) * (1 - 1 / 2 ^ 53) ≤ (Fp.add_f64 x c_0_5).val ∧
      (Fp.add_f64 x c_0_5).val ≤ (x.val + 1 / 2) * (1 + 1 / 2 ^ 53) := by
  have hn : c_0_5.num = 1 := by decide
  have hd : c_0_5.den = 2 := by decide
  have e : Fp.add_f64 x c_0_5 = rne 53 (x.num * (2 : Nat) + 1 * x.den) (x.den * 2) := by
    unfold Fp.add_f64
    rw [hn, hd]
  have hpos := x.num_pos_of_val_pos hx
  have h := rne_rel 53 (x.num * (2 : Nat) + 1 * x.den) (x.den * 2) (by norm_num)
    (by have := x.den_pos; omega) (Nat.mul_pos x.den_pos (by norm_num))
  have hden : (x.den : ℚ) ≠ 0 := by
    have := x.den_pos
    exact_mod_cast (Nat.pos_iff_ne_zero.mp this)
  have eq : (((x.num * (2 : Nat) + 1 * x.den : Int) : ℚ)) / ((x.den * 2 : Nat) : ℚ)
      = x.val + 1 / 2 := by
    unfold Fp.val
    push_cast
    field_simp
  rw [← e, eq] at h
  exact ⟨h.2.1, h.2.2⟩

/-- The conversion of a value in the range of `uint32_t` to `uint32_t` is its
integer part. -/
theorem to_uint32_floor (x : Fp) (h0 : 0 ≤ x.num) (h1 : x.val < 4294967296) :
    ((x.to_uint32 : Nat) : ℚ) ≤ x.val ∧ x.val < ((x.to_uint32 : Nat) : ℚ) + 1 := by
  obtain ⟨a, ha⟩ := Int.eq_ofNat_of_zero_le h0
  have hdpos := x.den_pos
  have hdq : (0 : ℚ) < (x.den : ℚ) := by exact_mod_cast hdpos
  have hval : x.val = (a : ℚ) / (x.den : ℚ) := by
    unfold Fp.val
    rw [ha]
    simp
  have hlt : a / x.den < 4294967296 := by
    have h2 : ((a / x.den : Nat) : ℚ) ≤ (a : ℚ) / (x.den : ℚ) := by
      rw [le_div_iff₀ hdq]
      exact_mod_cast Nat.div_mul_le_self a x.den
    have h3 : ((a / x.den : Nat) : ℚ) < 4294967296 := by
      rw [hval] at h1; linarith
    exact_mod_cast h3
  have hu : x.to_uint32 = a / x.den := by
    unfold Fp.to_uint32
    rw [ha]
    simp only [Int.natAbs_ofNat]
    rw [if_pos (by omega)]
    generalize a / x.den = q at hlt ⊢
    omega
  rw [hu, hval]
  constructor
  · rw [le_div_iff₀ hdq]
    exact_mod_cast Nat.div_mul_le_self a x.den
  · rw [div_lt_iff₀ hdq]
    have : a < (a / x.den + 1) * x.den := by
      have := Nat.div_add_mod a x.den
      have := Nat.mod_lt a hdpos
      rw [Nat.add_mul, Nat.mul_comm]
      omega
    exact_mod_cast this

namespace time_encoded_to_padded_stream_impl

/-- The `float time_diff` of line 106 for a positive tick difference and a
positive sample rate: it is positive and within the fraction `2^-22` of
`timestamp_diff * 10.24 * sample_rate / 1000000`. -/
theorem time_diff_rel (rate : Fp) (d : Nat) (hd : 0 < d) (hr : 0 < rate.val) :
    0 < (Fp.to_f32 (Fp.mul_f64 (Fp.mul_f64 (Fp.of_uint_f32 d) c_10_24)
        (Fp.div_f64 rate c_1000000))).val ∧
      (d : ℚ) * (1024 / 100) * rate.val / 1000000 * (1 - 1 / 2 ^ 22) ≤
        (Fp.to_f32 (Fp.mul_f64 (Fp.mul_f64 (Fp.of_uint_f32 d) c_10_24)
          (Fp.div_f64 rate c_1000000))).val ∧
      (Fp.to_f32 (Fp.mul_f64 (Fp.mul_f64 (Fp.of_uint_f32 d) c_10_24)
          (Fp.div_f64 rate c_1000000))).val ≤
        (d : ℚ) * (1024 / 100) * rate.val / 1000000 * (1 + 1 / 2 ^ 22) := by
  have hdq : (0 : ℚ) < (d : ℚ) := by exact_mod_cast hd
  obtain ⟨p1, l1, u1⟩ := rne_rel 24 (d : Int) 1 (by norm_num) (by omega) (by norm_num)
  have e1 : rne 24 (d : Int) 1 = Fp.of_uint_f32 d := rfl
  rw [e1] at p1 l1 u1
  simp only [Int.cast_natCast, Nat.cast_one, div_one] at l1 u1
  generalize Fp.of_uint_f32 d = x1 at p1 l1 u1 ⊢
  obtain ⟨pc, lc, uc⟩ := c_10_24_rel
  generalize c_10_24 = c at pc lc uc ⊢
  obtain ⟨p2, l2, u2⟩ := mul_f64_rel x1 c p1 pc
  generalize Fp.mul_f64 x1 c = x2 at p2 l2 u2 ⊢
  obtain ⟨py, ly, uy⟩ := div_1000000_rel rate hr
  generalize Fp.div_f64 rate c_1000000 = y at py ly uy ⊢
  obtain ⟨p3, l3, u3⟩ := mul_f64_rel x2 y p2 py
  generalize Fp.mul_f64 x2 y = x3 at p3 l3 u3 ⊢
  obtain ⟨p4, l4, u4⟩ := to_f32_rel x3 p3
  generalize (Fp.to_f32 x3).val = v at p4 l4 u4 ⊢
  generalize x3.val = v3 at p3 l3 u3 l4 u4
  generalize y.val = vy at py ly uy l3 u3
  generalize x2.val = v2 at p2 l2 u2 l3 u3
  generalize x1.val = v1 at p1 l1 u1 l2 u2
  generalize c.val = vc at pc lc uc l2 u2
  generalize rate.val = r at hr ly uy ⊢
  have hA : (0 : ℚ) ≤ 1 + 1 / 2 ^ 24 := by norm_num
  have hB : (0 : ℚ) ≤ 1 + 1 / 2 ^ 53 := by norm_num
  have hA2 : (0 : ℚ) ≤ 1 - 1 / 2 ^ 24 := by norm_num
  have hB2 : (0 : ℚ) ≤ 1 - 1 / 2 ^ 53 := by norm_num
  have hr6 : (0 : ℚ) ≤ r / 1000000 := by positivity
  have up : v ≤ (d : ℚ) * (1024 / 100) * r / 1000000 *
      ((1 + 1 / 2 ^ 24) * (1 + 1 / 2 ^ 53) * (1 + 1 / 2 ^ 53) * (1 + 1 / 2 ^ 53)
        * (1 + 1 / 2 ^ 53) * (1 + 1 / 2 ^ 24)) := by
    calc v ≤ v3 * (1 + 1 / 2 ^ 24) := u4
      _ ≤ (v2 * vy * (1 + 1 / 2 ^ 53)) * (1 + 1 / 2 ^ 24) := by gcongr
      _ ≤ ((v1 * vc * (1 + 1 / 2 ^ 53)) * (r / 1000000 * (1 + 1 / 2 ^ 53)) * (1 + 1 / 2 ^ 53))
            * (1 + 1 / 2 ^ 24) := by gcongr
      _ ≤ (((((d : ℚ) * (1 + 1 / 2 ^ 24)) * ((1024 / 100) * (1 + 1 / 2 ^ 53)))
            * (1 + 1 / 2 ^ 53)) * (r / 1000000 * (1 + 1 / 2 ^ 53)) * (1 + 1 / 2 ^ 53))
            * (1 + 1 / 2 ^ 24) := by gcongr
      _ = _ := by ring
  have lo : (d : ℚ) * (1024 / 100) * r / 1000000 *
      ((1 - 1 / 2 ^ 24) * (1 - 1 / 2 ^ 53) * (1 - 1 / 2 ^ 53) * (1 - 1 / 2 ^ 53)
        * (1 - 1 / 2 ^ 53) * (1 - 1 / 2 ^ 24)) ≤ v := by
    calc (d : ℚ) * (1024 / 100) * r / 1000000 *
          ((1 - 1 / 2 ^ 24) * (1 - 1 / 2 ^ 53) * (1 - 1 / 2 ^ 53) * (1 - 1 / 2 ^ 53)
            * (1 - 1 / 2 ^ 53) * (1 - 1 / 2 ^ 24))
        = (((((d : ℚ) * (1 - 1 / 2 ^ 24)) * ((1024 / 100) * (1 - 1 / 2 ^ 53)))
            * (1 - 1 / 2 ^ 53)) * (r / 1000000 * (1 - 1 / 2 ^ 53)) * (1 - 1 / 2 ^ 53))
            * (1 - 1 / 2 ^ 24) := by ring
      _ ≤ ((v1 * vc * (1 - 1 / 2 ^ 53)) * (r / 1000000 * (1 - 1 / 2 ^ 53)) * (1 - 1 / 2 ^ 53))
            * (1 - 1 / 2 ^ 24) := by gcongr
      _ ≤ (v2 * vy * (1 - 1 / 2 ^ 53)) * (1 - 1 / 2 ^ 24) := by gcongr
      _ ≤ v3 * (1 - 1 / 2 ^ 24) := by gcongr
      _ ≤ v := l4
  have hE : (0 : ℚ) < (d : ℚ) * (1024 / 100) * r / 1000000 := by positivity
  generalize (d : ℚ) * (1024 / 100) * r / 1000000 = E at up lo hE ⊢
  have kup : ((1 + 1 / 2 ^ 24) * (1 + 1 / 2 ^ 53) * (1 + 1 / 2 ^ 53) * (1 + 1 / 2 ^ 53)
      * (1 + 1 / 2 ^ 53) * (1 + 1 / 2 ^ 24) : ℚ) ≤ 1 + 1 / 2 ^ 22 := by norm_num
  have klo : (1 - 1 / 2 ^ 22 : ℚ) ≤
      (1 - 1 / 2 ^ 24) * (1 - 1 / 2 ^ 53) * (1 - 1 / 2 ^ 53) * (1 - 1 / 2 ^ 53)
        * (1 - 1 / 2 ^ 53) * (1 - 1 / 2 ^ 24) := by norm_num
  exact ⟨p4, le_trans (mul_le_mul_of_nonneg_left klo (le_of_lt hE)) lo,
    le_trans up (mul_le_mul_of_nonneg_left kup (le_of_lt hE))⟩

/-- A sample rate of zero gives the gap estimate 0. -/
theorem sample_diff_rate_zero (rate : Fp) (d : Nat) (h : rate.num = 0) :
    sample_diff rate d = 0 := by
  have h1 : Fp.div_f64 rate c_1000000 = ⟨0, 0⟩ := by
    have hn : c_1000000.num = 1000000 := by decide
    unfold Fp.div_f64
    rw [hn, h, if_pos (by norm_num), Int.zero_mul, rne_zero]
  have h2 : ∀ x : Fp, Fp.mul_f64 x ⟨0, 0⟩ = ⟨0, 0⟩ := by
    intro x
    have : (⟨0, 0⟩ : Fp).num = 0 := by decide
    unfold Fp.mul_f64
    rw [this, Int.mul_zero, rne_zero]
  have h3 : Fp.to_f32 ⟨0, 0⟩ = ⟨0, 0⟩ := by decide
  have h4 : Fp.to_uint32 (Fp.add_f64 ⟨0, 0⟩ c_0_5) = 0 := by decide
  unfold sample_diff
  simp only [h1, h2, h3, h4]

/-- The gap estimate `sample_diff` of lines 106-107 against the exact value
`E = timestamp_diff * 10.24 * sample_rate / 1000000`: for a sample rate that
is not negative and `E ≤ 2^32 - 2048`, so that the conversion to `uint32_t` is
within range, it differs from `E` by at most `1/2 + E / 2^21`. -/
theorem sample_diff_bound (rate : Fp) (d : Nat) (hr : 0 ≤ rate.val)
    (hE : (d : ℚ) * (1024 / 100) * rate.val / 1000000 ≤ 4294965248) :
    |((sample_diff rate d : Nat) : ℚ) - (d : ℚ) * (1024 / 100) * rate.val / 1000000| ≤
      1 / 2 + (d : ℚ) * (1024 / 100) * rate.val / 1000000 / 2 ^ 21 := by
  rcases Nat.eq_zero_or_pos d with hd | hd
  · subst hd
    rw [sample_diff_zero]
    norm_num
  rcases eq_or_lt_of_le hr with hr0 | hrp
  · rw [sample_diff_rate_zero rate d (rate.num_eq_zero_of_val_eq_zero hr0.symm), ← hr0]
    norm_num
  obtain ⟨pv, lv, uv⟩ := time_diff_rel rate d hd hrp
  have hdq : (0 : ℚ) < (d : ℚ) := by exact_mod_cast hd
  have hEpos : (0 : ℚ) < (d : ℚ) * (1024 / 100) * rate.val / 1000000 := by positivity
  unfold sample_diff
  simp only []
  generalize Fp.to_f32 (Fp.mul_f64 (Fp.mul_f64 (Fp.of_uint_f32 d) c_10_24)
    (Fp.div_f64 rate c_1000000)) = x at pv lv uv ⊢
  generalize (d : ℚ) * (1024 / 100) * rate.val / 1000000 = E at hE hEpos lv uv ⊢
  obtain ⟨lw, uw⟩ := add_half_rel x pv
  have hwpos : 0 < (Fp.add_f64 x c_0_5).val := by
    have : (0 : ℚ) < (x.val + 1 / 2) * (1 - 1 / 2 ^ 53) := by
      have : (0 : ℚ) < 1 - 1 / 2 ^ 53 := by norm_num
      positivity
    linarith
  have hwlt : (Fp.add_f64 x c_0_5).val < 4294967296 := by
    have h1 : (x.val + 1 / 2) * (1 + 1 / 2 ^ 53) ≤
        (E * (1 + 1 / 2 ^ 22) + 1 / 2) * (1 + 1 / 2 ^ 53) := by gcongr
    have h2 : (E * (1 + 1 / 2 ^ 22) + 1 / 2) * (1 + 1 / 2 ^ 53) ≤
        (4294965248 * (1 + 1 / 2 ^ 22) + 1 / 2) * (1 + 1 / 2 ^ 53) := by gcongr
    have h3 : ((4294965248 : ℚ) * (1 + 1 / 2 ^ 22) + 1 / 2) * (1 + 1 / 2 ^ 53)
        < 4294967296 := by norm_num
    linarith
  obtain ⟨fl, fu⟩ := to_uint32_floor (Fp.add_f64 x c_0_5)
    (le_of_lt (Fp.num_pos_of_val_pos _ hwpos)) hwlt
  generalize (Fp.add_f64 x c_0_5).val = w at lw uw hwpos hwlt fl fu
  generalize Fp.to_uint32 (Fp.add_f64 x c_0_5) = S at fl fu ⊢
  generalize x.val = v at pv lv uv lw uw
  rcases lt_or_le E (1 / 4) with hsmall | hbig
  · -- the estimate is 0
    have hw1 : w < 1 := by
      have h1 : (v + 1 / 2) * (1 + 1 / 2 ^ 53) ≤
          (E * (1 + 1 / 2 ^ 22) + 1 / 2) * (1 + 1 / 2 ^ 53) := by gcongr
      have h2 : (E * (1 + 1 / 2 ^ 22) + 1 / 2) * (1 + 1 / 2 ^ 53) ≤
          (1 / 4 * (1 + 1 / 2 ^ 22) + 1 / 2) * (1 + 1 / 2 ^ 53) := by gcongr
      have h3 : ((1 / 4 : ℚ) * (1 + 1 / 2 ^ 22) + 1 / 2) * (1 + 1 / 2 ^ 53) < 1 := by norm_num
      linarith
    have hS : S = 0 := by
      have : (S : ℚ) < 1 := by linarith
      have : S < 1 := by exact_mod_cast this
      omega
    subst hS
    rw [abs_le]
    constructor
    · have : (0 : ℚ) ≤ E / 2 ^ 21 := by positivity
      push_cast
      linarith
    · have : (0 : ℚ) ≤ E / 2 ^ 21 := by positivity
      push_cast
      linarith
  · have h1 : (v + 1 / 2) * (1 + 1 / 2 ^ 53) ≤
        (E * (1 + 1 / 2 ^ 22) + 1 / 2) * (1 + 1 / 2 ^ 53) := by gcongr
    have h2 : (E * (1 - 1 / 2 ^ 22) + 1 / 2) * (1 - 1 / 2 ^ 53) ≤
        (v + 1 / 2) * (1 - 1 / 2 ^ 53) := by
      have : (0 : ℚ) ≤ 1 - 1 / 2 ^ 53 := by norm_num
      gcongr
    rw [abs_le]
    constructor
    · nlinarith
    · nlinarith

/-- The gap estimate of the specification is the exact value
`E = d * 10.24 * sample_rate / 1000000` rounded to the nearest integer, halves
upwards. -/
theorem spec_expected_round (rate : Fp) (d : Nat) :
    ((spec_expected rate d : Int) : ℚ) ≤ (d : ℚ) * (1024 / 100) * rate.val / 1000000 + 1 / 2 ∧
      (d : ℚ) * (1024 / 100) * rate.val / 1000000 + 1 / 2 <
        ((spec_expected rate d : Int) : ℚ) + 1 := by
  have hden := rate.den_pos
  have hdq : (0 : ℚ) < (rate.den : ℚ) := by exact_mod_cast hden
  have hD : (0 : Int) < 2 * (100 * 1000000 * (rate.den : Int)) := by omega
  have hDq : (0 : ℚ) < 2 * (100 * 1000000 * (rate.den : ℚ)) := by positivity
  have h1 := Int.ediv_mul_le (2 * ((d : Int) * 1024 * rate.num) + 100 * 1000000 * (rate.den : Int))
    (ne_of_gt hD)
  have h2 := Int.lt_ediv_add_one_mul_self
    (2 * ((d : Int) * 1024 * rate.num) + 100 * 1000000 * (rate.den : Int)) hD
  have e : (d : ℚ) * (1024 / 100) * rate.val / 1000000 + 1 / 2 =
      (2 * ((d : ℚ) * 1024 * (rate.num : ℚ)) + 100 * 1000000 * (rate.den : ℚ)) /
        (2 * (100 * 1000000 * (rate.den : ℚ))) := by
    unfold Fp.val
    field_simp
    ring
  rw [e]
  unfold spec_expected
  constructor
  · rw [le_div_iff₀ hDq]
    exact_mod_cast h1
  · rw [div_lt_iff₀ hDq]
    exact_mod_cast h2

/-- Taking the positive part does not increase a distance: the number of
zeros `max(0, S - k)` of the code against `max(0, R - k)`. -/
theorem positive_part_close (S k : Nat) (R : Int) (B : ℚ)
    (h1 : (S : ℚ) - (R : ℚ) ≤ B) (h2 : (R : ℚ) - (S : ℚ) ≤ B) :
    |((S - k : Nat) : ℚ) - (((if 0 < R - (k : Int) then R - (k : Int) else 0) : Int) : ℚ)| ≤ B := by
  have hB : 0 ≤ B := by linarith
  rw [abs_le]
  by_cases hk : k ≤ S
  · have e1 : ((S - k : Nat) : ℚ) = (S : ℚ) - (k : ℚ) := by push_cast [hk]; ring
    rw [e1]
    by_cases hR : 0 < R - (k : Int)
    · rw [if_pos hR]
      push_cast
      constructor <;> linarith
    · rw [if_neg hR]
      have : (R : ℚ) - (k : ℚ) ≤ 0 := by exact_mod_cast not_lt.mp hR
      have : (0 : ℚ) ≤ (S : ℚ) - (k : ℚ) := by
        have : (k : ℚ) ≤ (S : ℚ) := by exact_mod_cast hk
        linarith
      push_cast
      constructor <;> linarith
  · have e1 : S - k = 0 := by omega
    have hks : (S : ℚ) < (k : ℚ) := by exact_mod_cast not_le.mp hk
    rw [e1]
    by_cases hR : 0 < R - (k : Int)
    · rw [if_pos hR]
      have : (0 : ℚ) < (R : ℚ) - (k : ℚ) := by exact_mod_cast hR
      push_cast
      constructor <;> linarith
    · rw [if_neg hR]
      push_cast
      constructor <;> linarith

/-- C6, as amended. Padding between two markers: let the last marker have had
the tick value `t1`, not zero, let `k` data items follow it and then a marker
with the tick value `t1 + d` (modulo `2^32`), at a sample rate that is not
negative. Let `E = d * 10.24 * sample_rate / 1000000` be the exact gap, at most
`2^32 - 2048`, let `S` be the gap estimate as the code computes it in single
precision, `uint32_t(float(float(d) * 10.24 * (sample_rate/1000000)) + 0.5)`,
and let `S - k` lie in the range of `int`. Then the call whose capacity takes
all of it consumes the `k + 1` items and writes the `k` data items followed
by `S - k` zeros when that is positive, and by no zero otherwise; `S` differs
from `E` by at most `1/2 + E / 2^21`; and the number of zeros differs from
`round(E) - k` when that is positive, else 0, by at most `1 + E / 2^21`. -/
theorem filler_between_markers (rate : Fp) (t1 d : Nat) (p0 : Int) (ds : List Nat)
    (ht1 : 0 < t1) (hp0 : p0 ≤ 0)
    (hds : ∀ x ∈ ds, is_marker x = false)
    (hr : 0 ≤ rate.val)
    (hE : ((d % two32 : Nat) : ℚ) * (1024 / 100) * rate.val / 1000000 ≤ 4294965248)
    (hlo : -2147483648 ≤ (sample_diff rate (d % two32) : Int) - (ds.length : Int))
    (hhi : (sample_diff rate (d % two32) : Int) - (ds.length : Int) < 2147483648) :
    general_work (ds.length + max 1 (sample_diff rate (d % two32) - ds.length))
        ⟨t1, 0, p0, rate⟩ (ds ++ [mk_marker ((t1 + d) % two32)]) =
      some ⟨ds.length + 1,
        ds ++ List.replicate (sample_diff rate (d % two32) - ds.length) 0,
        ⟨(t1 + d) % two32, 0,
          min ((sample_diff rate (d % two32) : Int) - (ds.length : Int)) 0, rate⟩⟩ ∧
    |((sample_diff rate (d % two32) : Nat) : ℚ) -
        ((d % two32 : Nat) : ℚ) * (1024 / 100) * rate.val / 1000000| ≤
      1 / 2 + ((d % two32 : Nat) : ℚ) * (1024 / 100) * rate.val / 1000000 / 2 ^ 21 ∧
    |((sample_diff rate (d % two32) - ds.length : Nat) : ℚ) -
        ((spec_padding rate (d % two32) ds.length : Int) : ℚ)| ≤
      1 + ((d % two32 : Nat) : ℚ) * (1024 / 100) * rate.val / 1000000 / 2 ^ 21 := by
  have hb := sample_diff_bound rate (d % two32) hr hE
  refine ⟨general_work_between_markers rate t1 d p0 ds ht1 hp0 hds hlo hhi, hb, ?_⟩
  obtain ⟨r1, r2⟩ := spec_expected_round rate (d % two32)
  rw [abs_le] at hb
  unfold spec_padding
  apply positive_part_close
  · linarith
  · linarith

set_option maxRecDepth 100000 in
/-- Witness for C6: sample rate 1 MHz, markers at the ticks 7 and 7 + 51202
with two data items between them. The exact gap is 524308.48, which rounds to
524308; the code's estimate is 524309. -/
theorem filler_between_markers_witness :
    0 < 7 ∧ (0 : Int) ≤ 0 ∧ (∀ x ∈ [5, 6], is_marker x = false) ∧
    0 ≤ c_1000000.val ∧
    ((51202 % two32 : Nat) : ℚ) * (1024 / 100) * c_1000000.val / 1000000 ≤ 4294965248 ∧
    -2147483648 ≤ (sample_diff c_1000000 (51202 % two32) : Int) -
      (([5, 6] : List Nat).length : Int) ∧
    (sample_diff c_1000000 (51202 % two32) : Int) - (([5, 6] : List Nat).length : Int)
      < 2147483648 ∧
    general_work
        (([5, 6] : List Nat).length +
          max 1 (sample_diff c_1000000 (51202 % two32) - ([5, 6] : List Nat).length))
        ⟨7, 0, 0, c_1000000⟩ ([5, 6] ++ [mk_marker ((7 + 51202) % two32)]) =
      some ⟨([5, 6] : List Nat).length + 1,
        [5, 6] ++ List.replicate
          (sample_diff c_1000000 (51202 % two32) - ([5, 6] : List Nat).length) 0,
        ⟨(7 + 51202) % two32, 0,
          min ((sample_diff c_1000000 (51202 % two32) : Int) -
            (([5, 6] : List Nat).length : Int)) 0,
          c_1000000⟩⟩ ∧
    |((sample_diff c_1000000 (51202 % two32) : Nat) : ℚ) -
        ((51202 % two32 : Nat) : ℚ) * (1024 / 100) * c_1000000.val / 1000000| ≤
      1 / 2 + ((51202 % two32 : Nat) : ℚ) * (1024 / 100) * c_1000000.val / 1000000 / 2 ^ 21 ∧
    |((sample_diff c_1000000 (51202 % two32) - ([5, 6] : List Nat).length : Nat) : ℚ) -
        ((spec_padding c_1000000 (51202 % two32) ([5, 6] : List Nat).length : Int) : ℚ)| ≤
      1 + ((51202 % two32 : Nat) : ℚ) * (1024 / 100) * c_1000000.val / 1000000 / 2 ^ 21 :=
  ⟨by decide, by decide, by decide,
    by rw [Fp.val_eq]; norm_num [c_1000000],
    by rw [Fp.val_eq]; norm_num [c_1000000, two32],
    by decide, by decide,
    filler_between_markers c_1000000 7 51202 0 [5, 6] (by decide) (by decide) (by decide)
      (by rw [Fp.val_eq]; norm_num [c_1000000])
      (by rw [Fp.val_eq]; norm_num [c_1000000, two32])
      (by decide) (by decide)⟩

set_option maxRecDepth 100000 in
/-- The values of the witness for C6: the code's estimate is 524309, so
524307 zeros are written; the specification's padding is 524306. -/
theorem filler_between_markers_values :
    sample_diff c_1000000 (51202 % two32) = 524309 ∧
    spec_padding c_1000000 (51202 % two32) 2 = 524306 := by
  decide

end time_encoded_to_padded_stream_impl

end Sparsdr
